import Mathlib

/-!
SimpleTextEditor: the text buffer core (text_editor.c / text_editor.h)

Shallow embedding of the line buffer, its UTF-8 index translation, the KMP
search and the insert / replace / delete operators, followed by theorems
relating that code to the properties specified for it.

Modelling conventions
* A C string is the list of its bytes before the terminating NUL
  (`CStr = List Nat`, every byte in `1..255`).  Reading `s[i]` is
  `s.getD i 0`: the byte at the terminator, and any byte after it, reads 0.
  This is the code wherever the code stays inside the string, as the
  codepoint walks do on every well-formed UTF-8 line.  On a line that ends
  in a cut multi-byte sequence the walks step over the terminator; that
  case is treated on the raw bytes of the line array (`RawBuffer`), on
  which the same loops are run.
* `char lines[MAX_LINES][MAX_LINE_LENGTH + 1]` is a list of `MAX_LINES`
  strings; slots at or after `line_count` hold stale content, as in C.
* `int` values are `Int`; values the code has already checked to be
  non-negative are used as `Nat` indices.  `size_t` arithmetic that can wrap
  is taken modulo `SIZE_MOD`.
* A `const char *` argument is an `Option CStr` (`none` is `NULL`); the buffer
  pointer itself is taken to be non-null.
* Every `while` / `for` loop is a function recursive on a fuel argument that
  is shown never to run out.
-/

namespace SimpleTextEditor

/-! ## Constants and data model (text_editor.h) -/

/-- Capacity of one line in bytes (`#define MAX_LINE_LENGTH 4096`). -/
def MAX_LINE_LENGTH : Nat := 4096

/-- Capacity of the buffer in lines (`#define MAX_LINES 1000`). -/
def MAX_LINES : Nat := 1000

/-- Largest `int` (32 bit). -/
def INT_MAX : Int := 2147483647

/-- Number of values of `size_t` (64 bit). -/
def SIZE_MOD : Nat := 18446744073709551616

/-- Bytes of a NUL-terminated string, terminator excluded. -/
abbrev CStr := List Nat

/-- The struct `TextBuffer`. -/
structure TextBuffer where
  lines : List CStr
  line_count : Int
  modified : Int
  filename : CStr
deriving DecidableEq

/-- The struct `SearchResult`. -/
structure SearchResult where
  line : Int
  column : Int
deriving DecidableEq

/-- Representation invariant of one line slot: it fits `char[MAX_LINE_LENGTH + 1]`
and holds bytes `1..255` before its terminator. -/
def IsLine (l : CStr) : Prop :=
  l.length ≤ MAX_LINE_LENGTH ∧ ∀ b ∈ l, 0 < b ∧ b < 256

/-- Representation invariant of the struct: the array has `MAX_LINES` slots, each a
line, and `0 ≤ line_count ≤ MAX_LINES`. -/
def TextBuffer.WF (buf : TextBuffer) : Prop :=
  buf.lines.length = MAX_LINES ∧ 0 ≤ buf.line_count ∧ buf.line_count ≤ MAX_LINES ∧
    ∀ l ∈ buf.lines, IsLine l

/-- The occupied lines `lines[0 .. line_count)`, in order. -/
def TextBuffer.occupied (buf : TextBuffer) : List CStr :=
  buf.lines.take buf.line_count.toNat

/-! ## The bounds-checked CRT string functions the code calls -/

/-- CRT function `strcpy_s(dest, destsz, src)`: the new content of `dest`.  When `src` does not fit,
the CRT stores an empty string and raises the invalid-parameter condition. -/
def strcpy_s (destsz : Nat) (src : CStr) : CStr :=
  if src.length < destsz then src else []

/-- CRT function `strncpy_s(dest, destsz, src, _TRUNCATE)`: as much of `src` as fits. -/
def strncpy_s_truncate (destsz : Nat) (src : CStr) : CStr :=
  src.take (destsz - 1)

/-- CRT function `strncpy_s(dest, destsz, src, count)`: the first `count` bytes of `src` (all of it when
shorter); an empty string when they do not fit. -/
def strncpy_s (destsz : Nat) (src : CStr) (count : Nat) : CStr :=
  if (src.take count).length < destsz then src.take count else []

/-- CRT function `strcat_s(dest, destsz, src)`: `dest` with `src` appended; an empty string when the
result does not fit. -/
def strcat_s (dest : CStr) (destsz : Nat) (src : CStr) : CStr :=
  if dest.length + src.length < destsz then dest ++ src else []

/-! ## Initialisation and queries -/

/-- Source function `buffer_init`: every slot zeroed, no lines, clean, no filename. -/
def buffer_init (_buf : TextBuffer) : TextBuffer :=
  { lines := List.replicate MAX_LINES [], line_count := 0, modified := 0, filename := [] }

/-- Source function `buffer_clear`. -/
def buffer_clear (buf : TextBuffer) : TextBuffer :=
  buffer_init buf

/-- Source function `get_line_count`. -/
def get_line_count (buf : TextBuffer) : Int :=
  buf.line_count

/-- Source function `get_line`: `none` is the `NULL` result. -/
def get_line (buf : TextBuffer) (line_num : Int) : Option CStr :=
  if line_num < 0 ∨ line_num ≥ buf.line_count then none
  else some (buf.lines.getD line_num.toNat [])

/-- Source function `is_modified`. -/
def is_modified (buf : TextBuffer) : Int :=
  buf.modified

/-! ## insert_line and delete_line -/

/-- The loop `for (i = line_count; i > line_num; i--) strcpy_s(lines[i], .., lines[i-1])`
of `insert_line`, started at `i`. -/
def insert_line_shift (line_num : Nat) : Nat → List CStr → List CStr
  | 0, lines => lines
  | i + 1, lines =>
    if i + 1 > line_num then
      insert_line_shift line_num i
        (lines.set (i + 1) (strcpy_s (MAX_LINE_LENGTH + 1) (lines.getD i [])))
    else lines

/-- Source function `insert_line`: result code and buffer afterwards. -/
def insert_line (buf : TextBuffer) (line_num : Int) (text : Option CStr) : Int × TextBuffer :=
  match text with
  | none => (-1, buf)
  | some text =>
    if line_num < 0 ∨ line_num > buf.line_count then (-1, buf)
    else if buf.line_count ≥ MAX_LINES then (-1, buf)
    else
      let shifted := insert_line_shift line_num.toNat buf.line_count.toNat buf.lines
      let stored := shifted.set line_num.toNat (strncpy_s_truncate (MAX_LINE_LENGTH + 1) text)
      (0, { buf with lines := stored, line_count := buf.line_count + 1, modified := 1 })

/-- The loop `for (i = line_num; i < line_count - 1; i++) strcpy_s(lines[i], .., lines[i+1])`
of `delete_line`, at index `i`, with `fuel` iterations allowed. -/
def delete_line_shift (line_count : Int) : Nat → Nat → List CStr → List CStr
  | 0, _, lines => lines
  | fuel + 1, i, lines =>
    if (i : Int) < line_count - 1 then
      delete_line_shift line_count fuel (i + 1)
        (lines.set i (strcpy_s (MAX_LINE_LENGTH + 1) (lines.getD (i + 1) [])))
    else lines

/-- Source function `delete_line`: result code and buffer afterwards. -/
def delete_line (buf : TextBuffer) (line_num : Int) : Int × TextBuffer :=
  if line_num < 0 ∨ line_num ≥ buf.line_count then (-1, buf)
  else
    let shifted := delete_line_shift buf.line_count buf.line_count.toNat line_num.toNat buf.lines
    (0, { buf with lines := shifted, line_count := buf.line_count - 1, modified := 1 })

/-! ## UTF-8 helpers -/

/-- Source function `utf8_char_length`: sequence length announced by a lead byte, 1 for an invalid one. -/
def utf8_char_length (c : Nat) : Nat :=
  if c < 0x80 then 1
  else if c &&& 0xE0 = 0xC0 then 2
  else if c &&& 0xF0 = 0xE0 then 3
  else if c &&& 0xF8 = 0xF0 then 4
  else 1

/-- The loop of `utf8_strlen_chars`: `for (i = 0; s[i] != 0; ) { i += len; count++; }`. -/
def utf8_strlen_chars_loop (s : CStr) : Nat → Nat → Nat → Nat
  | 0, _, count => count
  | fuel + 1, i, count =>
    if s.getD i 0 ≠ 0 then
      utf8_strlen_chars_loop s fuel (i + utf8_char_length (s.getD i 0)) (count + 1)
    else count

/-- Source function `utf8_strlen_chars` on the bytes `s` that stand at the pointer (never
`NULL`): a line's bytes before its terminator, exact when the walk ends on the terminator,
or the raw bytes of a row and what follows it. -/
def utf8_strlen_chars (s : CStr) : Int :=
  (utf8_strlen_chars_loop s s.length 0 0 : Nat)

/-- The loop of `utf8_byte_offset`: `while (s[i] != 0 && idx < char_index)`; the final
`(i, idx)`. -/
def utf8_byte_offset_loop (s : CStr) (char_index : Int) : Nat → Nat → Nat → Nat × Nat
  | 0, i, idx => (i, idx)
  | fuel + 1, i, idx =>
    if s.getD i 0 ≠ 0 ∧ (idx : Int) < char_index then
      utf8_byte_offset_loop s char_index fuel (i + utf8_char_length (s.getD i 0)) (idx + 1)
    else (i, idx)

/-- Source function `utf8_byte_offset` on the bytes `s` that stand at the pointer (a
line's bytes before its terminator, exact when the walk ends inside the line or on its
terminator, or the raw bytes of a row): byte offset of character `char_index`, or -1. -/
def utf8_byte_offset (s : CStr) (char_index : Int) : Int :=
  if char_index < 0 then -1
  else if ((utf8_byte_offset_loop s char_index s.length 0 0).2 : Int) = char_index then
    ((utf8_byte_offset_loop s char_index s.length 0 0).1 : Int)
  else -1

/-- The loop of `utf8_char_index_from_byte`: `while (s[i] != 0 && i < byte_pos)`; the final
`(i, idx)`. -/
def utf8_char_index_from_byte_loop (s : CStr) (byte_pos : Int) : Nat → Nat → Nat → Nat × Nat
  | 0, i, idx => (i, idx)
  | fuel + 1, i, idx =>
    if s.getD i 0 ≠ 0 ∧ (i : Int) < byte_pos then
      utf8_char_index_from_byte_loop s byte_pos fuel (i + utf8_char_length (s.getD i 0)) (idx + 1)
    else (i, idx)

/-- Source function `utf8_char_index_from_byte` on a line of the buffer: character index of the codepoint
starting at byte `byte_pos`, or -1 when `byte_pos` is not a codepoint boundary. -/
def utf8_char_index_from_byte (s : CStr) (byte_pos : Int) : Int :=
  if byte_pos < 0 then -1
  else if ((utf8_char_index_from_byte_loop s byte_pos s.length 0 0).1 : Int) = byte_pos then
    ((utf8_char_index_from_byte_loop s byte_pos s.length 0 0).2 : Int)
  else -1

/-! ## Well-formed UTF-8 (the standard, independent of the code) -/

/-- Continuation byte `80..BF`. -/
def isCont (b : Nat) : Bool :=
  decide (0x80 ≤ b) && decide (b ≤ 0xBF)

/-- Well-formed UTF-8 byte sequence of one codepoint (Unicode Table 3-7), U+0000 excluded
because a C string cannot hold it. -/
def isUtf8Seq : CStr → Bool
  | [b0] => decide (1 ≤ b0) && decide (b0 ≤ 0x7F)
  | [b0, b1] => decide (0xC2 ≤ b0) && decide (b0 ≤ 0xDF) && isCont b1
  | [b0, b1, b2] =>
    (decide (b0 = 0xE0) && decide (0xA0 ≤ b1) && decide (b1 ≤ 0xBF) && isCont b2) ||
    (decide (0xE1 ≤ b0) && decide (b0 ≤ 0xEC) && isCont b1 && isCont b2) ||
    (decide (b0 = 0xED) && decide (0x80 ≤ b1) && decide (b1 ≤ 0x9F) && isCont b2) ||
    (decide (0xEE ≤ b0) && decide (b0 ≤ 0xEF) && isCont b1 && isCont b2)
  | [b0, b1, b2, b3] =>
    (decide (b0 = 0xF0) && decide (0x90 ≤ b1) && decide (b1 ≤ 0xBF) && isCont b2 && isCont b3) ||
    (decide (0xF1 ≤ b0) && decide (b0 ≤ 0xF3) && isCont b1 && isCont b2 && isCont b3) ||
    (decide (b0 = 0xF4) && decide (0x80 ≤ b1) && decide (b1 ≤ 0x8F) && isCont b2 && isCont b3)
  | _ => false

/-- The characters `cs` are the codepoints of the well-formed UTF-8 string `s`. -/
def IsUtf8Decomposition (cs : List CStr) (s : CStr) : Prop :=
  s = cs.flatten ∧ ∀ c ∈ cs, isUtf8Seq c = true

/-- Well-formed UTF-8 string. -/
def WellFormedUtf8 (s : CStr) : Prop :=
  ∃ cs : List CStr, IsUtf8Decomposition cs s

/-! ## Positional insert and replace -/

/-- Source function `insert_substring`: result code and buffer afterwards, on lines given by
their bytes before the terminator.  It is the code when the walk of `utf8_byte_offset` stays
inside the addressed line (every well-formed line); `insert_substring_raw` is the code on the
raw bytes. -/
def insert_substring (buf : TextBuffer) (line col : Int) (substr : Option CStr) :
    Int × TextBuffer :=
  match substr with
  | none => (-1, buf)
  | some substr =>
    if line < 0 ∨ line ≥ buf.line_count then (-1, buf)
    else
      let cur := buf.lines.getD line.toNat []
      let byte_col := utf8_byte_offset cur col
      if byte_col < 0 then (-1, buf)
      else
        let line_len := cur.length
        let substr_len := substr.length
        if line_len + substr_len > MAX_LINE_LENGTH then (-1, buf)
        else
          let temp := (strncpy_s (MAX_LINE_LENGTH + 1) cur byte_col.toNat).take byte_col.toNat
          let temp := strcat_s temp (MAX_LINE_LENGTH + 1) substr
          let temp := strcat_s temp (MAX_LINE_LENGTH + 1) (cur.drop byte_col.toNat)
          (0, { buf with
                  lines := buf.lines.set line.toNat (strcpy_s (MAX_LINE_LENGTH + 1) temp),
                  modified := 1 })

/-- Result of an `int` addition, wrapped to 32 bits two's complement. -/
def wrap32 (x : Int) : Int :=
  (x + 2147483648) % 4294967296 - 2147483648

/-- Source function `replace_at_position`: result code and buffer afterwards. -/
def replace_at_position (buf : TextBuffer) (line col len : Int) (newstr : Option CStr) :
    Int × TextBuffer :=
  match newstr with
  | none => (-1, buf)
  | some newstr =>
    if line < 0 ∨ line ≥ buf.line_count then (-1, buf)
    else if len < 0 then (-1, buf)
    else
      let cur := buf.lines.getD line.toNat []
      let line_chars := utf8_strlen_chars cur
      if col < 0 ∨ col ≥ line_chars then (-1, buf)
      else
        let len := if wrap32 (col + len) > line_chars then line_chars - col else len
        let byte_start := utf8_byte_offset cur col
        let byte_end := utf8_byte_offset cur (wrap32 (col + len))
        if byte_start < 0 then (-1, buf)
        else
          let byte_end := if byte_end < 0 then (cur.length : Int) else byte_end
          let line_len := cur.length
          let newstr_len := newstr.length
          if ((line_len : Int) - (byte_end - byte_start) + (newstr_len : Int)) % (SIZE_MOD : Int)
              > (MAX_LINE_LENGTH : Int) then (-1, buf)
          else
            let temp :=
              (strncpy_s (MAX_LINE_LENGTH + 1) cur byte_start.toNat).take byte_start.toNat
            let temp := strcat_s temp (MAX_LINE_LENGTH + 1) newstr
            let temp := strcat_s temp (MAX_LINE_LENGTH + 1) (cur.drop byte_end.toNat)
            (0, { buf with
                    lines := buf.lines.set line.toNat (strcpy_s (MAX_LINE_LENGTH + 1) temp),
                    modified := 1 })

/-! ## Substring search (Knuth-Morris-Pratt)

The `lps` table holds lengths, stored as `Nat`: the casts between `size_t` and `int` in the
source keep their value.  `malloc` is taken to succeed. -/

/-- The loop of `build_lps`, at `(i, len)`. -/
def build_lps_loop (pattern : CStr) (m : Nat) : Nat → Nat → Nat → List Nat → List Nat
  | 0, _, _, lps => lps
  | fuel + 1, i, len, lps =>
    if i < m then
      if pattern.getD i 0 = pattern.getD len 0 then
        build_lps_loop pattern m fuel (i + 1) (len + 1) (lps.set i (len + 1))
      else if len ≠ 0 then
        build_lps_loop pattern m fuel i (lps.getD (len - 1) 0) lps
      else
        build_lps_loop pattern m fuel (i + 1) len (lps.set i 0)
    else lps

/-- Source function `build_lps`: fills the `m` slots of `lps`. -/
def build_lps (pattern : CStr) (m : Nat) (lps : List Nat) : List Nat :=
  build_lps_loop pattern m (2 * m) 1 0 (lps.set 0 0)

/-- The loop of `kmp_count_line`, at `(i, j, count)`; `n = strlen(text)`. -/
def kmp_count_line_loop (text pattern : CStr) (lps : List Nat) (m n : Nat) :
    Nat → Nat → Nat → Int → Int
  | 0, _, _, count => count
  | fuel + 1, i, j, count =>
    if i < n then
      if text.getD i 0 = pattern.getD j 0 then
        if j + 1 = m then
          kmp_count_line_loop text pattern lps m n fuel (i + 1) (lps.getD (j + 1 - 1) 0) (count + 1)
        else
          kmp_count_line_loop text pattern lps m n fuel (i + 1) (j + 1) count
      else if j ≠ 0 then
        kmp_count_line_loop text pattern lps m n fuel i (lps.getD (j - 1) 0) count
      else
        kmp_count_line_loop text pattern lps m n fuel (i + 1) j count
    else count

/-- Source function `kmp_count_line`. -/
def kmp_count_line (text pattern : CStr) (lps : List Nat) (m : Nat) : Int :=
  kmp_count_line_loop text pattern lps m text.length (2 * text.length) 0 0 0

/-- The loop of `kmp_collect_line`, at `(i, j, count)`, with the result array. -/
def kmp_collect_line_loop (text pattern : CStr) (lps : List Nat) (m n : Nat) (line_idx : Int)
    (start_offset max_results : Int) :
    Nat → Nat → Nat → Int → List (Option SearchResult) → Int × List (Option SearchResult)
  | 0, _, _, count, results => (count, results)
  | fuel + 1, i, j, count, results =>
    if i < n then
      if text.getD i 0 = pattern.getD j 0 then
        if j + 1 = m then
          let written :=
            if start_offset + count < max_results then
              let byte_pos : Int := ((i + 1 - (j + 1) : Nat) : Int)
              let char_pos := utf8_char_index_from_byte text byte_pos
              let char_pos := if char_pos < 0 then byte_pos else char_pos
              results.set (start_offset + count).toNat (some ⟨line_idx, char_pos⟩)
            else results
          kmp_collect_line_loop text pattern lps m n line_idx start_offset max_results fuel
            (i + 1) (lps.getD (j + 1 - 1) 0) (count + 1) written
        else
          kmp_collect_line_loop text pattern lps m n line_idx start_offset max_results fuel
            (i + 1) (j + 1) count results
      else if j ≠ 0 then
        kmp_collect_line_loop text pattern lps m n line_idx start_offset max_results fuel
          i (lps.getD (j - 1) 0) count results
      else
        kmp_collect_line_loop text pattern lps m n line_idx start_offset max_results fuel
          (i + 1) j count results
    else (count, results)

/-- Source function `kmp_collect_line`: the count it returns and the result array afterwards. -/
def kmp_collect_line (text pattern : CStr) (lps : List Nat) (m : Nat) (line_idx : Int)
    (results : List (Option SearchResult)) (start_offset max_results : Int) :
    Int × List (Option SearchResult) :=
  kmp_collect_line_loop text pattern lps m text.length line_idx start_offset max_results
    (2 * text.length) 0 0 0 results

/-- The loop `for (i = 0; i < line_count; i++) count += kmp_count_line(..)` of
`find_substring_count`. -/
def find_substring_count_loop (buf : TextBuffer) (substr : CStr) (lps : List Nat)
    (substr_len : Nat) : Nat → Nat → Int → Int
  | 0, _, count => count
  | fuel + 1, i, count =>
    if (i : Int) < buf.line_count then
      find_substring_count_loop buf substr lps substr_len fuel (i + 1)
        (count + kmp_count_line (buf.lines.getD i []) substr lps substr_len)
    else count

/-- Source function `find_substring_count`. -/
def find_substring_count (buf : TextBuffer) (substr : Option CStr) : Int :=
  match substr with
  | none => 0
  | some substr =>
    if substr.getD 0 0 = 0 then 0
    else
      let substr_len := substr.length
      let lps := build_lps substr substr_len (List.replicate substr_len 0)
      find_substring_count_loop buf substr lps substr_len buf.line_count.toNat 0 0

/-- The loop `for (i = 0; i < line_count && idx < *count; i++) idx += kmp_collect_line(..)`
of `find_all_occurrences`. -/
def find_all_occurrences_loop (buf : TextBuffer) (substr : CStr) (lps : List Nat)
    (substr_len : Nat) (count : Int) :
    Nat → Nat → Int → List (Option SearchResult) → List (Option SearchResult)
  | 0, _, _, results => results
  | fuel + 1, i, idx, results =>
    if (i : Int) < buf.line_count ∧ idx < count then
      find_all_occurrences_loop buf substr lps substr_len count fuel (i + 1)
        (idx + (kmp_collect_line (buf.lines.getD i []) substr lps substr_len (i : Int)
          results idx count).1)
        (kmp_collect_line (buf.lines.getD i []) substr lps substr_len (i : Int)
          results idx count).2
    else results

/-- Source function `find_all_occurrences`: the returned array (`none` is `NULL`; a slot is `none` until it
is written) and the value left in `*count`, whose value on entry is `count`. -/
def find_all_occurrences (buf : TextBuffer) (substr : Option CStr) (count : Int) :
    Option (List (Option SearchResult)) × Int :=
  match substr with
  | none => (none, count)
  | some substr =>
    if find_substring_count buf (some substr) = 0 then
      (none, find_substring_count buf (some substr))
    else
      let results : List (Option SearchResult) :=
        List.replicate (find_substring_count buf (some substr)).toNat none
      let substr_len := substr.length
      let lps := build_lps substr substr_len (List.replicate substr_len 0)
      (some (find_all_occurrences_loop buf substr lps substr_len
          (find_substring_count buf (some substr)) buf.line_count.toNat 0 0 results),
        find_substring_count buf (some substr))

/-! ## What the search is specified to find -/

/-- The pattern occurs in the line at byte offset `s`: `line[s .. s + len p) = p`. -/
def occursAt (p line : CStr) (s : Nat) : Bool :=
  decide ((line.drop s).take p.length = p)

/-- Byte offsets at which the pattern occurs in the line, ascending. -/
def occurrences (p line : CStr) : List Nat :=
  (List.range line.length).filter (occursAt p line)

/-- Occurrences in the first `n` lines as `(line index, byte offset)`, by ascending line and,
within a line, ascending offset. -/
def bufferOccurrencesUpTo (p : CStr) (buf : TextBuffer) (n : Nat) : List (Nat × Nat) :=
  ((List.range n).map
    (fun l => (occurrences p (buf.lines.getD l [])).map (fun s => (l, s)))).flatten

/-- All occurrences in the buffer as `(line index, byte offset)`, by ascending line and, within
a line, ascending offset. -/
def bufferOccurrences (p : CStr) (buf : TextBuffer) : List (Nat × Nat) :=
  bufferOccurrencesUpTo p buf buf.line_count.toNat

/-- The column `kmp_collect_line` stores for a match at byte offset `s`: its character index,
or the byte offset itself when the match does not start on a codepoint boundary. -/
def reportedColumn (line : CStr) (s : Nat) : Int :=
  if utf8_char_index_from_byte line (s : Int) < 0 then (s : Int)
  else utf8_char_index_from_byte line (s : Int)

/-- The array slot `kmp_collect_line` writes for the occurrence `(line index, byte offset)`. -/
def resultOf (buf : TextBuffer) (o : Nat × Nat) : Option SearchResult :=
  some ⟨(o.1 : Int), reportedColumn (buf.lines.getD o.1 []) o.2⟩

/-- The first `k` bytes of `p` are the `k` bytes of `t` that end at offset `i`. -/
def PrefixEndsAt (p : CStr) (k : Nat) (t : CStr) (i : Nat) : Prop :=
  k ≤ i ∧ ∀ x, x < k → p.getD x 0 = t.getD (i - k + x) 0

/-- The value `v` is the length of the longest proper prefix of `p[0..k]` that is also a
suffix of it. -/
def IsLongestBorder (p : CStr) (k v : Nat) : Prop :=
  v ≤ k ∧ PrefixEndsAt p v p (k + 1) ∧ ∀ b, b ≤ k → PrefixEndsAt p b p (k + 1) → b ≤ v

/-- Loop invariant of the KMP scan at `(i, j)`: the first `j` bytes of the pattern end at
text offset `i`, and no longer prefix than `j + 1` can end at `i + 1`. -/
def ScanInv (p t : CStr) (m i j : Nat) : Prop :=
  j < m ∧ PrefixEndsAt p j t i ∧ ∀ k, k ≤ m → PrefixEndsAt p k t (i + 1) → k ≤ j + 1

/-- What one full match does to the count and the result array in `kmp_collect_line`. -/
def collectStep (text : CStr) (line_idx start_offset max_results : Int)
    (acc : Int × List (Option SearchResult)) (s : Nat) : Int × List (Option SearchResult) :=
  (acc.1 + 1,
    if start_offset + acc.1 < max_results then
      acc.2.set (start_offset + acc.1).toNat (some ⟨line_idx, reportedColumn text s⟩)
    else acc.2)

/-- A string argument lives in the address space next to the buffer, so
`strlen s + MAX_LINE_LENGTH` does not wrap in `size_t`. -/
def InAddressSpace (s : CStr) : Prop :=
  s.length + MAX_LINE_LENGTH < SIZE_MOD

instance (s : CStr) : Decidable (InAddressSpace s) :=
  inferInstanceAs (Decidable (s.length + MAX_LINE_LENGTH < SIZE_MOD))

/-! ## Concrete buffers used to instantiate the theorems -/

/-- A buffer holding exactly the given lines: the remaining slots are zeroed, as
`buffer_init` leaves them. -/
def bufferOfLines (ls : List CStr) : TextBuffer :=
  { lines := ls ++ List.replicate (MAX_LINES - ls.length) [],
    line_count := ls.length, modified := 0, filename := [] }

/-! ## Single-character replace and positional delete -/

/-- Source function `replace_char`: result code and buffer afterwards. -/
def replace_char (buf : TextBuffer) (line col : Int) (newchar_utf8 : Option CStr) :
    Int × TextBuffer :=
  match newchar_utf8 with
  | none => (-1, buf)
  | some newchar_utf8 =>
    if line < 0 ∨ line ≥ buf.line_count then (-1, buf)
    else
      let cur := buf.lines.getD line.toNat []
      let line_chars := utf8_strlen_chars cur
      if col < 0 ∨ col ≥ line_chars then (-1, buf)
      else
        let byte_start := utf8_byte_offset cur col
        let byte_end := utf8_byte_offset cur (wrap32 (col + 1))
        if byte_start < 0 then (-1, buf)
        else
          let byte_end := if byte_end < 0 then (cur.length : Int) else byte_end
          let line_len := cur.length
          let new_len := newchar_utf8.length
          if ((line_len : Int) - (byte_end - byte_start) + (new_len : Int)) % (SIZE_MOD : Int)
              > (MAX_LINE_LENGTH : Int) then (-1, buf)
          else
            let temp :=
              (strncpy_s (MAX_LINE_LENGTH + 1) cur byte_start.toNat).take byte_start.toNat
            let temp := strcat_s temp (MAX_LINE_LENGTH + 1) newchar_utf8
            let temp := strcat_s temp (MAX_LINE_LENGTH + 1) (cur.drop byte_end.toNat)
            (0, { buf with
                    lines := buf.lines.set line.toNat (strcpy_s (MAX_LINE_LENGTH + 1) temp),
                    modified := 1 })

/-- The string that starts at index `k` of a memory whose byte at index `x` is `mem x`, read
up to the first zero byte, at most `fuel` bytes. -/
def readCStr (mem : Nat → Nat) : Nat → Nat → CStr
  | 0, _ => []
  | fuel + 1, k => if mem k = 0 then [] else mem k :: readCStr mem fuel (k + 1)

/-- The line slot after `memmove(line + dst, line + src, count)`: every byte `dst + x` with
`x < count` becomes the old byte `src + x`, the others stay, and the line is what now stands
before the first zero byte.  Only the bytes of the slot are tracked, each byte behind the
terminator as 0: the function is meant for `src + count ≤ MAX_LINE_LENGTH + 1`, the tail of
the line and its terminator. -/
def memmove_line (cur : CStr) (dst src count : Nat) : CStr :=
  readCStr
    (fun k => if dst ≤ k ∧ k < dst + count then cur.getD (src + (k - dst)) 0 else cur.getD k 0)
    (MAX_LINE_LENGTH + 1) 0

/-- Source function `delete_at_position`: result code and buffer afterwards.  It is the
code when `byte_end` does not lie behind the terminator (every well-formed line), where
`memmove` moves the tail of the line; `delete_at_position_raw` is the code on the raw bytes,
with the calls C leaves undefined. -/
def delete_at_position (buf : TextBuffer) (line col len : Int) : Int × TextBuffer :=
  if line < 0 ∨ line ≥ buf.line_count then (-1, buf)
  else if len < 0 then (-1, buf)
  else
    let cur := buf.lines.getD line.toNat []
    let line_chars := utf8_strlen_chars cur
    if col < 0 ∨ col ≥ line_chars then (-1, buf)
    else
      let len := if wrap32 (col + len) > line_chars then line_chars - col else len
      let byte_start := utf8_byte_offset cur col
      let byte_end := utf8_byte_offset cur (wrap32 (col + len))
      if byte_start < 0 then (-1, buf)
      else
        let byte_end := if byte_end < 0 then (cur.length : Int) else byte_end
        let line_len := cur.length
        let count := ((line_len : Int) - byte_end + 1) % (SIZE_MOD : Int)
        (0, { buf with
                lines := buf.lines.set line.toNat
                  (memmove_line cur byte_start.toNat byte_end.toNat count.toNat),
                modified := 1 })

/-! ## Insertion at a global character position -/

/-- The loop of `insert_at_position` at line `i`: the value of the `return` it reaches, if
any, and `cumulative` when it ends. -/
def insert_at_position_loop (buf : TextBuffer) (pos : Int) (substr : Option CStr) :
    Nat → Nat → Int → Option (Int × TextBuffer) × Int
  | 0, _, cumulative => (none, cumulative)
  | fuel + 1, i, cumulative =>
    if (i : Int) < buf.line_count then
      if pos ≤ cumulative + utf8_strlen_chars (buf.lines.getD i []) then
        (some (insert_substring buf (i : Int) (pos - cumulative) substr), cumulative)
      else if (i : Int) ≠ buf.line_count - 1 then
        if pos = cumulative + utf8_strlen_chars (buf.lines.getD i []) then
          (some (insert_substring buf ((i : Int) + 1) 0 substr),
            cumulative + utf8_strlen_chars (buf.lines.getD i []))
        else
          insert_at_position_loop buf pos substr fuel (i + 1)
            (cumulative + utf8_strlen_chars (buf.lines.getD i []) + 1)
      else
        insert_at_position_loop buf pos substr fuel (i + 1)
          (cumulative + utf8_strlen_chars (buf.lines.getD i []))
    else (none, cumulative)

/-- Source function `insert_at_position`: result code and buffer afterwards, with the
character counts of the lines' bytes before the terminator (the code's counts on well-formed
lines); `insert_at_position_raw` is the code on the raw bytes. -/
def insert_at_position (buf : TextBuffer) (pos : Int) (substr : Option CStr) :
    Int × TextBuffer :=
  match substr with
  | none => (-1, buf)
  | some substr =>
    if pos < 0 then (-1, buf)
    else if buf.line_count = 0 then insert_line buf 0 (some substr)
    else
      match (insert_at_position_loop buf pos (some substr) buf.line_count.toNat 0 0).1 with
      | some returned => returned
      | none =>
        if pos = (insert_at_position_loop buf pos (some substr) buf.line_count.toNat 0 0).2 then
          insert_substring buf (buf.line_count - 1)
            (utf8_strlen_chars (buf.lines.getD (buf.line_count - 1).toNat [])) (some substr)
        else (-1, buf)

/-- Global character position of the start of line `i`: every earlier line counts its
characters and one unit for the boundary after it. -/
def lineStart (buf : TextBuffer) : Nat → Int
  | 0 => 0
  | i + 1 => lineStart buf i + utf8_strlen_chars (buf.lines.getD i []) + 1

/-- Sum of the character lengths of all lines plus the number of boundaries between lines. -/
def totalPositions (buf : TextBuffer) : Int :=
  ((List.range buf.line_count.toNat).map
    (fun k => utf8_strlen_chars (buf.lines.getD k []))).sum + (buf.line_count - 1)

/-! ## Replace all, delete substring -/

/-- C library function `strstr(hay, needle)`: offset of the first occurrence of `needle` in
`hay`, `none` for `NULL`. -/
def strstr : CStr → CStr → Option Nat
  | [], needle => if needle = [] then some 0 else none
  | b :: tl, needle =>
    if (b :: tl).take needle.length = needle then some 0
    else (strstr tl needle).map (fun k => k + 1)

/-- CRT function `strncat_s(dest, destsz, src, count)`: `dest` with the first `count` bytes of
`src` appended (all of it when shorter); an empty string when the result does not fit. -/
def strncat_s (dest : CStr) (destsz : Nat) (src : CStr) (count : Nat) : CStr :=
  if dest.length + (src.take count).length < destsz then dest ++ src.take count else []

/-- The `while ((p = strstr(p, oldstr)) != NULL)` loop of `replace_all` on one line: `last`
is the string at the pointer `last` (where `p` also stands at the loop head); the result is
`(temp, temp_len, last, count)` when the loop is left. -/
def replace_all_scan (oldstr newstr : CStr) :
    Nat → CStr → CStr → Nat → Int → CStr × Nat × CStr × Int
  | 0, last, temp, temp_len, count => (temp, temp_len, last, count)
  | fuel + 1, last, temp, temp_len, count =>
    match strstr last oldstr with
    | none => (temp, temp_len, last, count)
    | some prefix_len =>
      if (temp_len + prefix_len + newstr.length) % SIZE_MOD > MAX_LINE_LENGTH then
        (strncat_s temp (MAX_LINE_LENGTH + 1) last (MAX_LINE_LENGTH - temp_len),
          MAX_LINE_LENGTH, last, count)
      else
        replace_all_scan oldstr newstr fuel (last.drop (prefix_len + oldstr.length))
          (strcat_s (strncat_s temp (MAX_LINE_LENGTH + 1) last prefix_len)
            (MAX_LINE_LENGTH + 1) newstr)
          ((temp_len + prefix_len + newstr.length) % SIZE_MOD) (count + 1)

/-- The block `if (temp_len < MAX_LINE_LENGTH && last != NULL) { .. strncat_s(..) }` after
the loop, on the state `(temp, temp_len, last, count)`: the content of `temp` afterwards
(`last` is never `NULL`). -/
def replace_all_tail (r : CStr × Nat × CStr × Int) : CStr :=
  if r.2.1 < MAX_LINE_LENGTH then
    strncat_s r.1 (MAX_LINE_LENGTH + 1) r.2.2.1
      (if (r.2.1 + r.2.2.1.length) % SIZE_MOD > MAX_LINE_LENGTH
        then MAX_LINE_LENGTH - r.2.1 else r.2.2.1.length)
  else r.1

/-- The body of the `for` loop of `replace_all` up to the comparison, for one line: the
content of `temp` and `count` afterwards. -/
def replace_all_line (oldstr newstr line : CStr) (count : Int) : CStr × Int :=
  (replace_all_tail (replace_all_scan oldstr newstr line.length line [] 0 count),
    (replace_all_scan oldstr newstr line.length line [] 0 count).2.2.2)

/-- The `for (i = 0; i < line_count; i++)` loop of `replace_all` at line `i`: the lines, the
modified flag and `count` when it ends. -/
def replace_all_loop (oldstr newstr : CStr) (line_count : Int) :
    Nat → Nat → List CStr → Int → Int → List CStr × Int × Int
  | 0, _, lines, modified, count => (lines, modified, count)
  | fuel + 1, i, lines, modified, count =>
    if (i : Int) < line_count then
      if lines.getD i [] ≠ (replace_all_line oldstr newstr (lines.getD i []) count).1 then
        replace_all_loop oldstr newstr line_count fuel (i + 1)
          (lines.set i (strcpy_s (MAX_LINE_LENGTH + 1)
            (replace_all_line oldstr newstr (lines.getD i []) count).1))
          1 (replace_all_line oldstr newstr (lines.getD i []) count).2
      else
        replace_all_loop oldstr newstr line_count fuel (i + 1) lines modified
          (replace_all_line oldstr newstr (lines.getD i []) count).2
    else (lines, modified, count)

/-- Source function `replace_all`: the returned count (or -1) and the buffer afterwards. -/
def replace_all (buf : TextBuffer) (oldstr newstr : Option CStr) : Int × TextBuffer :=
  match oldstr, newstr with
  | none, _ => (-1, buf)
  | _, none => (-1, buf)
  | some oldstr, some newstr =>
    if oldstr.getD 0 0 = 0 then (0, buf)
    else
      let r := replace_all_loop oldstr newstr buf.line_count buf.line_count.toNat 0
        buf.lines buf.modified 0
      (r.2.2, { buf with lines := r.1, modified := if r.2.2 > 0 then 1 else r.2.1 })

/-- Source function `delete_substring`: the returned count (or -1) and the buffer
afterwards. -/
def delete_substring (buf : TextBuffer) (substr : Option CStr) : Int × TextBuffer :=
  match substr with
  | none => (-1, buf)
  | some substr =>
    if substr.getD 0 0 = 0 then (-1, buf)
    else replace_all buf (some substr) (some [])

/-- Greedy left-to-right non-overlapping replacement of `old` by `new` in `rest`: find the
leftmost occurrence, emit the bytes before it and `new`, resume `len old` bytes later, and at
the end emit the rest; with the number of occurrences replaced. -/
def greedyReplace (old new : CStr) : Nat → CStr → CStr × Nat
  | 0, rest => (rest, 0)
  | fuel + 1, rest =>
    match strstr rest old with
    | none => (rest, 0)
    | some k =>
      (rest.take k ++ new ++ (greedyReplace old new fuel (rest.drop (k + old.length))).1,
        (greedyReplace old new fuel (rest.drop (k + old.length))).2 + 1)

/-- The greedy replacement of a whole line. -/
def greedyLine (old new line : CStr) : CStr × Nat :=
  greedyReplace old new line.length line

/-- The first `n` greedy replacements in `rest`: the output so far and the unprocessed
remainder; `none` when `rest` holds fewer than `n` non-overlapping occurrences. -/
def greedySteps (old new : CStr) : Nat → CStr → Option (CStr × CStr)
  | 0, rest => some ([], rest)
  | n + 1, rest =>
    match strstr rest old with
    | none => none
    | some k =>
      (greedySteps old new n (rest.drop (k + old.length))).map
        (fun r => (rest.take k ++ new ++ r.1, r.2))

/-! ## Codepoint decoder -/

/-- Source function `utf8_next_codepoint` on the bytes starting at `p`: the codepoint
returned and the value stored in `*advance`. -/
def utf8_next_codepoint (p : CStr) : Int × Int :=
  if p.getD 0 0 < 0x80 then ((p.getD 0 0 : Nat), 1)
  else if p.getD 0 0 &&& 0xE0 = 0xC0 then
    ((((p.getD 0 0 &&& 0x1F) <<< 6) ||| (p.getD 1 0 &&& 0x3F) : Nat), 2)
  else if p.getD 0 0 &&& 0xF0 = 0xE0 then
    ((((p.getD 0 0 &&& 0x0F) <<< 12) ||| ((p.getD 1 0 &&& 0x3F) <<< 6) |||
      (p.getD 2 0 &&& 0x3F) : Nat), 3)
  else if p.getD 0 0 &&& 0xF8 = 0xF0 then
    ((((p.getD 0 0 &&& 0x07) <<< 18) ||| ((p.getD 1 0 &&& 0x3F) <<< 12) |||
      ((p.getD 2 0 &&& 0x3F) <<< 6) ||| (p.getD 3 0 &&& 0x3F) : Nat), 4)
  else ((p.getD 0 0 : Nat), 1)

/-- The content `replace_all` computes in `temp` for one line. -/
def lineAfterReplace (old new line : CStr) : CStr :=
  (replace_all_line old new line 0).1

/-- The number of replacements `replace_all` counts on one line. -/
def lineReplaceCount (old new line : CStr) : Int :=
  (replace_all_line old new line 0).2

/-- The `size_t` sum `temp_len + prefix_len + strlen(newstr)` of `replace_all` does not wrap:
the other two terms are at most `MAX_LINE_LENGTH`, and a string that lies in the address space
beside the buffer leaves that much room. -/
def NoWrapInReplace (s : CStr) : Prop :=
  s.length + 2 * MAX_LINE_LENGTH < SIZE_MOD

instance (s : CStr) : Decidable (NoWrapInReplace s) :=
  inferInstanceAs (Decidable (s.length + 2 * MAX_LINE_LENGTH < SIZE_MOD))

/-! ## Borders, as the specification words them -/

/-- The prefix of length `b` of `s` is a proper prefix of `s` that is also a suffix of `s`. -/
def IsBorderLength (s : CStr) (b : Nat) : Prop :=
  b < s.length ∧ s.take b = s.drop (s.length - b)

/-! ## The standard UTF-8 encoding (independent of the code) -/

/-- Standard UTF-8 encoding of the Unicode scalar value `cp`: one to four bytes, the lead
byte carrying the high bits and each continuation byte `10xxxxxx` carrying six bits. -/
def utf8Encode (cp : Nat) : CStr :=
  if cp < 0x80 then [cp]
  else if cp < 0x800 then [0xC0 + cp / 64, 0x80 + cp % 64]
  else if cp < 0x10000 then [0xE0 + cp / 4096, 0x80 + cp / 64 % 64, 0x80 + cp % 64]
  else [0xF0 + cp / 262144, 0x80 + cp / 4096 % 64, 0x80 + cp / 64 % 64, 0x80 + cp % 64]

/-- Unicode scalar value: a codepoint up to U+10FFFF that is not a surrogate. -/
def IsScalarValue (cp : Nat) : Prop :=
  cp ≤ 0x10FFFF ∧ ¬ (0xD800 ≤ cp ∧ cp ≤ 0xDFFF)

instance (cp : Nat) : Decidable (IsScalarValue cp) :=
  inferInstanceAs (Decidable (cp ≤ 0x10FFFF ∧ ¬ (0xD800 ≤ cp ∧ cp ≤ 0xDFFF)))

/-! ## Character statistics -/

/-- The struct `CharStatistics`. -/
structure CharStatistics where
  letter_count : Int
  digit_count : Int
  space_count : Int
  total_count : Int
  punctuation_count : Int
  other_count : Int
  chinese_count : Int
deriving DecidableEq

/-- Source function `is_cjk_char`. -/
def is_cjk_char (cp : Int) : Bool :=
  decide ((cp ≥ 0x4E00 ∧ cp ≤ 0x9FFF) ∨ (cp ≥ 0x3400 ∧ cp ≤ 0x4DBF) ∨
    (cp ≥ 0x20000 ∧ cp ≤ 0x2A6DF) ∨ (cp ≥ 0x2A700 ∧ cp ≤ 0x2B73F) ∨
    (cp ≥ 0x2B740 ∧ cp ≤ 0x2B81F) ∨ (cp ≥ 0x2B820 ∧ cp ≤ 0x2CEAF) ∨
    (cp ≥ 0xF900 ∧ cp ≤ 0xFAFF))

/-- Source function `is_cjk_punctuation_cp`. -/
def is_cjk_punctuation_cp (cp : Int) : Bool :=
  decide ((cp ≥ 0x3000 ∧ cp ≤ 0x303F) ∨ (cp ≥ 0xFE30 ∧ cp ≤ 0xFE4F) ∨
    (cp ≥ 0xFF00 ∧ cp ≤ 0xFF65))

/-- Source function `is_fullwidth_space`. -/
def is_fullwidth_space (cp : Int) : Bool :=
  decide (cp = 0x3000)

/-- Source function `is_fullwidth_digit`. -/
def is_fullwidth_digit (cp : Int) : Bool :=
  decide (cp ≥ 0xFF10 ∧ cp ≤ 0xFF19)

/-- Source function `is_fullwidth_letter`. -/
def is_fullwidth_letter (cp : Int) : Bool :=
  decide ((cp ≥ 0xFF21 ∧ cp ≤ 0xFF3A) ∨ (cp ≥ 0xFF41 ∧ cp ≤ 0xFF5A))

/-- Source function `is_letter`: `'a'..'z'` or `'A'..'Z'`. -/
def is_letter (c : Int) : Bool :=
  decide ((c ≥ 97 ∧ c ≤ 122) ∨ (c ≥ 65 ∧ c ≤ 90))

/-- Source function `is_digit_char`: `'0'..'9'`. -/
def is_digit_char (c : Int) : Bool :=
  decide (c ≥ 48 ∧ c ≤ 57)

/-- Source function `is_space_char`: a blank or a tab. -/
def is_space_char (c : Int) : Bool :=
  decide (c = 32 ∨ c = 9)

/-- Source function `is_punctuation`: `'!'..'/'`, `':'..'@'`, `'['..` the grave accent, or
`'{'..'~'`. -/
def is_punctuation (c : Int) : Bool :=
  decide ((c ≥ 33 ∧ c ≤ 47) ∨ (c ≥ 58 ∧ c ≤ 64) ∨ (c ≥ 91 ∧ c ≤ 96) ∨ (c ≥ 123 ∧ c ≤ 126))

/-- The body of the `while` loop of `count_characters` once `cp` is decoded: the total and
one category counter go up by one (`(char)cp` keeps the value of a `cp` in `0..0x7F`). -/
def count_characters_step (stats : CharStatistics) (cp : Int) : CharStatistics :=
  let stats := { stats with total_count := stats.total_count + 1 }
  if cp ≥ 0 ∧ cp < 0x80 then
    if is_letter cp then { stats with letter_count := stats.letter_count + 1 }
    else if is_digit_char cp then { stats with digit_count := stats.digit_count + 1 }
    else if is_space_char cp then { stats with space_count := stats.space_count + 1 }
    else if is_punctuation cp then
      { stats with punctuation_count := stats.punctuation_count + 1 }
    else { stats with other_count := stats.other_count + 1 }
  else if is_fullwidth_space cp then { stats with space_count := stats.space_count + 1 }
  else if is_fullwidth_digit cp then { stats with digit_count := stats.digit_count + 1 }
  else if is_fullwidth_letter cp then { stats with letter_count := stats.letter_count + 1 }
  else if is_cjk_char cp then { stats with chinese_count := stats.chinese_count + 1 }
  else if is_cjk_punctuation_cp cp then
    { stats with punctuation_count := stats.punctuation_count + 1 }
  else { stats with other_count := stats.other_count + 1 }

/-- The loop `while (*p != 0) { cp = utf8_next_codepoint(p, &advance); ..; p += advance; }`
of `count_characters` on one line, with `p` at byte offset `i` of the bytes `s` that stand at
the line pointer (the row and what follows it). -/
def count_characters_line (s : CStr) : Nat → Nat → CharStatistics → CharStatistics
  | 0, _, stats => stats
  | fuel + 1, i, stats =>
    if s.getD i 0 ≠ 0 then
      count_characters_line s fuel
        (i + (if (utf8_next_codepoint (s.drop i)).2 ≤ 0 then 1
              else (utf8_next_codepoint (s.drop i)).2).toNat)
        (count_characters_step stats (utf8_next_codepoint (s.drop i)).1)
    else stats

/-! ## Character categories, as the specification words them -/

/-- The codepoints the decoder yields on a line, walking from byte offset `i` to the
terminator. -/
def decodeLine (s : CStr) : Nat → Nat → List Int
  | 0, _ => []
  | fuel + 1, i =>
    if s.getD i 0 ≠ 0 then
      (utf8_next_codepoint (s.drop i)).1 ::
        decodeLine s fuel (i + (utf8_next_codepoint (s.drop i)).2.toNat)
    else []

/-- The decoded codepoints of a line. -/
def lineCodepoints (s : CStr) : List Int :=
  decodeLine s s.length 0

/-- No two occurrences of `p` in the line overlap: a later one starts at or after the end of
an earlier one. -/
def NoOverlap (p line : CStr) : Prop :=
  ∀ s1 s2, occursAt p line s1 = true → occursAt p line s2 = true → s1 < s2 →
    s1 + p.length ≤ s2

/-! ## Buffers reachable through the operators -/

/-- The value fits the C type `int` (32 bit). -/
def IsInt (x : Int) : Prop :=
  -2147483648 ≤ x ∧ x ≤ INT_MAX

instance (x : Int) : Decidable (IsInt x) :=
  inferInstanceAs (Decidable (-2147483648 ≤ x ∧ x ≤ INT_MAX))

/-- Every occupied line of the buffer is well-formed UTF-8. -/
def LinesWellFormed (buf : TextBuffer) : Prop :=
  ∀ i : Nat, (i : Int) < buf.line_count → WellFormedUtf8 (buf.lines.getD i [])

/-- The buffers reachable from `buffer_init` by calls of the nine mutating operators with any
`int` and any string (or `NULL`) arguments, the five operators that walk codepoints
(`insert_substring`, `insert_at_position`, `replace_at_position`, `replace_char`,
`delete_at_position`) being called on buffers whose lines are well-formed UTF-8: there the
walk stays inside the line and the definitions above are the code. -/
inductive Reachable : TextBuffer → Prop where
  | init (b0 : TextBuffer) : Reachable (buffer_init b0)
  | insert_line (buf : TextBuffer) (line_num : Int) (text : Option CStr) :
      Reachable buf → IsInt line_num → Reachable (insert_line buf line_num text).2
  | insert_substring (buf : TextBuffer) (line col : Int) (substr : Option CStr) :
      Reachable buf → LinesWellFormed buf → IsInt line → IsInt col →
      Reachable (insert_substring buf line col substr).2
  | insert_at_position (buf : TextBuffer) (pos : Int) (substr : Option CStr) :
      Reachable buf → LinesWellFormed buf → IsInt pos →
      Reachable (insert_at_position buf pos substr).2
  | replace_at_position (buf : TextBuffer) (line col len : Int) (newstr : Option CStr) :
      Reachable buf → LinesWellFormed buf → IsInt line → IsInt col → IsInt len →
      Reachable (replace_at_position buf line col len newstr).2
  | replace_char (buf : TextBuffer) (line col : Int) (newchar_utf8 : Option CStr) :
      Reachable buf → LinesWellFormed buf → IsInt line → IsInt col →
      Reachable (replace_char buf line col newchar_utf8).2
  | replace_all (buf : TextBuffer) (oldstr newstr : Option CStr) :
      Reachable buf → Reachable (replace_all buf oldstr newstr).2
  | delete_substring (buf : TextBuffer) (substr : Option CStr) :
      Reachable buf → Reachable (delete_substring buf substr).2
  | delete_at_position (buf : TextBuffer) (line col len : Int) :
      Reachable buf → LinesWellFormed buf → IsInt line → IsInt col → IsInt len →
      Reachable (delete_at_position buf line col len).2
  | delete_line (buf : TextBuffer) (line_num : Int) :
      Reachable buf → IsInt line_num → Reachable (delete_line buf line_num).2

/-! ## The line array as raw memory

The definitions above take a line to be the bytes before its terminator and read 0 behind
it.  That is the code wherever the code stays inside the line, as it does on every
well-formed UTF-8 line.  On a line that ends in a cut multi-byte sequence the codepoint walk
steps over the terminator and goes on through the bytes that stand behind it in the array.
The definitions of this section run the same code on the bytes of
`char lines[MAX_LINES][MAX_LINE_LENGTH + 1]` themselves; `none` is a call whose behaviour C
leaves undefined. -/

/-- The memory of the struct: `bytes` are the bytes of `lines`, row after row, each row with
its terminator and whatever stands behind it; a byte past the end of the list is 0.  The file
name is left out: no function below reads or writes it. -/
structure RawBuffer where
  bytes : List Nat
  line_count : Int
  modified : Int
deriving DecidableEq

/-- The bytes at the pointer `buf->lines[i]`: row `i` and what follows it. -/
def RawBuffer.row (b : RawBuffer) (i : Nat) : List Nat :=
  b.bytes.drop (i * (MAX_LINE_LENGTH + 1))

/-- The C string at a pointer: the bytes before the first zero byte. -/
def cstring (p : List Nat) : CStr :=
  p.takeWhile (fun x => decide (x ≠ 0))

/-- The memory after the bytes `s` are written from offset `off` on. -/
def storeAt (bytes : List Nat) (off : Nat) (s : List Nat) : List Nat :=
  (bytes ++ List.replicate (off - bytes.length) 0).take off ++ s ++ bytes.drop (off + s.length)

/-- The memory after the string `s` and its terminator are written into row `i`. -/
def storeRow (bytes : List Nat) (i : Nat) (s : CStr) : List Nat :=
  storeAt bytes (i * (MAX_LINE_LENGTH + 1)) (s ++ [0])

/-- Source function `buffer_init` on the raw memory: every byte zero, no lines, clean. -/
def buffer_init_raw : RawBuffer :=
  { bytes := [], line_count := 0, modified := 0 }

/-- The shift loop of `insert_line` on the raw memory, started at `i`. -/
def insert_line_shift_raw (line_num : Nat) : Nat → List Nat → List Nat
  | 0, bytes => bytes
  | i + 1, bytes =>
    if i + 1 > line_num then
      insert_line_shift_raw line_num i
        (storeRow bytes (i + 1)
          (strcpy_s (MAX_LINE_LENGTH + 1) (cstring (bytes.drop (i * (MAX_LINE_LENGTH + 1))))))
    else bytes

/-- Source function `insert_line` on the raw memory. -/
def insert_line_raw (b : RawBuffer) (line_num : Int) (text : Option CStr) : Int × RawBuffer :=
  match text with
  | none => (-1, b)
  | some text =>
    if line_num < 0 ∨ line_num > b.line_count then (-1, b)
    else if b.line_count ≥ MAX_LINES then (-1, b)
    else
      let shifted := insert_line_shift_raw line_num.toNat b.line_count.toNat b.bytes
      let stored := storeRow shifted line_num.toNat
        (strncpy_s_truncate (MAX_LINE_LENGTH + 1) text)
      (0, { b with bytes := stored, line_count := b.line_count + 1, modified := 1 })

/-- The shift loop of `delete_line` on the raw memory, at index `i`. -/
def delete_line_shift_raw (line_count : Int) : Nat → Nat → List Nat → List Nat
  | 0, _, bytes => bytes
  | fuel + 1, i, bytes =>
    if (i : Int) < line_count - 1 then
      delete_line_shift_raw line_count fuel (i + 1)
        (storeRow bytes i
          (strcpy_s (MAX_LINE_LENGTH + 1)
            (cstring (bytes.drop ((i + 1) * (MAX_LINE_LENGTH + 1))))))
    else bytes

/-- Source function `delete_line` on the raw memory. -/
def delete_line_raw (b : RawBuffer) (line_num : Int) : Int × RawBuffer :=
  if line_num < 0 ∨ line_num ≥ b.line_count then (-1, b)
  else
    let shifted := delete_line_shift_raw b.line_count b.line_count.toNat line_num.toNat b.bytes
    (0, { b with bytes := shifted, line_count := b.line_count - 1, modified := 1 })

/-- Source function `insert_substring` on the raw memory.  The store `temp[byte_col] = 0`
lies outside `char temp[MAX_LINE_LENGTH + 1]` when `byte_col > MAX_LINE_LENGTH`. -/
def insert_substring_raw (b : RawBuffer) (line col : Int) (substr : Option CStr) :
    Option (Int × RawBuffer) :=
  match substr with
  | none => some (-1, b)
  | some substr =>
    if line < 0 ∨ line ≥ b.line_count then some (-1, b)
    else
      let p := b.row line.toNat
      let byte_col := utf8_byte_offset p col
      if byte_col < 0 then some (-1, b)
      else
        let line_len := (cstring p).length
        let substr_len := substr.length
        if line_len + substr_len > MAX_LINE_LENGTH then some (-1, b)
        else if byte_col > (MAX_LINE_LENGTH : Int) then none
        else
          let temp :=
            (strncpy_s (MAX_LINE_LENGTH + 1) (cstring p) byte_col.toNat).take byte_col.toNat
          let temp := strcat_s temp (MAX_LINE_LENGTH + 1) substr
          let temp := strcat_s temp (MAX_LINE_LENGTH + 1) (cstring (p.drop byte_col.toNat))
          some (0, { b with
                      bytes := storeRow b.bytes line.toNat (strcpy_s (MAX_LINE_LENGTH + 1) temp),
                      modified := 1 })

/-- The loop of `insert_at_position` on the raw memory, at line `i`: the value of the
`return` it reaches, if any, and `cumulative` when it ends. -/
def insert_at_position_loop_raw (b : RawBuffer) (pos : Int) (substr : Option CStr) :
    Nat → Nat → Int → Option (Option (Int × RawBuffer)) × Int
  | 0, _, cumulative => (none, cumulative)
  | fuel + 1, i, cumulative =>
    if (i : Int) < b.line_count then
      if pos ≤ cumulative + utf8_strlen_chars (b.row i) then
        (some (insert_substring_raw b (i : Int) (pos - cumulative) substr), cumulative)
      else if (i : Int) ≠ b.line_count - 1 then
        if pos = cumulative + utf8_strlen_chars (b.row i) then
          (some (insert_substring_raw b ((i : Int) + 1) 0 substr),
            cumulative + utf8_strlen_chars (b.row i))
        else
          insert_at_position_loop_raw b pos substr fuel (i + 1)
            (cumulative + utf8_strlen_chars (b.row i) + 1)
      else
        insert_at_position_loop_raw b pos substr fuel (i + 1)
          (cumulative + utf8_strlen_chars (b.row i))
    else (none, cumulative)

/-- Source function `insert_at_position` on the raw memory. -/
def insert_at_position_raw (b : RawBuffer) (pos : Int) (substr : Option CStr) :
    Option (Int × RawBuffer) :=
  match substr with
  | none => some (-1, b)
  | some substr =>
    if pos < 0 then some (-1, b)
    else if b.line_count = 0 then some (insert_line_raw b 0 (some substr))
    else
      match (insert_at_position_loop_raw b pos (some substr) b.line_count.toNat 0 0).1 with
      | some returned => returned
      | none =>
        if pos = (insert_at_position_loop_raw b pos (some substr) b.line_count.toNat 0 0).2
        then
          insert_substring_raw b (b.line_count - 1)
            (utf8_strlen_chars (b.row (b.line_count - 1).toNat)) (some substr)
        else some (-1, b)

/-- The loop `for (i = 0; i < line_count; i++)` of `count_characters`, at line `i`: the walk
of a line starts at the pointer `buf->lines[i]`. -/
def count_characters_loop (b : RawBuffer) : Nat → Nat → CharStatistics → CharStatistics
  | 0, _, stats => stats
  | fuel + 1, i, stats =>
    if (i : Int) < b.line_count then
      count_characters_loop b fuel (i + 1)
        (count_characters_line (b.row i) (b.row i).length 0 stats)
    else stats

/-- Source function `count_characters`. -/
def count_characters (b : RawBuffer) : CharStatistics :=
  count_characters_loop b b.line_count.toNat 0 ⟨0, 0, 0, 0, 0, 0, 0⟩

/-- The codepoints the walks from the first `n` line pointers decode, in order. -/
def bufferCodepointsUpTo (b : RawBuffer) (n : Nat) : List Int :=
  ((List.range n).map (fun k => lineCodepoints (b.row k))).flatten

/-- The codepoints the walks from all line pointers decode, in order. -/
def bufferCodepoints (b : RawBuffer) : List Int :=
  bufferCodepointsUpTo b b.line_count.toNat

/-- The memory after `insert_line(buf, 0, "abcdefgh")`, `delete_line(buf, 0)` and
`insert_line(buf, 0, "\xE4")` on a fresh buffer: one line, the lone lead byte `E4`, with the
bytes `cdefgh` of the deleted line still behind its terminator. -/
def staleRowBuffer : RawBuffer :=
  (insert_line_raw
    (delete_line_raw
      (insert_line_raw buffer_init_raw 0 (some [97, 98, 99, 100, 101, 102, 103, 104])).2 0).2
    0 (some [0xE4])).2

/-- The memory of `staleRowBuffer` after `insert_line(buf, 1, "")`: a second, empty line.
Row 1 holds zero bytes only, before the call and after it. -/
def staleTwoLineBuffer : RawBuffer :=
  { staleRowBuffer with line_count := 2 }

/-! ## Helper lemmas: list slots -/

theorem getD_set_slot {α : Type} (l : List α) (i j : Nat) (a d : α) :
    (l.set i a).getD j d = if i = j ∧ i < l.length then a else l.getD j d := by
  simp only [List.getD_eq_getElem?_getD, List.getElem?_set]
  by_cases h : i = j
  · subst h
    by_cases h2 : i < l.length
    · simp [h2]
    · simp [h2, List.getElem?_eq_none (Nat.le_of_not_lt h2)]
  · simp [h]

theorem strcpy_s_fits {l : CStr} (h : l.length ≤ MAX_LINE_LENGTH) :
    strcpy_s (MAX_LINE_LENGTH + 1) l = l := by
  unfold strcpy_s
  rw [if_pos (Nat.lt_succ_of_le h)]

/-- Every slot of a list of lines read through `getD` is a line. -/
theorem getD_length_le {lines : List CStr} (h : ∀ l ∈ lines, l.length ≤ MAX_LINE_LENGTH)
    (k : Nat) : (lines.getD k []).length ≤ MAX_LINE_LENGTH := by
  by_cases hk : k < lines.length
  · rw [List.getD_eq_getElem _ _ hk]
    exact h _ (List.getElem_mem hk)
  · rw [List.getD_eq_default _ _ (Nat.le_of_not_lt hk)]
    simp

theorem insert_line_shift_length (n : Nat) :
    ∀ (c : Nat) (lines : List CStr), (insert_line_shift n c lines).length = lines.length := by
  intro c
  induction c with
  | zero => intro lines; rfl
  | succ i ih =>
    intro lines
    unfold insert_line_shift
    split
    · rw [ih]; simp
    · rfl

/-- Effect of the shift loop of `insert_line` on every slot. -/
theorem insert_line_shift_getD (n : Nat) :
    ∀ (c : Nat) (lines : List CStr), c < lines.length →
      (∀ l ∈ lines, l.length ≤ MAX_LINE_LENGTH) → ∀ k : Nat,
      (insert_line_shift n c lines).getD k [] =
        if n < k ∧ k ≤ c then lines.getD (k - 1) [] else lines.getD k [] := by
  intro c
  induction c with
  | zero =>
    intro lines _ _ k
    have : ¬ (n < k ∧ k ≤ 0) := by omega
    rw [if_neg this]
    rfl
  | succ i ih =>
    intro lines hc hl k
    unfold insert_line_shift
    by_cases hin : i + 1 > n
    · rw [if_pos hin]
      have hlen : i < (lines.set (i + 1) (strcpy_s (MAX_LINE_LENGTH + 1) (lines.getD i []))).length := by
        simp; omega
      have hl2 : ∀ l ∈ lines.set (i + 1) (strcpy_s (MAX_LINE_LENGTH + 1) (lines.getD i [])),
          l.length ≤ MAX_LINE_LENGTH := by
        intro l hmem
        rcases List.mem_or_eq_of_mem_set hmem with h1 | h1
        · exact hl l h1
        · rw [h1, strcpy_s_fits (getD_length_le hl i)]
          exact getD_length_le hl i
      rw [ih _ hlen hl2 k, getD_set_slot, getD_set_slot,
        strcpy_s_fits (getD_length_le hl i)]
      by_cases hk1 : n < k ∧ k ≤ i
      · have h1 : ¬ (i + 1 = k - 1 ∧ i + 1 < lines.length) := by omega
        have h2 : n < k ∧ k ≤ i + 1 := by omega
        rw [if_pos hk1, if_neg h1, if_pos h2]
      · rw [if_neg hk1]
        by_cases hk2 : k = i + 1
        · subst hk2
          have h2 : n < i + 1 ∧ i + 1 ≤ i + 1 := by omega
          rw [if_pos ⟨rfl, hc⟩, if_pos h2]
          simp
        · have h1 : ¬ (i + 1 = k ∧ i + 1 < lines.length) := by omega
          have h2 : ¬ (n < k ∧ k ≤ i + 1) := by omega
          rw [if_neg h1, if_neg h2]
    · rw [if_neg hin]
      have : ¬ (n < k ∧ k ≤ i + 1) := by omega
      rw [if_neg this]


theorem getD_take_slot {α : Type} (l : List α) (n k : Nat) (d : α) :
    (l.take n).getD k d = if k < n then l.getD k d else d := by
  simp only [List.getD_eq_getElem?_getD, List.getElem?_take]
  split <;> simp

theorem getD_drop_slot {α : Type} (l : List α) (n k : Nat) (d : α) :
    (l.drop n).getD k d = l.getD (n + k) d := by
  simp only [List.getD_eq_getElem?_getD, List.getElem?_drop]

theorem getD_append_cons_slot {α : Type} (a b : List α) (x d : α) (k : Nat) :
    (a ++ x :: b).getD k d =
      if k < a.length then a.getD k d else if k = a.length then x else b.getD (k - a.length - 1) d := by
  by_cases h1 : k < a.length
  · rw [if_pos h1, List.getD_append _ _ _ _ h1]
  · rw [if_neg h1, List.getD_append_right _ _ _ _ (Nat.le_of_not_lt h1)]
    by_cases h2 : k = a.length
    · rw [if_pos h2, h2]; simp
    · rw [if_neg h2]
      obtain ⟨m, hm⟩ : ∃ m, k - a.length = m + 1 := ⟨k - a.length - 1, by omega⟩
      rw [hm]; simp

theorem ext_getD {α : Type} (d : α) {l1 l2 : List α} (hlen : l1.length = l2.length)
    (h : ∀ k, k < l1.length → l1.getD k d = l2.getD k d) : l1 = l2 := by
  apply List.ext_getElem hlen
  intro k h1 h2
  have := h k h1
  rwa [List.getD_eq_getElem _ _ h1, List.getD_eq_getElem _ _ h2] at this

theorem delete_line_shift_length (c : Int) :
    ∀ (fuel i : Nat) (lines : List CStr),
      (delete_line_shift c fuel i lines).length = lines.length := by
  intro fuel
  induction fuel with
  | zero => intro i lines; rfl
  | succ f ih =>
    intro i lines
    unfold delete_line_shift
    split
    · rw [ih]; simp
    · rfl

/-- Effect of the shift loop of `delete_line` on every slot, the fuel being enough. -/
theorem delete_line_shift_getD (c : Int) :
    ∀ (fuel i : Nat) (lines : List CStr), c - 1 - i ≤ fuel → c ≤ lines.length →
      (∀ l ∈ lines, l.length ≤ MAX_LINE_LENGTH) → ∀ k : Nat,
      (delete_line_shift c fuel i lines).getD k [] =
        if i ≤ k ∧ (k : Int) < c - 1 then lines.getD (k + 1) [] else lines.getD k [] := by
  intro fuel
  induction fuel with
  | zero =>
    intro i lines hf _ _ k
    have : ¬ (i ≤ k ∧ (k : Int) < c - 1) := by omega
    rw [if_neg this]
    rfl
  | succ f ih =>
    intro i lines hf hc hl k
    unfold delete_line_shift
    by_cases hin : (i : Int) < c - 1
    · rw [if_pos hin]
      have hfit := strcpy_s_fits (getD_length_le hl (i + 1))
      have hl2 : ∀ l ∈ lines.set i (strcpy_s (MAX_LINE_LENGTH + 1) (lines.getD (i + 1) [])),
          l.length ≤ MAX_LINE_LENGTH := by
        intro l hmem
        rcases List.mem_or_eq_of_mem_set hmem with h1 | h1
        · exact hl l h1
        · rw [h1, hfit]
          exact getD_length_le hl (i + 1)
      have hc2 : c ≤ (lines.set i (strcpy_s (MAX_LINE_LENGTH + 1) (lines.getD (i + 1) []))).length := by
        simpa using hc
      have hf2 : c - 1 - ((i + 1 : Nat) : Int) ≤ f := by push_cast; omega
      rw [ih (i + 1) _ hf2 hc2 hl2 k, getD_set_slot, getD_set_slot, hfit]
      have hiL : i < lines.length := by omega
      by_cases hk1 : i + 1 ≤ k ∧ (k : Int) < c - 1
      · have h1 : ¬ (i = k + 1 ∧ i < lines.length) := by omega
        have h2 : i ≤ k ∧ (k : Int) < c - 1 := by omega
        rw [if_pos hk1, if_neg h1, if_pos h2]
      · rw [if_neg hk1]
        by_cases hk2 : i = k
        · subst hk2
          have h2 : i ≤ i ∧ (i : Int) < c - 1 := ⟨le_refl _, hin⟩
          rw [if_pos ⟨rfl, hiL⟩, if_pos h2]
        · have h1 : ¬ (i = k ∧ i < lines.length) := by omega
          have h2 : ¬ (i ≤ k ∧ (k : Int) < c - 1) := by omega
          rw [if_neg h1, if_neg h2]
    · rw [if_neg hin]
      have : ¬ (i ≤ k ∧ (k : Int) < c - 1) := by omega
      rw [if_neg this]

theorem WF_lengths {buf : TextBuffer} (h : buf.WF) :
    ∀ l ∈ buf.lines, l.length ≤ MAX_LINE_LENGTH :=
  fun l hl => (h.2.2.2 l hl).1

/-- Slots of the buffer after a successful `insert_line`. -/
theorem insert_line_slots (buf : TextBuffer) (n : Nat) (text : CStr) (hwf : buf.WF)
    (hc : buf.line_count < MAX_LINES) (hn : (n : Int) ≤ buf.line_count) (k : Nat) :
    ((insert_line_shift n buf.line_count.toNat buf.lines).set n
        (strncpy_s_truncate (MAX_LINE_LENGTH + 1) text)).getD k [] =
      if k < n then buf.lines.getD k []
      else if k = n then text.take MAX_LINE_LENGTH
      else if (k : Int) ≤ buf.line_count then buf.lines.getD (k - 1) []
      else buf.lines.getD k [] := by
  have hlen := hwf.1
  have hcl : buf.line_count.toNat < buf.lines.length := by
    rw [hlen]; have := hwf.2.1; unfold MAX_LINES at *; omega
  rw [getD_set_slot, insert_line_shift_length, insert_line_shift_getD n _ _ hcl (WF_lengths hwf)]
  have h0 := hwf.2.1
  by_cases h1 : k < n
  · have a1 : ¬ (n = k ∧ n < buf.lines.length) := by omega
    have a2 : ¬ (n < k ∧ k ≤ buf.line_count.toNat) := by omega
    rw [if_neg a1, if_neg a2, if_pos h1]
  · rw [if_neg h1]
    by_cases h2 : k = n
    · subst h2
      have a1 : k = k ∧ k < buf.lines.length := ⟨rfl, by omega⟩
      rw [if_pos a1, if_pos rfl]
      rfl
    · have a1 : ¬ (n = k ∧ n < buf.lines.length) := by omega
      rw [if_neg a1, if_neg h2]
      by_cases h3 : (k : Int) ≤ buf.line_count
      · have a2 : n < k ∧ k ≤ buf.line_count.toNat := by omega
        rw [if_pos a2, if_pos h3]
      · have a2 : ¬ (n < k ∧ k ≤ buf.line_count.toNat) := by omega
        rw [if_neg a2, if_neg h3]

theorem take_min_length {α : Type} (l : List α) (n : Nat) :
    l.take (min l.length n) = l.take n := by
  by_cases h : l.length ≤ n
  · rw [Nat.min_eq_left h, List.take_of_length_le h, List.take_length]
  · rw [Nat.min_eq_right (Nat.le_of_lt (Nat.lt_of_not_le h))]

/-- Unfolding of a successful `insert_line`. -/
theorem insert_line_success (buf : TextBuffer) (index : Int) (text : CStr)
    (hcount : buf.line_count < MAX_LINES) (h0 : 0 ≤ index) (h1 : index ≤ buf.line_count) :
    insert_line buf index (some text) =
      (0, { buf with
              lines := (insert_line_shift index.toNat buf.line_count.toNat buf.lines).set
                index.toNat (strncpy_s_truncate (MAX_LINE_LENGTH + 1) text),
              line_count := buf.line_count + 1, modified := 1 }) := by
  have a1 : ¬ (index < 0 ∨ index > buf.line_count) := by omega
  have a2 : ¬ (buf.line_count ≥ MAX_LINES) := by omega
  simp only [insert_line, if_neg a1, if_neg a2]

/-- C1: for a buffer with `line_count < MAX_LINES`, an index with `0 ≤ index ≤ line_count` and
any text, `insert_line` returns 0, `line_count` grows by exactly 1, `get_line index` is the
first `min (byteLength text) MAX_LINE_LENGTH` bytes of the text, lines before `index` are
unchanged, every line formerly at `j ≥ index` is now at `j + 1`, and the occupied sequence is
the old one with that prefix inserted at position `index`. -/
theorem C1_insert_line_inserts (buf : TextBuffer) (index : Int) (text : CStr)
    (hwf : buf.WF) (hcount : buf.line_count < MAX_LINES)
    (h0 : 0 ≤ index) (h1 : index ≤ buf.line_count) :
    (insert_line buf index (some text)).1 = 0 ∧
    (insert_line buf index (some text)).2.line_count = buf.line_count + 1 ∧
    get_line (insert_line buf index (some text)).2 index
      = some (text.take (min text.length MAX_LINE_LENGTH)) ∧
    (∀ j : Int, 0 ≤ j → j < index →
      get_line (insert_line buf index (some text)).2 j = get_line buf j) ∧
    (∀ j : Int, index ≤ j → j < buf.line_count →
      get_line (insert_line buf index (some text)).2 (j + 1) = get_line buf j) ∧
    (insert_line buf index (some text)).2.occupied
      = buf.occupied.take index.toNat ++
          text.take (min text.length MAX_LINE_LENGTH) :: buf.occupied.drop index.toNat := by
  obtain ⟨n, rfl⟩ : ∃ n : Nat, index = (n : Int) := ⟨index.toNat, by omega⟩
  have hslot := insert_line_slots buf n text hwf hcount h1
  have hc0 := hwf.2.1
  have hlen := hwf.1
  rw [insert_line_success buf n text hcount h0 h1, take_min_length]
  simp only [Int.toNat_ofNat]
  refine ⟨trivial, trivial, ?_, ?_, ?_, ?_⟩
  · have a : ¬ ((n : Int) < 0 ∨ (n : Int) ≥ buf.line_count + 1) := by omega
    simp only [get_line, if_neg a, Int.toNat_ofNat]
    rw [hslot n, if_neg (lt_irrefl n), if_pos rfl]
  · intro j hj0 hjn
    obtain ⟨m, rfl⟩ : ∃ m : Nat, j = (m : Int) := ⟨j.toNat, by omega⟩
    have a : ¬ ((m : Int) < 0 ∨ (m : Int) ≥ buf.line_count + 1) := by omega
    have b : ¬ ((m : Int) < 0 ∨ (m : Int) ≥ buf.line_count) := by omega
    simp only [get_line, if_neg a, if_neg b, Int.toNat_ofNat]
    rw [hslot m, if_pos (by omega)]
  · intro j hj0 hjn
    obtain ⟨m, rfl⟩ : ∃ m : Nat, j = (m : Int) := ⟨j.toNat, by omega⟩
    have a : ¬ ((m : Int) + 1 < 0 ∨ (m : Int) + 1 ≥ buf.line_count + 1) := by omega
    have b : ¬ ((m : Int) < 0 ∨ (m : Int) ≥ buf.line_count) := by omega
    have e : ((m : Int) + 1).toNat = m + 1 := by omega
    simp only [get_line, if_neg a, if_neg b, Int.toNat_ofNat, e]
    rw [hslot (m + 1), if_neg (by omega), if_neg (by omega), if_pos (by push_cast; omega)]
    rfl
  · obtain ⟨c, hc⟩ : ∃ c : Nat, buf.line_count = (c : Int) := ⟨buf.line_count.toNat, by omega⟩
    have hcn : n ≤ c := by omega
    have hcL : c < buf.lines.length := by rw [hlen]; unfold MAX_LINES at *; omega
    have e : ((c : Int) + 1).toNat = c + 1 := by omega
    simp only [TextBuffer.occupied]
    rw [hc] at hslot ⊢
    simp only [Int.toNat_ofNat, e] at hslot ⊢
    apply ext_getD ([] : CStr)
    · simp [insert_line_shift_length]
      omega
    · intro k hk
      have hk2 : k < c + 1 := by
        simp [insert_line_shift_length] at hk
        omega
      have hl1 : (List.take n (List.take c buf.lines)).length = n := by
        simp; omega
      rw [getD_take_slot, if_pos hk2, hslot k, getD_append_cons_slot, hl1]
      by_cases c1 : k < n
      · rw [if_pos c1, if_pos c1, getD_take_slot, if_pos c1, getD_take_slot, if_pos (by omega)]
      · rw [if_neg c1, if_neg c1]
        by_cases c2 : k = n
        · rw [if_pos c2, if_pos c2]
        · rw [if_neg c2, if_neg c2, if_pos (by omega), getD_drop_slot, getD_take_slot,
            if_pos (by omega)]
          congr 1
          omega

/-- C2: `insert_line` fails (returns -1) exactly when `index < 0`, `index > line_count` or
`line_count = MAX_LINES`, and a failing call leaves the whole buffer as it was. -/
theorem C2_insert_line_failure (buf : TextBuffer) (index : Int) (text : CStr)
    (hcap : buf.line_count ≤ MAX_LINES) :
    ((insert_line buf index (some text)).1 = -1 ↔
      (index < 0 ∨ index > buf.line_count ∨ buf.line_count = MAX_LINES)) ∧
    ((insert_line buf index (some text)).1 = -1 →
      (insert_line buf index (some text)).2 = buf) := by
  by_cases a1 : index < 0 ∨ index > buf.line_count
  · have e : insert_line buf index (some text) = (-1, buf) := by
      simp only [insert_line, if_pos a1]
    rw [e]
    refine ⟨⟨fun _ => ?_, fun _ => rfl⟩, fun _ => rfl⟩
    omega
  · by_cases a2 : buf.line_count ≥ MAX_LINES
    · have e : insert_line buf index (some text) = (-1, buf) := by
        simp only [insert_line, if_neg a1, if_pos a2]
      rw [e]
      refine ⟨⟨fun _ => ?_, fun _ => rfl⟩, fun _ => rfl⟩
      omega
    · have e : (insert_line buf index (some text)).1 = 0 := by
        simp only [insert_line, if_neg a1, if_neg a2]
      rw [e]
      refine ⟨⟨fun h => ?_, fun h => ?_⟩, fun h => ?_⟩
      · omega
      · omega
      · omega

/-- A buffer built from at most `MAX_LINES` lines satisfies the representation invariant. -/
theorem bufferOfLines_WF (ls : List CStr) (hn : ls.length ≤ MAX_LINES)
    (hl : ∀ l ∈ ls, IsLine l) : (bufferOfLines ls).WF := by
  refine ⟨?_, ?_, ?_, ?_⟩
  · simp only [bufferOfLines, List.length_append, List.length_replicate]
    omega
  · simp [bufferOfLines]
  · simp only [bufferOfLines]
    exact_mod_cast hn
  · intro l hmem
    simp only [bufferOfLines, List.mem_append] at hmem
    rcases hmem with h | h
    · exact hl l h
    · rw [(List.mem_replicate.mp h).2]
      exact ⟨Nat.zero_le _, fun b hb => absurd hb (List.not_mem_nil b)⟩

theorem isLine_of_small (l : CStr) (h1 : l.length ≤ MAX_LINE_LENGTH)
    (h2 : l.all (fun b => decide (0 < b ∧ b < 256)) = true) : IsLine l := by
  refine ⟨h1, fun b hb => ?_⟩
  have := List.all_eq_true.mp h2 b hb
  simpa using this

theorem C1_insert_line_inserts_witness :
    (bufferOfLines [[97], [98]]).WF ∧
    (insert_line (bufferOfLines [[97], [98]]) 1 (some [120, 121])).1 = 0 ∧
    get_line (insert_line (bufferOfLines [[97], [98]]) 1 (some [120, 121])).2 1
      = some (List.take (min [120, 121].length MAX_LINE_LENGTH) [120, 121]) :=
  have hwf : (bufferOfLines [[97], [98]]).WF :=
    bufferOfLines_WF _ (by decide) (by
      intro l hl
      simp only [List.mem_cons, List.mem_singleton, List.not_mem_nil, or_false] at hl
      rcases hl with h | h <;> subst h <;> exact isLine_of_small _ (by decide) (by decide))
  have h := C1_insert_line_inserts (bufferOfLines [[97], [98]]) 1 [120, 121] hwf
    (by decide) (by decide) (by decide)
  ⟨hwf, h.1, h.2.2.1⟩

theorem C2_insert_line_failure_witness :
    (bufferOfLines [[97], [98]]).line_count ≤ MAX_LINES ∧
    ((insert_line (bufferOfLines [[97], [98]]) 3 (some [120])).1 = -1 ↔
      ((3 : Int) < 0 ∨ 3 > (bufferOfLines [[97], [98]]).line_count ∨
        (bufferOfLines [[97], [98]]).line_count = MAX_LINES)) :=
  ⟨by decide, (C2_insert_line_failure (bufferOfLines [[97], [98]]) 3 [120] (by decide)).1⟩

theorem getD_append_slot {α : Type} (a b : List α) (d : α) (k : Nat) :
    (a ++ b).getD k d = if k < a.length then a.getD k d else b.getD (k - a.length) d := by
  by_cases h1 : k < a.length
  · rw [if_pos h1, List.getD_append _ _ _ _ h1]
  · rw [if_neg h1, List.getD_append_right _ _ _ _ (Nat.le_of_not_lt h1)]

/-- C3: for `0 ≤ i < line_count`, `delete_line i` returns 0, `line_count` drops by exactly 1,
lines before `i` stay, every line formerly at `j > i` is now at `j - 1`, and the occupied
sequence is the old one with element `i` erased; for `i` outside `[0, line_count)` it
returns -1. -/
theorem C3_delete_line (buf : TextBuffer) (i : Int) (hwf : buf.WF) :
    ((0 ≤ i ∧ i < buf.line_count) →
      (delete_line buf i).1 = 0 ∧
      (delete_line buf i).2.line_count = buf.line_count - 1 ∧
      (∀ j : Int, 0 ≤ j → j < i → get_line (delete_line buf i).2 j = get_line buf j) ∧
      (∀ j : Int, i < j → j < buf.line_count →
        get_line (delete_line buf i).2 (j - 1) = get_line buf j) ∧
      (delete_line buf i).2.occupied = buf.occupied.eraseIdx i.toNat) ∧
    (¬ (0 ≤ i ∧ i < buf.line_count) → (delete_line buf i).1 = -1) := by
  constructor
  · rintro ⟨h0, h1⟩
    obtain ⟨n, rfl⟩ : ∃ n : Nat, i = (n : Int) := ⟨i.toNat, by omega⟩
    obtain ⟨c, hc⟩ : ∃ c : Nat, buf.line_count = (c : Int) :=
      ⟨buf.line_count.toNat, by have := hwf.2.1; omega⟩
    have hlen := hwf.1
    have hcap := hwf.2.2.1
    have hcL : (c : Int) ≤ buf.lines.length := by rw [hlen]; omega
    have hslot := delete_line_shift_getD (c : Int) c n buf.lines (by omega) hcL (WF_lengths hwf)
    have a : ¬ ((n : Int) < 0 ∨ (n : Int) ≥ buf.line_count) := by omega
    have e : delete_line buf n = (0, { buf with
        lines := delete_line_shift c c n buf.lines,
        line_count := (c : Int) - 1, modified := 1 }) := by
      rw [hc] at a
      simp only [delete_line, hc, if_neg a, Int.toNat_ofNat]
    rw [e, hc]
    simp only [Int.toNat_ofNat]
    refine ⟨trivial, trivial, ?_, ?_, ?_⟩
    · intro j hj0 hjn
      obtain ⟨m, rfl⟩ : ∃ m : Nat, j = (m : Int) := ⟨j.toNat, by omega⟩
      have a1 : ¬ ((m : Int) < 0 ∨ (m : Int) ≥ (c : Int) - 1) := by omega
      have b1 : ¬ ((m : Int) < 0 ∨ (m : Int) ≥ buf.line_count) := by omega
      simp only [get_line, if_neg a1, if_neg b1, Int.toNat_ofNat]
      rw [hslot m, if_neg (by omega)]
    · intro j hj0 hjn
      obtain ⟨m, rfl⟩ : ∃ m : Nat, j = ((m + 1 : Nat) : Int) := ⟨j.toNat - 1, by omega⟩
      have a1 : ¬ (((m + 1 : Nat) : Int) - 1 < 0 ∨ ((m + 1 : Nat) : Int) - 1 ≥ (c : Int) - 1) := by
        omega
      have b1 : ¬ (((m + 1 : Nat) : Int) < 0 ∨ ((m + 1 : Nat) : Int) ≥ buf.line_count) := by omega
      have e1 : (((m + 1 : Nat) : Int) - 1).toNat = m := by omega
      simp only [get_line, if_neg a1, if_neg b1, Int.toNat_ofNat, e1]
      rw [hslot m, if_pos (by omega)]
    · have e1 : ((c : Int) - 1).toNat = c - 1 := by omega
      simp only [TextBuffer.occupied, hc, Int.toNat_ofNat, e1]
      rw [List.eraseIdx_eq_take_drop_succ]
      have hn : n < c := by omega
      have hcl2 : c ≤ buf.lines.length := by omega
      apply ext_getD ([] : CStr)
      · simp [delete_line_shift_length]
        omega
      · intro k hk
        have hk2 : k < c - 1 := by
          simp [delete_line_shift_length] at hk
          omega
        have hl1 : (List.take n (List.take c buf.lines)).length = n := by
          simp; omega
        rw [getD_take_slot, if_pos hk2, hslot k, getD_append_slot, hl1]
        by_cases c1 : k < n
        · rw [if_neg (by omega), if_pos c1, getD_take_slot, if_pos c1, getD_take_slot,
            if_pos (by omega)]
        · rw [if_pos (by omega), if_neg c1, getD_drop_slot, getD_take_slot, if_pos (by omega)]
          congr 1
          omega
  · intro h
    have a : i < 0 ∨ i ≥ buf.line_count := by omega
    simp only [delete_line, if_pos a]

/-- The two-line sample buffer satisfies the representation invariant. -/
theorem sample_two_lines_WF : (bufferOfLines [[97], [98]]).WF :=
  bufferOfLines_WF _ (by decide) (by
    intro l hl
    simp only [List.mem_cons, List.mem_singleton, List.not_mem_nil, or_false] at hl
    rcases hl with h | h <;> subst h <;> exact isLine_of_small _ (by decide) (by decide))

theorem C3_delete_line_witness :
    (bufferOfLines [[97], [98]]).WF ∧
    (delete_line (bufferOfLines [[97], [98]]) 0).1 = 0 ∧
    (delete_line (bufferOfLines [[97], [98]]) 0).2.line_count
      = (bufferOfLines [[97], [98]]).line_count - 1 :=
  have h := (C3_delete_line (bufferOfLines [[97], [98]]) 0 sample_two_lines_WF).1
    ⟨by decide, by decide⟩
  ⟨sample_two_lines_WF, h.1, h.2.1⟩

/-! ## UTF-8 index translation -/

theorem utf8_char_index_from_byte_loop_mono (s : CStr) (b : Int) :
    ∀ (fuel i idx : Nat), idx ≤ (utf8_char_index_from_byte_loop s b fuel i idx).2 := by
  intro fuel
  induction fuel with
  | zero => intro i idx; exact le_refl _
  | succ f ih =>
    intro i idx
    unfold utf8_char_index_from_byte_loop
    split
    · exact le_trans (Nat.le_succ idx) (ih _ _)
    · exact le_refl _

/-- The walk of `utf8_byte_offset` towards the character index that the walk of
`utf8_char_index_from_byte` ends with retraces that walk. -/
theorem utf8_byte_offset_loop_retrace (s : CStr) (b : Int) :
    ∀ (fuel i idx : Nat),
      utf8_byte_offset_loop s ((utf8_char_index_from_byte_loop s b fuel i idx).2 : Nat)
        fuel i idx = utf8_char_index_from_byte_loop s b fuel i idx := by
  intro fuel
  induction fuel with
  | zero => intro i idx; rfl
  | succ f ih =>
    intro i idx
    unfold utf8_char_index_from_byte_loop
    by_cases hc : s.getD i 0 ≠ 0 ∧ (i : Int) < b
    · rw [if_pos hc]
      have hmono := utf8_char_index_from_byte_loop_mono s b f
        (i + utf8_char_length (s.getD i 0)) (idx + 1)
      unfold utf8_byte_offset_loop
      have hc2 : s.getD i 0 ≠ 0 ∧ (idx : Int) <
          (((utf8_char_index_from_byte_loop s b f (i + utf8_char_length (s.getD i 0))
            (idx + 1)).2 : Nat) : Int) := by
        refine ⟨hc.1, ?_⟩
        exact_mod_cast hmono
      rw [if_pos hc2]
      exact ih _ _
    · rw [if_neg hc]
      unfold utf8_byte_offset_loop
      have hc2 : ¬ (s.getD i 0 ≠ 0 ∧ (idx : Int) < ((idx : Nat) : Int)) := by
        intro h; exact lt_irrefl _ h.2
      rw [if_neg hc2]

/-- Round trip of the index translation on a codepoint boundary. -/
theorem utf8_index_roundtrip (line : CStr) (b : Int)
    (hb : utf8_char_index_from_byte line b ≠ -1) :
    utf8_byte_offset line (utf8_char_index_from_byte line b) = b := by
  unfold utf8_char_index_from_byte at hb ⊢
  by_cases h0 : b < 0
  · rw [if_pos h0] at hb; exact absurd rfl hb
  · rw [if_neg h0] at hb ⊢
    by_cases h1 : ((utf8_char_index_from_byte_loop line b line.length 0 0).1 : Int) = b
    · rw [if_pos h1]
      unfold utf8_byte_offset
      have hneg : ¬ (((utf8_char_index_from_byte_loop line b line.length 0 0).2 : Int) < 0) := by
        omega
      rw [if_neg hneg, utf8_byte_offset_loop_retrace line b line.length 0 0, if_pos rfl]
      exact h1
    · rw [if_neg h1] at hb; exact absurd rfl hb

/-- C7: for every line and every byte offset `b` on a codepoint boundary of it
(`utf8_char_index_from_byte line b` is not -1),
`utf8_byte_offset line (utf8_char_index_from_byte line b) = b`. -/
theorem C7_byte_offset_char_index_roundtrip (line : CStr) (b : Int)
    (hb : utf8_char_index_from_byte line b ≠ -1) :
    utf8_byte_offset line (utf8_char_index_from_byte line b) = b :=
  utf8_index_roundtrip line b hb

theorem C7_byte_offset_char_index_roundtrip_witness :
    utf8_char_index_from_byte [228, 184, 173, 97] 3 ≠ -1 ∧
    utf8_byte_offset [228, 184, 173, 97] (utf8_char_index_from_byte [228, 184, 173, 97] 3) = 3 :=
  ⟨by decide, C7_byte_offset_char_index_roundtrip [228, 184, 173, 97] 3 (by decide)⟩

theorem utf8_char_length_pos (c : Nat) : 1 ≤ utf8_char_length c := by
  unfold utf8_char_length
  split_ifs <;> omega

theorem getD_zero_of_length_le (s : CStr) (i : Nat) (h : s.length ≤ i) : s.getD i 0 = 0 :=
  List.getD_eq_default _ _ h

/-- Fuel `s.length` is enough for the loop of `utf8_strlen_chars`: more fuel changes nothing. -/
theorem utf8_strlen_chars_loop_fuel (s : CStr) :
    ∀ (fuel i count k : Nat), s.length ≤ i + fuel →
      utf8_strlen_chars_loop s (fuel + k) i count = utf8_strlen_chars_loop s fuel i count := by
  intro fuel
  induction fuel with
  | zero =>
    intro i count k h
    have hz := getD_zero_of_length_le s i (by omega)
    cases k with
    | zero => rfl
    | succ k =>
      simp only [Nat.zero_add]
      unfold utf8_strlen_chars_loop
      rw [if_neg (fun h => h hz)]
  | succ f ih =>
    intro i count k h
    have e : f + 1 + k = (f + k) + 1 := by omega
    rw [e]
    unfold utf8_strlen_chars_loop
    split
    · have := utf8_char_length_pos (s.getD i 0)
      exact ih _ _ _ (by omega)
    · rfl

/-- Fuel `s.length` is enough for the loop of `utf8_byte_offset`. -/
theorem utf8_byte_offset_loop_fuel (s : CStr) (t : Int) :
    ∀ (fuel i idx k : Nat), s.length ≤ i + fuel →
      utf8_byte_offset_loop s t (fuel + k) i idx = utf8_byte_offset_loop s t fuel i idx := by
  intro fuel
  induction fuel with
  | zero =>
    intro i idx k h
    have hz := getD_zero_of_length_le s i (by omega)
    cases k with
    | zero => rfl
    | succ k =>
      simp only [Nat.zero_add]
      unfold utf8_byte_offset_loop
      rw [if_neg (fun h => h.1 hz)]
  | succ f ih =>
    intro i idx k h
    have e : f + 1 + k = (f + k) + 1 := by omega
    rw [e]
    unfold utf8_byte_offset_loop
    split
    · have := utf8_char_length_pos (s.getD i 0)
      exact ih _ _ _ (by omega)
    · rfl

/-- Fuel `s.length` is enough for the loop of `utf8_char_index_from_byte`. -/
theorem utf8_char_index_from_byte_loop_fuel (s : CStr) (t : Int) :
    ∀ (fuel i idx k : Nat), s.length ≤ i + fuel →
      utf8_char_index_from_byte_loop s t (fuel + k) i idx =
        utf8_char_index_from_byte_loop s t fuel i idx := by
  intro fuel
  induction fuel with
  | zero =>
    intro i idx k h
    have hz := getD_zero_of_length_le s i (by omega)
    cases k with
    | zero => rfl
    | succ k =>
      simp only [Nat.zero_add]
      unfold utf8_char_index_from_byte_loop
      rw [if_neg (fun h => h.1 hz)]
  | succ f ih =>
    intro i idx k h
    have e : f + 1 + k = (f + k) + 1 := by omega
    rw [e]
    unfold utf8_char_index_from_byte_loop
    split
    · have := utf8_char_length_pos (s.getD i 0)
      exact ih _ _ _ (by omega)
    · rfl

theorem utf8_strlen_chars_loop_mono (s : CStr) :
    ∀ (fuel i count : Nat), count ≤ utf8_strlen_chars_loop s fuel i count := by
  intro fuel
  induction fuel with
  | zero => intro i count; exact le_refl _
  | succ f ih =>
    intro i count
    unfold utf8_strlen_chars_loop
    split
    · exact le_trans (Nat.le_succ count) (ih _ _)
    · exact le_refl _

/-- The walk of `utf8_byte_offset` reaches character index `t` exactly when the line has at
least `t` characters. -/
theorem utf8_byte_offset_loop_reaches (s : CStr) (t : Nat) :
    ∀ (fuel i idx count : Nat), s.length ≤ i + fuel → idx ≤ t →
      ((utf8_byte_offset_loop s (t : Int) fuel i idx).2 = t ↔
        t - idx ≤ utf8_strlen_chars_loop s fuel i count - count) := by
  intro fuel
  induction fuel with
  | zero =>
    intro i idx count _ hle
    simp only [utf8_byte_offset_loop, utf8_strlen_chars_loop]
    omega
  | succ f ih =>
    intro i idx count h hle
    unfold utf8_byte_offset_loop utf8_strlen_chars_loop
    have hlen := utf8_char_length_pos (s.getD i 0)
    by_cases hz : s.getD i 0 ≠ 0
    · rw [if_pos hz]
      by_cases hlt : idx < t
      · have hc : s.getD i 0 ≠ 0 ∧ (idx : Int) < (t : Int) := ⟨hz, by exact_mod_cast hlt⟩
        rw [if_pos hc]
        have := ih (i + utf8_char_length (s.getD i 0)) (idx + 1) (count + 1) (by omega) (by omega)
        have hm := utf8_strlen_chars_loop_mono s f (i + utf8_char_length (s.getD i 0)) (count + 1)
        rw [this]
        omega
      · have hc : ¬ (s.getD i 0 ≠ 0 ∧ (idx : Int) < (t : Int)) := by
          intro hh; exact hlt (by exact_mod_cast hh.2)
        rw [if_neg hc]
        simp only
        omega
    · rw [if_neg hz]
      have hc : ¬ (s.getD i 0 ≠ 0 ∧ (idx : Int) < (t : Int)) := fun hh => hz hh.1
      rw [if_neg hc]
      simp only
      omega

/-- Source function `utf8_byte_offset` succeeds exactly for `0 ≤ col ≤ utf8_strlen_chars s`. -/
theorem utf8_byte_offset_nonneg_iff (s : CStr) (col : Int) :
    0 ≤ utf8_byte_offset s col ↔ (0 ≤ col ∧ col ≤ utf8_strlen_chars s) := by
  unfold utf8_byte_offset utf8_strlen_chars
  by_cases h0 : col < 0
  · rw [if_pos h0]
    constructor
    · intro h; omega
    · intro h; omega
  · rw [if_neg h0]
    obtain ⟨t, rfl⟩ : ∃ t : Nat, col = (t : Int) := ⟨col.toNat, by omega⟩
    have key := utf8_byte_offset_loop_reaches s t s.length 0 0 0 (by omega) (Nat.zero_le _)
    simp only [Nat.sub_zero] at key
    by_cases h1 : (utf8_byte_offset_loop s (t : Int) s.length 0 0).2 = t
    · have h1i : (((utf8_byte_offset_loop s (t : Int) s.length 0 0).2 : Nat) : Int) = (t : Int) := by
        exact_mod_cast h1
      rw [if_pos h1i]
      have := key.mp h1
      constructor
      · intro _; exact ⟨by omega, by exact_mod_cast this⟩
      · intro _; omega
    · have h1i : ¬ ((((utf8_byte_offset_loop s (t : Int) s.length 0 0).2 : Nat) : Int) = (t : Int)) := by
        intro hh; exact h1 (by exact_mod_cast hh)
      rw [if_neg h1i]
      constructor
      · intro h; omega
      · intro h
        exact absurd (key.mpr (by exact_mod_cast h.2)) h1

/-- The three ways `insert_substring` can go, by its guards. -/
theorem insert_substring_cases (buf : TextBuffer) (line col : Int) (text : CStr) :
    ((line < 0 ∨ line ≥ buf.line_count ∨ utf8_byte_offset (buf.lines.getD line.toNat []) col < 0 ∨
        (buf.lines.getD line.toNat []).length + text.length > MAX_LINE_LENGTH) ∧
      insert_substring buf line col (some text) = (-1, buf)) ∨
    ((0 ≤ line ∧ line < buf.line_count ∧ 0 ≤ utf8_byte_offset (buf.lines.getD line.toNat []) col ∧
        (buf.lines.getD line.toNat []).length + text.length ≤ MAX_LINE_LENGTH) ∧
      (insert_substring buf line col (some text)).1 = 0) := by
  by_cases a1 : line < 0 ∨ line ≥ buf.line_count
  · left
    refine ⟨by omega, ?_⟩
    simp only [insert_substring, if_pos a1]
  · by_cases a2 : utf8_byte_offset (buf.lines.getD line.toNat []) col < 0
    · left
      refine ⟨by omega, ?_⟩
      simp only [insert_substring, if_neg a1, if_pos a2]
    · by_cases a3 : (buf.lines.getD line.toNat []).length + text.length > MAX_LINE_LENGTH
      · left
        refine ⟨by omega, ?_⟩
        simp only [insert_substring, if_neg a1, if_neg a2, if_pos a3]
      · right
        refine ⟨by omega, ?_⟩
        simp only [insert_substring, if_neg a1, if_neg a2, if_neg a3]

/-- A well-formed sequence starts with a non-zero lead byte whose announced length is the
length of the sequence. -/
theorem isUtf8Seq_lead (c : CStr) (h : isUtf8Seq c = true) :
    ∃ b0 tl, c = b0 :: tl ∧ b0 ≠ 0 ∧ utf8_char_length b0 = c.length := by
  match c, h with
  | [b0], h =>
    simp only [isUtf8Seq, Bool.and_eq_true, decide_eq_true_eq] at h
    refine ⟨b0, [], rfl, by omega, ?_⟩
    unfold utf8_char_length
    rw [if_pos (by omega)]
    rfl
  | [b0, b1], h =>
    simp only [isUtf8Seq, Bool.and_eq_true, decide_eq_true_eq] at h
    obtain ⟨⟨h1, h2⟩, _⟩ := h
    refine ⟨b0, [b1], rfl, by omega, ?_⟩
    interval_cases b0 <;> rfl
  | [b0, b1, b2], h =>
    have hr : 0xE0 ≤ b0 ∧ b0 ≤ 0xEF := by
      simp only [isUtf8Seq, Bool.and_eq_true, Bool.or_eq_true, decide_eq_true_eq] at h
      omega
    refine ⟨b0, [b1, b2], rfl, by omega, ?_⟩
    obtain ⟨h1, h2⟩ := hr
    interval_cases b0 <;> rfl
  | [b0, b1, b2, b3], h =>
    have hr : 0xF0 ≤ b0 ∧ b0 ≤ 0xF4 := by
      simp only [isUtf8Seq, Bool.and_eq_true, Bool.or_eq_true, decide_eq_true_eq] at h
      omega
    refine ⟨b0, [b1, b2, b3], rfl, by omega, ?_⟩
    obtain ⟨h1, h2⟩ := hr
    interval_cases b0 <;> rfl
  | [], h => simp [isUtf8Seq] at h
  | _ :: _ :: _ :: _ :: _ :: _, h => simp [isUtf8Seq] at h

theorem getD_append_cons_at {α : Type} (pre tl rest : List α) (b d : α) :
    (pre ++ ((b :: tl) ++ rest)).getD pre.length d = b := by
  rw [List.getD_append_right _ _ _ _ (le_refl _)]
  simp

theorem flatten_length_ge (cs : List CStr) (h : ∀ c ∈ cs, isUtf8Seq c = true) :
    cs.length ≤ cs.flatten.length := by
  induction cs with
  | nil => simp
  | cons c cs ih =>
    obtain ⟨b0, tl, hc, _, _⟩ := isUtf8Seq_lead c (h c (List.mem_cons_self _ _))
    have := ih (fun c' hc' => h c' (List.mem_cons_of_mem _ hc'))
    simp only [List.flatten_cons, List.length_append, List.length_cons]
    rw [hc]
    simp only [List.length_cons]
    omega

/-- On a well-formed line the loop of `utf8_strlen_chars` counts its codepoints. -/
theorem utf8_strlen_chars_loop_decomp :
    ∀ (cs : List CStr) (pre : CStr) (count fuel : Nat), (∀ c ∈ cs, isUtf8Seq c = true) →
      cs.length ≤ fuel →
      utf8_strlen_chars_loop (pre ++ cs.flatten) fuel pre.length count = count + cs.length := by
  intro cs
  induction cs with
  | nil =>
    intro pre count fuel _ _
    cases fuel with
    | zero => rfl
    | succ f =>
      unfold utf8_strlen_chars_loop
      have hz : (pre ++ ([] : List CStr).flatten).getD pre.length 0 = 0 :=
        List.getD_eq_default _ _ (by simp)
      rw [if_neg (fun h => h hz)]
      rfl
  | cons c cs ih =>
    intro pre count fuel hv hf
    obtain ⟨b0, tl, hc, hb0, hlen⟩ := isUtf8Seq_lead c (hv c (List.mem_cons_self _ _))
    cases fuel with
    | zero => simp at hf
    | succ f =>
      unfold utf8_strlen_chars_loop
      have hget : (pre ++ (c :: cs).flatten).getD pre.length 0 = b0 := by
        rw [List.flatten_cons, hc]
        exact getD_append_cons_at pre tl cs.flatten b0 0
      rw [hget, if_pos hb0, hlen]
      have hs : pre ++ (c :: cs).flatten = (pre ++ c) ++ cs.flatten := by
        rw [List.flatten_cons, List.append_assoc]
      have hl : pre.length + c.length = (pre ++ c).length := by simp
      rw [hs, hl, ih (pre ++ c) (count + 1) f
        (fun c' hc' => hv c' (List.mem_cons_of_mem _ hc')) (by simpa using hf)]
      simp only [List.length_cons]
      omega

/-- On a well-formed line the loop of `utf8_byte_offset` stops after `t` codepoints, at the
end of their bytes. -/
theorem utf8_byte_offset_loop_decomp :
    ∀ (t : Nat) (cs : List CStr) (pre : CStr) (idx fuel : Nat),
      (∀ c ∈ cs, isUtf8Seq c = true) → t ≤ cs.length → t ≤ fuel →
      utf8_byte_offset_loop (pre ++ cs.flatten) ((idx + t : Nat) : Int) fuel pre.length idx =
        (pre.length + (cs.take t).flatten.length, idx + t) := by
  intro t
  induction t with
  | zero =>
    intro cs pre idx fuel _ _ _
    cases fuel with
    | zero => simp [utf8_byte_offset_loop]
    | succ f =>
      unfold utf8_byte_offset_loop
      have hc : ¬ ((pre ++ cs.flatten).getD pre.length 0 ≠ 0 ∧
          (idx : Int) < ((idx + 0 : Nat) : Int)) := by
        intro h
        have := h.2
        simp at this
      rw [if_neg hc]
      simp
  | succ t ih =>
    intro cs pre idx fuel hv hle hf
    cases cs with
    | nil => simp at hle
    | cons c cs =>
      obtain ⟨b0, tl, hc, hb0, hlen⟩ := isUtf8Seq_lead c (hv c (List.mem_cons_self _ _))
      cases fuel with
      | zero => simp at hf
      | succ f =>
        unfold utf8_byte_offset_loop
        have hget : (pre ++ (c :: cs).flatten).getD pre.length 0 = b0 := by
          rw [List.flatten_cons, hc]
          exact getD_append_cons_at pre tl cs.flatten b0 0
        have hcond : (pre ++ (c :: cs).flatten).getD pre.length 0 ≠ 0 ∧
            (idx : Int) < ((idx + (t + 1) : Nat) : Int) := by
          refine ⟨by rw [hget]; exact hb0, ?_⟩
          push_cast
          omega
        rw [if_pos hcond, hget, hlen]
        have hs : pre ++ (c :: cs).flatten = (pre ++ c) ++ cs.flatten := by
          rw [List.flatten_cons, List.append_assoc]
        have hl : pre.length + c.length = (pre ++ c).length := by simp
        have ht : idx + (t + 1) = (idx + 1) + t := by omega
        rw [hs, hl, ht, ih cs (pre ++ c) (idx + 1) f
          (fun c' hc' => hv c' (List.mem_cons_of_mem _ hc')) (by simpa using hle) (by omega)]
        simp only [List.take_succ_cons, List.flatten_cons, List.length_append]
        congr 1
        omega

/-- On a well-formed line `utf8_strlen_chars` is the number of codepoints. -/
theorem utf8_strlen_chars_decomp (cs : List CStr) (s : CStr) (h : IsUtf8Decomposition cs s) :
    utf8_strlen_chars s = (cs.length : Int) := by
  obtain ⟨hs, hv⟩ := h
  unfold utf8_strlen_chars
  have := utf8_strlen_chars_loop_decomp cs [] 0 s.length hv
    (by rw [hs]; exact flatten_length_ge cs hv)
  simp only [List.nil_append, List.length_nil, Nat.zero_add] at this
  rw [← hs] at this
  rw [this]

/-- On a well-formed line `utf8_byte_offset` of a character index `t` within the line is the
byte length of the first `t` codepoints. -/
theorem utf8_byte_offset_decomp (cs : List CStr) (s : CStr) (h : IsUtf8Decomposition cs s)
    (t : Nat) (ht : t ≤ cs.length) :
    utf8_byte_offset s (t : Int) = ((cs.take t).flatten.length : Int) := by
  obtain ⟨hs, hv⟩ := h
  unfold utf8_byte_offset
  have := utf8_byte_offset_loop_decomp t cs [] 0 s.length hv ht
    (by rw [hs]; exact le_trans ht (flatten_length_ge cs hv))
  simp only [List.nil_append, List.length_nil, Nat.zero_add] at this
  rw [← hs] at this
  rw [this, if_neg (by omega), if_pos rfl]

/-- The scratch-buffer splice shared by `insert_substring` and `replace_at_position`: with the
line `a ++ m ++ b`, start offset `|a|` and end offset `|a ++ m|`, the stored line is
`a ++ new ++ b` when that fits. -/
theorem splice_fits (a m b new : CStr) (hcur : (a ++ m ++ b).length ≤ MAX_LINE_LENGTH)
    (hfit : a.length + new.length + b.length ≤ MAX_LINE_LENGTH) :
    strcpy_s (MAX_LINE_LENGTH + 1)
      (strcat_s
        (strcat_s ((strncpy_s (MAX_LINE_LENGTH + 1) (a ++ m ++ b) a.length).take a.length)
          (MAX_LINE_LENGTH + 1) new)
        (MAX_LINE_LENGTH + 1) ((a ++ m ++ b).drop (a.length + m.length))) = a ++ new ++ b := by
  have h1 : (a ++ m ++ b).take a.length = a := by
    rw [List.append_assoc, List.take_left']
    rfl
  have h2 : (a ++ m ++ b).drop (a.length + m.length) = b := by
    rw [List.drop_left']
    simp
  have hal : a.length ≤ MAX_LINE_LENGTH := by
    simp only [List.length_append] at hcur
    omega
  unfold strncpy_s
  rw [h1, if_pos (by omega), h2, List.take_length]
  unfold strcat_s
  rw [if_pos (show a.length + new.length < MAX_LINE_LENGTH + 1 by omega),
    if_pos (show (a ++ new).length + b.length < MAX_LINE_LENGTH + 1 by
      simp only [List.length_append]; omega)]
  unfold strcpy_s
  rw [if_pos (show (a ++ new ++ b).length < MAX_LINE_LENGTH + 1 by
    simp only [List.length_append]; omega)]

theorem get_line_set_other (buf : TextBuffer) (line : Int) (v : CStr) (j : Int)
    (hj : j ≠ line) (h0 : 0 ≤ line) :
    get_line { buf with lines := buf.lines.set line.toNat v, modified := 1 } j = get_line buf j := by
  unfold get_line
  simp only
  split
  · rfl
  · rename_i h
    have hne : ¬ (line.toNat = j.toNat ∧ line.toNat < buf.lines.length) := by
      intro hh
      omega
    rw [getD_set_slot, if_neg hne]

theorem get_line_set_same (buf : TextBuffer) (line : Int) (v : CStr) (hwf : buf.WF)
    (h0 : 0 ≤ line) (h1 : line < buf.line_count) :
    get_line { buf with lines := buf.lines.set line.toNat v, modified := 1 } line = some v := by
  unfold get_line
  simp only
  have a : ¬ (line < 0 ∨ line ≥ buf.line_count) := by omega
  have hlt : line.toNat < buf.lines.length := by
    have := hwf.1
    have := hwf.2.2.1
    omega
  rw [if_neg a, getD_set_slot, if_pos ⟨rfl, hlt⟩]

/-- C8: on a buffer whose addressed line is well-formed UTF-8 with codepoints `cs`, for a valid
line index, `0 ≤ col ≤ charLength line` and a text with `byteLength line + byteLength text ≤
MAX_LINE_LENGTH`, `insert_substring` returns 0 and the new line is the bytes of the first `col`
characters, then the text, then the remaining bytes; all other lines and `line_count` are
unchanged. -/
theorem C8_insert_substring_splices (buf : TextBuffer) (line col : Int) (text : CStr)
    (cs : List CStr) (hwf : buf.WF) (hl0 : 0 ≤ line) (hl1 : line < buf.line_count)
    (hdec : IsUtf8Decomposition cs (buf.lines.getD line.toNat []))
    (hc0 : 0 ≤ col) (hc1 : col ≤ utf8_strlen_chars (buf.lines.getD line.toNat []))
    (hcap : (buf.lines.getD line.toNat []).length + text.length ≤ MAX_LINE_LENGTH) :
    (insert_substring buf line col (some text)).1 = 0 ∧
    get_line (insert_substring buf line col (some text)).2 line =
      some ((cs.take col.toNat).flatten ++ text ++ (cs.drop col.toNat).flatten) ∧
    (∀ j : Int, j ≠ line →
      get_line (insert_substring buf line col (some text)).2 j = get_line buf j) ∧
    (insert_substring buf line col (some text)).2.line_count = buf.line_count := by
  obtain ⟨t, rfl⟩ : ∃ t : Nat, col = (t : Int) := ⟨col.toNat, by omega⟩
  have hlen := utf8_strlen_chars_decomp cs _ hdec
  have ht : t ≤ cs.length := by rw [hlen] at hc1; exact_mod_cast hc1
  have hbo := utf8_byte_offset_decomp cs _ hdec t ht
  have hsplit : buf.lines.getD line.toNat []
      = (cs.take t).flatten ++ [] ++ (cs.drop t).flatten := by
    rw [List.append_nil, ← List.flatten_append, List.take_append_drop]
    exact hdec.1
  have a1 : ¬ (line < 0 ∨ line ≥ buf.line_count) := by omega
  have a2 : ¬ (utf8_byte_offset (buf.lines.getD line.toNat []) (t : Int) < 0) := by
    rw [hbo]; omega
  have a3 : ¬ ((buf.lines.getD line.toNat []).length + text.length > MAX_LINE_LENGTH) := by omega
  have hcur : ((cs.take t).flatten ++ [] ++ (cs.drop t).flatten).length ≤ MAX_LINE_LENGTH := by
    rw [← hsplit]; omega
  have hfit : (cs.take t).flatten.length + text.length + (cs.drop t).flatten.length
      ≤ MAX_LINE_LENGTH := by
    have := congrArg List.length hsplit
    simp only [List.length_append, List.length_nil] at this
    omega
  have hsp := splice_fits (cs.take t).flatten [] (cs.drop t).flatten text hcur hfit
  simp only [List.length_nil, Nat.add_zero] at hsp
  rw [← hsplit] at hsp
  have e : insert_substring buf line (t : Int) (some text) =
      (0, { buf with
              lines := buf.lines.set line.toNat
                ((cs.take t).flatten ++ text ++ (cs.drop t).flatten),
              modified := 1 }) := by
    rw [hbo] at a2
    simp only [insert_substring, if_neg a1, hbo, if_neg a2, if_neg a3, Int.toNat_ofNat, hsp]
  rw [e]
  simp only [Int.toNat_ofNat]
  exact ⟨trivial, get_line_set_same buf line _ hwf hl0 hl1,
    fun j hj => get_line_set_other buf line _ j hj hl0, trivial⟩

theorem sample_utf8_WF : (bufferOfLines [[228, 184, 173, 97]]).WF :=
  bufferOfLines_WF _ (by decide) (by
    intro l hl
    simp only [List.mem_singleton] at hl
    subst hl
    exact isLine_of_small _ (by decide) (by decide))

theorem C8_insert_substring_splices_witness :
    (bufferOfLines [[228, 184, 173, 97]]).WF ∧
    get_line (insert_substring (bufferOfLines [[228, 184, 173, 97]]) 0 1 (some [120])).2 0 =
      some ((([[228, 184, 173], [97]] : List CStr).take (1 : Int).toNat).flatten ++ [120] ++
        (([[228, 184, 173], [97]] : List CStr).drop (1 : Int).toNat).flatten) :=
  ⟨sample_utf8_WF,
    (C8_insert_substring_splices (bufferOfLines [[228, 184, 173, 97]]) 0 1 [120]
      [[228, 184, 173], [97]] sample_utf8_WF (by decide) (by decide)
      ⟨by decide, by decide⟩ (by decide) (by decide) (by decide)).2.1⟩

theorem wrap32_of_int (x : Int) (h0 : -2147483648 ≤ x) (h1 : x ≤ 2147483647) : wrap32 x = x := by
  unfold wrap32
  omega

theorem wrap32_of_overflow (x : Int) (h0 : 2147483647 < x) (h1 : x < 4294967296) :
    wrap32 x = x - 4294967296 := by
  unfold wrap32
  omega


/-- The end offset `replace_at_position` computes on a well-formed line: the byte length of
the first `col + k` codepoints, `k` being `len` clamped to the codepoints left, also when the
`int` sum `col + len` wraps. -/
theorem replace_byte_end (cur : CStr) (cs : List CStr) (hdec : IsUtf8Decomposition cs cur)
    (hcur : cur.length ≤ MAX_LINE_LENGTH) (c : Nat) (hc : c < cs.length)
    (len : Int) (h0 : 0 ≤ len) (h1 : len ≤ INT_MAX) :
    (if utf8_byte_offset cur (wrap32 ((c : Int) +
          if wrap32 ((c : Int) + len) > utf8_strlen_chars cur
          then utf8_strlen_chars cur - (c : Int) else len)) < 0
      then (cur.length : Int)
      else utf8_byte_offset cur (wrap32 ((c : Int) +
          if wrap32 ((c : Int) + len) > utf8_strlen_chars cur
          then utf8_strlen_chars cur - (c : Int) else len)))
      = (((cs.take (c + min len.toNat (cs.length - c))).flatten.length : Nat) : Int) := by
  have hn : cs.length ≤ MAX_LINE_LENGTH := by
    have := flatten_length_ge cs hdec.2
    rw [← hdec.1] at this
    omega
  unfold MAX_LINE_LENGTH at hn
  unfold INT_MAX at h1
  rw [utf8_strlen_chars_decomp cs cur hdec]
  obtain ⟨L, rfl⟩ : ∃ L : Nat, len = (L : Int) := ⟨len.toNat, by omega⟩
  simp only [Int.toNat_ofNat]
  by_cases hA : (c : Int) + (L : Int) ≤ 2147483647
  · rw [wrap32_of_int _ (by omega) hA]
    by_cases hA1 : (c : Int) + (L : Int) > (cs.length : Int)
    · rw [if_pos hA1]
      have e1 : (c : Int) + ((cs.length : Int) - (c : Int)) = ((cs.length : Nat) : Int) := by omega
      rw [e1, wrap32_of_int _ (by omega) (by omega),
        utf8_byte_offset_decomp cs cur hdec cs.length (le_refl _), if_neg (by omega)]
      have e2 : c + min L (cs.length - c) = cs.length := by omega
      rw [e2]
    · rw [if_neg hA1]
      have e1 : (c : Int) + (L : Int) = ((c + L : Nat) : Int) := by push_cast; rfl
      rw [wrap32_of_int _ (by omega) hA, e1,
        utf8_byte_offset_decomp cs cur hdec (c + L) (by omega), if_neg (by omega)]
      have e2 : c + min L (cs.length - c) = c + L := by omega
      rw [e2]
  · have hw := wrap32_of_overflow ((c : Int) + (L : Int)) (by omega) (by omega)
    have hneg : ¬ (wrap32 ((c : Int) + (L : Int)) > (cs.length : Int)) := by rw [hw]; omega
    rw [if_neg hneg]
    have hbo : utf8_byte_offset cur (wrap32 ((c : Int) + (L : Int))) = -1 := by
      unfold utf8_byte_offset
      rw [if_pos (by rw [hw]; omega)]
    rw [hbo, if_pos (by decide)]
    have e2 : c + min L (cs.length - c) = cs.length := by omega
    rw [e2, List.take_length, ← hdec.1]

/-- Splitting a codepoint list at `c` and `c + k`. -/
theorem flatten_three (cs : List CStr) (c k : Nat) :
    cs.flatten = (cs.take c).flatten ++ ((cs.drop c).take k).flatten ++
      (cs.drop (c + k)).flatten ∧
    (cs.take (c + k)).flatten.length =
      (cs.take c).flatten.length + ((cs.drop c).take k).flatten.length := by
  constructor
  · rw [← List.flatten_append, ← List.flatten_append, List.append_assoc]
    congr 1
    have : cs.drop (c + k) = (cs.drop c).drop k := by
      rw [List.drop_drop, Nat.add_comm]
    rw [this, List.take_append_drop, List.take_append_drop]
  · rw [List.take_add, List.flatten_append, List.length_append]

/-- Main case of `replace_at_position` on a well-formed line. -/
theorem replace_at_position_decomp (buf : TextBuffer) (line : Int) (c : Nat) (len : Int)
    (newText : CStr) (cs : List CStr) (hwf : buf.WF) (hl0 : 0 ≤ line)
    (hl1 : line < buf.line_count)
    (hdec : IsUtf8Decomposition cs (buf.lines.getD line.toNat []))
    (hc : c < cs.length) (h0 : 0 ≤ len) (h1 : len ≤ INT_MAX) (hnew : InAddressSpace newText) :
    replace_at_position buf line (c : Int) len (some newText) =
      if (buf.lines.getD line.toNat []).length
          - ((cs.drop c).take (min len.toNat (cs.length - c))).flatten.length
          + newText.length ≤ MAX_LINE_LENGTH
      then (0, { buf with
                  lines := buf.lines.set line.toNat
                    ((cs.take c).flatten ++ newText ++
                      (cs.drop (c + min len.toNat (cs.length - c))).flatten),
                  modified := 1 })
      else (-1, buf) := by
  have hcurlen : (buf.lines.getD line.toNat []).length ≤ MAX_LINE_LENGTH :=
    getD_length_le (WF_lengths hwf) _
  have hbe := replace_byte_end _ cs hdec hcurlen c hc len h0 h1
  have hbs := utf8_byte_offset_decomp cs _ hdec c (le_of_lt hc)
  have hlc := utf8_strlen_chars_decomp cs _ hdec
  have a1 : ¬ (line < 0 ∨ line ≥ buf.line_count) := by omega
  have a2 : ¬ (len < 0) := by omega
  have a3 : ¬ ((c : Int) < 0 ∨ (c : Int) ≥ utf8_strlen_chars (buf.lines.getD line.toNat [])) := by
    rw [hlc]; omega
  have a4 : ¬ (((cs.take c).flatten.length : Int) < 0) := by omega
  obtain ⟨h3, h3l⟩ := flatten_three cs c (min len.toNat (cs.length - c))
  rw [← hdec.1] at h3
  have hlen3 := congrArg List.length h3
  simp only [List.length_append] at hlen3
  unfold InAddressSpace SIZE_MOD at hnew
  simp only [replace_at_position, if_neg a1, if_neg a2, if_neg a3, hbe, hbs, if_neg a4,
    Int.toNat_ofNat]
  have hmod : (((buf.lines.getD line.toNat []).length : Int)
      - ((((cs.take (c + min len.toNat (cs.length - c))).flatten.length : Nat) : Int)
          - (((cs.take c).flatten.length : Nat) : Int))
      + (newText.length : Int)) % ((SIZE_MOD : Nat) : Int)
      = (((buf.lines.getD line.toNat []).length
          - ((cs.drop c).take (min len.toNat (cs.length - c))).flatten.length
          + newText.length : Nat) : Int) := by
    unfold SIZE_MOD
    unfold MAX_LINE_LENGTH at hnew hcurlen
    omega
  rw [hmod]
  by_cases hfit : (buf.lines.getD line.toNat []).length
      - ((cs.drop c).take (min len.toNat (cs.length - c))).flatten.length
      + newText.length ≤ MAX_LINE_LENGTH
  · rw [if_pos hfit, if_neg (by exact_mod_cast Nat.not_lt.mpr hfit)]
    have hsp := splice_fits (cs.take c).flatten
      ((cs.drop c).take (min len.toNat (cs.length - c))).flatten
      (cs.drop (c + min len.toNat (cs.length - c))).flatten newText
      (by rw [← h3]; exact hcurlen) (by omega)
    rw [← h3, ← h3l] at hsp
    rw [hsp]
  · rw [if_neg hfit, if_pos (by exact_mod_cast Nat.lt_of_not_le hfit)]

/-- C10: on a buffer whose addressed line is well-formed UTF-8 with codepoints `cs`, for a valid
line index, `0 ≤ col < charLength line`, `len ≥ 0` and `k = min len (charLength line - col)`:
when `byteLength line` minus the bytes of characters `[col, col + k)` plus `byteLength newText`
is at most `MAX_LINE_LENGTH`, `replace_at_position` returns 0 and the new line is the bytes of
the first `col` characters, then `newText`, then the bytes of the characters from `col + k` on;
it returns -1 when that length exceeds `MAX_LINE_LENGTH`, when `col ≥ charLength line`, when
`len < 0` and when the line index is invalid. -/
theorem C10_replace_at_position (buf : TextBuffer) (line col len : Int) (newText : CStr)
    (cs : List CStr) (hwf : buf.WF) (hint : len ≤ INT_MAX) (hnew : InAddressSpace newText) :
    (0 ≤ line → line < buf.line_count →
      IsUtf8Decomposition cs (buf.lines.getD line.toNat []) →
      0 ≤ col → col < utf8_strlen_chars (buf.lines.getD line.toNat []) → 0 ≤ len →
      ((buf.lines.getD line.toNat []).length
          - ((cs.drop col.toNat).take (min len.toNat (cs.length - col.toNat))).flatten.length
          + newText.length ≤ MAX_LINE_LENGTH →
        (replace_at_position buf line col len (some newText)).1 = 0 ∧
        get_line (replace_at_position buf line col len (some newText)).2 line =
          some ((cs.take col.toNat).flatten ++ newText ++
            (cs.drop (col.toNat + min len.toNat (cs.length - col.toNat))).flatten)) ∧
      ((buf.lines.getD line.toNat []).length
          - ((cs.drop col.toNat).take (min len.toNat (cs.length - col.toNat))).flatten.length
          + newText.length > MAX_LINE_LENGTH →
        (replace_at_position buf line col len (some newText)).1 = -1)) ∧
    (col ≥ utf8_strlen_chars (buf.lines.getD line.toNat []) →
      (replace_at_position buf line col len (some newText)).1 = -1) ∧
    (len < 0 → (replace_at_position buf line col len (some newText)).1 = -1) ∧
    (line < 0 ∨ line ≥ buf.line_count →
      (replace_at_position buf line col len (some newText)).1 = -1) := by
  refine ⟨?_, ?_, ?_, ?_⟩
  · intro hl0 hl1 hdec hc0 hc1 hlen0
    obtain ⟨c, rfl⟩ : ∃ c : Nat, col = (c : Int) := ⟨col.toNat, by omega⟩
    have hc : c < cs.length := by
      rw [utf8_strlen_chars_decomp cs _ hdec] at hc1
      exact_mod_cast hc1
    rw [replace_at_position_decomp buf line c len newText cs hwf hl0 hl1 hdec hc hlen0 hint hnew]
    simp only [Int.toNat_ofNat]
    constructor
    · intro hfit
      rw [if_pos hfit]
      exact ⟨rfl, get_line_set_same buf line _ hwf hl0 hl1⟩
    · intro hfit
      rw [if_neg (by omega)]
  · intro hcol
    by_cases a1 : line < 0 ∨ line ≥ buf.line_count
    · simp only [replace_at_position, if_pos a1]
    · by_cases a2 : len < 0
      · simp only [replace_at_position, if_neg a1, if_pos a2]
      · have a3 : col < 0 ∨ col ≥ utf8_strlen_chars (buf.lines.getD line.toNat []) := Or.inr hcol
        simp only [replace_at_position, if_neg a1, if_neg a2, if_pos a3]
  · intro a2
    by_cases a1 : line < 0 ∨ line ≥ buf.line_count
    · simp only [replace_at_position, if_pos a1]
    · simp only [replace_at_position, if_neg a1, if_pos a2]
  · intro a1
    simp only [replace_at_position, if_pos a1]

theorem C10_replace_at_position_witness :
    (bufferOfLines [[228, 184, 173, 97]]).WF ∧ (1 : Int) ≤ INT_MAX ∧ InAddressSpace [120, 121] ∧
    (replace_at_position (bufferOfLines [[228, 184, 173, 97]]) 0 0 1 (some [120, 121])).1 = 0 ∧
    get_line (replace_at_position (bufferOfLines [[228, 184, 173, 97]]) 0 0 1
        (some [120, 121])).2 0 =
      some ((([[228, 184, 173], [97]] : List CStr).take (0 : Int).toNat).flatten ++ [120, 121] ++
        (([[228, 184, 173], [97]] : List CStr).drop ((0 : Int).toNat +
          min (1 : Int).toNat (([[228, 184, 173], [97]] : List CStr).length
            - (0 : Int).toNat))).flatten) :=
  ⟨sample_utf8_WF, by decide, by decide,
    ((C10_replace_at_position (bufferOfLines [[228, 184, 173, 97]]) 0 0 1 [120, 121]
      [[228, 184, 173], [97]] sample_utf8_WF (by decide) (by decide)).1
      (by decide) (by decide) ⟨by decide, by decide⟩ (by decide) (by decide) (by decide)).1
      (by decide)⟩

/-! ## Knuth-Morris-Pratt: borders and the failure table -/

theorem pe_zero (p t : CStr) (i : Nat) : PrefixEndsAt p 0 t i :=
  ⟨Nat.zero_le _, fun x hx => absurd hx (Nat.not_lt_zero x)⟩

theorem pe_succ_iff (p t : CStr) (k i : Nat) :
    PrefixEndsAt p (k + 1) t (i + 1) ↔ (PrefixEndsAt p k t i ∧ p.getD k 0 = t.getD i 0) := by
  constructor
  · rintro ⟨hle, h⟩
    refine ⟨⟨by omega, fun x hx => ?_⟩, ?_⟩
    · have := h x (by omega)
      have e : i + 1 - (k + 1) + x = i - k + x := by omega
      rwa [e] at this
    · have := h k (by omega)
      have e : i + 1 - (k + 1) + k = i := by omega
      rwa [e] at this
  · rintro ⟨⟨hle, h⟩, hk⟩
    refine ⟨by omega, fun x hx => ?_⟩
    have e : i + 1 - (k + 1) + x = i - k + x := by omega
    rw [e]
    by_cases hx2 : x < k
    · exact h x hx2
    · have e2 : x = k := by omega
      subst e2
      have e3 : i - x + x = i := by omega
      rw [e3]
      exact hk

theorem pe_pred (p t : CStr) (k i : Nat) (h : PrefixEndsAt p (k + 1) t (i + 1)) :
    PrefixEndsAt p k t i :=
  ((pe_succ_iff p t k i).mp h).1

theorem pe_trans (p t : CStr) (a b i : Nat) (h1 : PrefixEndsAt p a p b)
    (h2 : PrefixEndsAt p b t i) : PrefixEndsAt p a t i := by
  obtain ⟨hab, h1⟩ := h1
  obtain ⟨hbi, h2⟩ := h2
  refine ⟨by omega, fun x hx => ?_⟩
  rw [h1 x hx, h2 (b - a + x) (by omega)]
  congr 1
  omega

theorem pe_both (p t : CStr) (a b i : Nat) (h1 : PrefixEndsAt p a t i)
    (h2 : PrefixEndsAt p b t i) (hab : a ≤ b) : PrefixEndsAt p a p b := by
  obtain ⟨hai, h1⟩ := h1
  obtain ⟨hbi, h2⟩ := h2
  refine ⟨hab, fun x hx => ?_⟩
  rw [h1 x hx, h2 (b - a + x) (by omega)]
  congr 1
  omega

/-- Loop invariant of `build_lps` at `(i, len)`. -/
theorem build_lps_loop_spec (p : CStr) (m : Nat) :
    ∀ (fuel i len : Nat) (lps : List Nat),
      1 ≤ i → i ≤ m → lps.length = m → len < i →
      (∀ k, k < i → IsLongestBorder p k (lps.getD k 0)) →
      PrefixEndsAt p len p i →
      (∀ b, b ≤ i → PrefixEndsAt p b p (i + 1) → b ≤ len + 1) →
      2 * (m - i) + len ≤ fuel →
      (build_lps_loop p m fuel i len lps).length = m ∧
      ∀ k, k < m → IsLongestBorder p k ((build_lps_loop p m fuel i len lps).getD k 0) := by
  intro fuel
  induction fuel with
  | zero =>
    intro i len lps h1 him hlen hli htab hpe hmax hf
    have : i = m := by omega
    subst this
    exact ⟨hlen, htab⟩
  | succ f ih =>
    intro i len lps h1 him hlen hli htab hpe hmax hf
    unfold build_lps_loop
    by_cases hi : i < m
    · rw [if_pos hi]
      by_cases hmatch : p.getD i 0 = p.getD len 0
      · rw [if_pos hmatch]
        have hnew : PrefixEndsAt p (len + 1) p (i + 1) :=
          (pe_succ_iff p p len i).mpr ⟨hpe, hmatch.symm⟩
        apply ih (i + 1) (len + 1) (lps.set i (len + 1)) (by omega) (by omega)
          (by simpa using hlen) (by omega)
        · intro k hk
          rw [getD_set_slot]
          by_cases hki : i = k
          · subst hki
            rw [if_pos ⟨rfl, by omega⟩]
            exact ⟨by omega, hnew, fun b hb hb2 => hmax b hb hb2⟩
          · rw [if_neg (fun h => hki h.1)]
            exact htab k (by omega)
        · exact hnew
        · intro b hb hb2
          cases b with
          | zero => omega
          | succ b =>
            have := hmax b (by omega) (pe_pred p p b (i + 1) hb2)
            omega
        · omega
      · rw [if_neg hmatch]
        by_cases hlen0 : len ≠ 0
        · rw [if_pos hlen0]
          obtain ⟨hv1, hv2, hv3⟩ := htab (len - 1) (by omega)
          have e : len - 1 + 1 = len := by omega
          rw [e] at hv2 hv3
          apply ih i (lps.getD (len - 1) 0) lps h1 him hlen (by omega) htab
            (pe_trans p p _ len i hv2 hpe)
          · intro b hb hb2
            have hb3 := hmax b hb hb2
            cases b with
            | zero => omega
            | succ b =>
              have hbne : b ≠ len := by
                intro hbl
                subst hbl
                exact hmatch ((pe_succ_iff p p b i).mp hb2).2.symm
              have hpb : PrefixEndsAt p b p i := pe_pred p p b i hb2
              have := hv3 b (by omega) (pe_both p p b len i hpb hpe (by omega))
              omega
          · omega
        · rw [if_neg hlen0]
          have hl0 : len = 0 := by omega
          subst hl0
          have hno : ∀ b, b ≤ i → PrefixEndsAt p b p (i + 1) → b = 0 := by
            intro b hb hb2
            have hb3 := hmax b hb hb2
            cases b with
            | zero => rfl
            | succ b =>
              have hb0 : b = 0 := by omega
              subst hb0
              exact absurd ((pe_succ_iff p p 0 i).mp hb2).2.symm hmatch
          apply ih (i + 1) 0 (lps.set i 0) (by omega) (by omega) (by simpa using hlen) (by omega)
          · intro k hk
            rw [getD_set_slot]
            by_cases hki : i = k
            · subst hki
              rw [if_pos ⟨rfl, by omega⟩]
              exact ⟨by omega, pe_zero _ _ _, fun b hb hb2 => by rw [hno b hb hb2]⟩
            · rw [if_neg (fun h => hki h.1)]
              exact htab k (by omega)
          · exact pe_zero _ _ _
          · intro b hb hb2
            cases b with
            | zero => omega
            | succ b =>
              have := hno b (by omega) (pe_pred p p b (i + 1) hb2)
              omega
          · omega
    · rw [if_neg hi]
      have : i = m := by omega
      subst this
      exact ⟨hlen, htab⟩

/-- Source function `build_lps` fills every slot with the longest-border length, whatever the array held. -/
theorem build_lps_spec (p : CStr) (m : Nat) (lps : List Nat) (hm : 1 ≤ m) (hlen : lps.length = m) :
    (build_lps p m lps).length = m ∧
    ∀ k, k < m → IsLongestBorder p k ((build_lps p m lps).getD k 0) := by
  unfold build_lps
  apply build_lps_loop_spec p m (2 * m) 1 0 (lps.set 0 0) (le_refl _) hm (by simpa using hlen)
    (by omega)
  · intro k hk
    have hk0 : k = 0 := by omega
    subst hk0
    rw [getD_set_slot, if_pos ⟨rfl, by omega⟩]
    exact ⟨le_refl _, pe_zero _ _ _, fun b hb _ => hb⟩
  · exact pe_zero _ _ _
  · intro b hb _
    omega
  · omega

/-! ## Knuth-Morris-Pratt: the scan -/

theorem scan_hit (p t : CStr) (lps : List Nat) (m i j : Nat)
    (hlps : ∀ k, k < m → IsLongestBorder p k (lps.getD k 0))
    (hinv : ScanInv p t m i j) (hmatch : t.getD i 0 = p.getD j 0) (hjm : j + 1 = m) :
    ScanInv p t m (i + 1) (lps.getD (j + 1 - 1) 0) ∧ PrefixEndsAt p m t (i + 1) ∧
      lps.getD (j + 1 - 1) 0 ≤ j := by
  obtain ⟨hj, hpe, hmax⟩ := hinv
  have hfull : PrefixEndsAt p (j + 1) t (i + 1) := (pe_succ_iff p t j i).mpr ⟨hpe, hmatch.symm⟩
  have e : j + 1 - 1 = j := by omega
  rw [e]
  obtain ⟨hv1, hv2, hv3⟩ := hlps j hj
  refine ⟨⟨by omega, pe_trans p t _ (j + 1) (i + 1) hv2 hfull, fun k hk hk2 => ?_⟩,
    by rw [← hjm]; exact hfull, hv1⟩
  cases k with
  | zero => omega
  | succ k =>
    have hk3 : PrefixEndsAt p k t (i + 1) := pe_pred p t k (i + 1) hk2
    have := hv3 k (by omega) (pe_both p t k (j + 1) (i + 1) hk3 hfull (by omega))
    omega

theorem scan_advance (p t : CStr) (m i j : Nat)
    (hinv : ScanInv p t m i j) (hmatch : t.getD i 0 = p.getD j 0) (hjm : ¬ (j + 1 = m)) :
    ScanInv p t m (i + 1) (j + 1) ∧ ¬ PrefixEndsAt p m t (i + 1) := by
  obtain ⟨hj, hpe, hmax⟩ := hinv
  have hfull : PrefixEndsAt p (j + 1) t (i + 1) := (pe_succ_iff p t j i).mpr ⟨hpe, hmatch.symm⟩
  refine ⟨⟨by omega, hfull, fun k hk hk2 => ?_⟩, fun h => ?_⟩
  · cases k with
    | zero => omega
    | succ k =>
      have := hmax k (by omega) (pe_pred p t k (i + 1) hk2)
      omega
  · have := hmax m (le_refl _) h
    omega

theorem scan_fallback (p t : CStr) (lps : List Nat) (m i j : Nat)
    (hlps : ∀ k, k < m → IsLongestBorder p k (lps.getD k 0))
    (hinv : ScanInv p t m i j) (hmis : ¬ (t.getD i 0 = p.getD j 0)) (hj0 : j ≠ 0) :
    ScanInv p t m i (lps.getD (j - 1) 0) ∧ lps.getD (j - 1) 0 < j := by
  obtain ⟨hj, hpe, hmax⟩ := hinv
  obtain ⟨hv1, hv2, hv3⟩ := hlps (j - 1) (by omega)
  have e : j - 1 + 1 = j := by omega
  rw [e] at hv2 hv3
  refine ⟨⟨by omega, pe_trans p t _ j i hv2 hpe, fun k hk hk2 => ?_⟩, by omega⟩
  have hk3 := hmax k hk hk2
  cases k with
  | zero => omega
  | succ k =>
    have hkne : k ≠ j := by
      intro hkj
      subst hkj
      exact hmis ((pe_succ_iff p t k i).mp hk2).2.symm
    have := hv3 k (by omega) (pe_both p t k j i (pe_pred p t k i hk2) hpe (by omega))
    omega

theorem scan_skip (p t : CStr) (m i : Nat)
    (hinv : ScanInv p t m i 0) (hmis : ¬ (t.getD i 0 = p.getD 0 0)) :
    ScanInv p t m (i + 1) 0 ∧ ¬ PrefixEndsAt p m t (i + 1) := by
  obtain ⟨hj, hpe, hmax⟩ := hinv
  have hone : ∀ k, k ≤ m → PrefixEndsAt p k t (i + 1) → k = 0 := by
    intro k hk hk2
    have hk3 := hmax k hk hk2
    cases k with
    | zero => rfl
    | succ k =>
      have hk0 : k = 0 := by omega
      subst hk0
      exact absurd ((pe_succ_iff p t 0 i).mp hk2).2.symm hmis
  refine ⟨⟨hj, pe_zero _ _ _, fun k hk hk2 => ?_⟩, fun h => ?_⟩
  · cases k with
    | zero => omega
    | succ k =>
      have := hone k (by omega) (pe_pred p t k (i + 1) hk2)
      omega
  · have := hone m (le_refl _) h
    omega

/-- An occurrence at offset `s` is the whole pattern ending at `s + len p`. -/
theorem occursAt_iff (p t : CStr) (s : Nat) (hp : 1 ≤ p.length) :
    occursAt p t s = true ↔
      (s + p.length ≤ t.length ∧ PrefixEndsAt p p.length t (s + p.length)) := by
  unfold occursAt
  rw [decide_eq_true_eq]
  constructor
  · intro h
    have hl := congrArg List.length h
    simp only [List.length_take, List.length_drop] at hl
    refine ⟨by omega, by omega, fun x hx => ?_⟩
    have e : s + p.length - p.length + x = s + x := by omega
    rw [e]
    conv_lhs => rw [← h]
    rw [getD_take_slot, if_pos hx, getD_drop_slot]
  · rintro ⟨hle, _, h⟩
    apply ext_getD 0
    · simp only [List.length_take, List.length_drop]
      omega
    · intro k hk
      simp only [List.length_take, List.length_drop] at hk
      have hk2 : k < p.length := by omega
      rw [getD_take_slot, if_pos hk2, getD_drop_slot, h k hk2]
      congr 1
      omega

theorem filter_range_hit (p t : CStr) (m i : Nat) (hm : 1 ≤ m) (hpm : p.length = m)
    (hi : i + 1 ≤ t.length) (h : PrefixEndsAt p m t (i + 1)) :
    (List.range (i + 1 + 1 - m)).filter (occursAt p t) =
      (List.range (i + 1 - m)).filter (occursAt p t) ++ [i + 1 - m] := by
  have hmi : m ≤ i + 1 := h.1
  have e : i + 1 + 1 - m = (i + 1 - m) + 1 := by omega
  have hocc : occursAt p t (i + 1 - m) = true := by
    rw [occursAt_iff p t _ (by omega), hpm]
    have e2 : i + 1 - m + m = i + 1 := by omega
    rw [e2]
    exact ⟨hi, h⟩
  rw [e, List.range_succ, List.filter_append]
  simp [hocc]

theorem filter_range_miss (p t : CStr) (m i : Nat) (hm : 1 ≤ m) (hpm : p.length = m)
    (h : ¬ PrefixEndsAt p m t (i + 1)) :
    (List.range (i + 1 + 1 - m)).filter (occursAt p t) =
      (List.range (i + 1 - m)).filter (occursAt p t) := by
  by_cases hmi : m ≤ i + 1
  · have e : i + 1 + 1 - m = (i + 1 - m) + 1 := by omega
    have hocc : occursAt p t (i + 1 - m) = false := by
      rw [Bool.eq_false_iff]
      intro hh
      rw [occursAt_iff p t _ (by omega), hpm] at hh
      have e2 : i + 1 - m + m = i + 1 := by omega
      rw [e2] at hh
      exact h hh.2
    rw [e, List.range_succ, List.filter_append]
    simp [hocc]
  · have e1 : i + 1 + 1 - m = 0 := by omega
    have e2 : i + 1 - m = 0 := by omega
    rw [e1, e2]

/-- Offsets too close to the end of the line hold no occurrence. -/
theorem filter_range_all (p t : CStr) (hp : 1 ≤ p.length) :
    (List.range (t.length + 1 - p.length)).filter (occursAt p t) = occurrences p t := by
  unfold occurrences
  have key : ∀ d, (List.range (t.length + 1 - p.length + d)).filter (occursAt p t) =
      (List.range (t.length + 1 - p.length)).filter (occursAt p t) := by
    intro d
    induction d with
    | zero => rfl
    | succ d ih =>
      have e : t.length + 1 - p.length + (d + 1) = (t.length + 1 - p.length + d) + 1 := by omega
      have hocc : occursAt p t (t.length + 1 - p.length + d) = false := by
        rw [Bool.eq_false_iff]
        intro hh
        rw [occursAt_iff p t _ hp] at hh
        omega
      rw [e, List.range_succ, List.filter_append, ih]
      simp [hocc]
  have := key (t.length - (t.length + 1 - p.length))
  have e : t.length + 1 - p.length + (t.length - (t.length + 1 - p.length)) = t.length := by
    omega
  rw [e] at this
  exact this.symm

theorem scanInv_start (p t : CStr) (m : Nat) (hm : 1 ≤ m) : ScanInv p t m 0 0 :=
  ⟨hm, pe_zero _ _ _, fun _ _ hk2 => hk2.1⟩

/-- The loop of `kmp_count_line` adds one per occurrence not yet passed. -/
theorem kmp_count_line_loop_spec (p t : CStr) (lps : List Nat) (m : Nat) (hm : 1 ≤ m)
    (hpm : p.length = m) (hlps : ∀ k, k < m → IsLongestBorder p k (lps.getD k 0)) (c0 : Int) :
    ∀ (fuel i j : Nat) (count : Int), i ≤ t.length → ScanInv p t m i j →
      count = c0 + (((List.range (i + 1 - m)).filter (occursAt p t)).length : Int) →
      2 * (t.length - i) + j ≤ fuel →
      kmp_count_line_loop t p lps m t.length fuel i j count =
        c0 + (((List.range (t.length + 1 - m)).filter (occursAt p t)).length : Int) := by
  intro fuel
  induction fuel with
  | zero =>
    intro i j count hi _ hcount hf
    have : i = t.length := by omega
    subst this
    exact hcount
  | succ f ih =>
    intro i j count hi hinv hcount hf
    unfold kmp_count_line_loop
    by_cases hin : i < t.length
    · rw [if_pos hin]
      by_cases hmatch : t.getD i 0 = p.getD j 0
      · rw [if_pos hmatch]
        by_cases hjm : j + 1 = m
        · rw [if_pos hjm]
          obtain ⟨hinv2, hpe, hv⟩ := scan_hit p t lps m i j hlps hinv hmatch hjm
          apply ih _ _ _ (by omega) hinv2 _ (by omega)
          rw [filter_range_hit p t m i hm hpm (by omega) hpe, List.length_append, hcount]
          push_cast
          simp only [List.length_singleton]
          omega
        · rw [if_neg hjm]
          obtain ⟨hinv2, hno⟩ := scan_advance p t m i j hinv hmatch hjm
          apply ih _ _ _ (by omega) hinv2 _ (by omega)
          rw [filter_range_miss p t m i hm hpm hno, hcount]
      · rw [if_neg hmatch]
        by_cases hj0 : j ≠ 0
        · rw [if_pos hj0]
          obtain ⟨hinv2, hv⟩ := scan_fallback p t lps m i j hlps hinv hmatch hj0
          exact ih _ _ _ hi hinv2 hcount (by omega)
        · rw [if_neg hj0]
          have hj : j = 0 := by omega
          subst hj
          obtain ⟨hinv2, hno⟩ := scan_skip p t m i hinv hmatch
          apply ih _ _ _ (by omega) hinv2 _ (by omega)
          rw [filter_range_miss p t m i hm hpm hno, hcount]
    · rw [if_neg hin]
      have : i = t.length := by omega
      subst this
      exact hcount

/-- Source function `kmp_count_line` with the table of `build_lps` counts the occurrences, overlapping ones
included. -/
theorem kmp_count_line_spec (p t : CStr) (lps : List Nat) (hp : 1 ≤ p.length)
    (hlps : ∀ k, k < p.length → IsLongestBorder p k (lps.getD k 0)) :
    kmp_count_line t p lps p.length = ((occurrences p t).length : Int) := by
  unfold kmp_count_line
  have := kmp_count_line_loop_spec p t lps p.length hp rfl hlps 0 (2 * t.length) 0 0 0
    (Nat.zero_le _) (scanInv_start p t p.length hp)
    (by
      have e : 0 + 1 - p.length = 0 := by omega
      rw [e]
      simp)
    (by omega)
  rw [this, filter_range_all p t hp]
  simp

theorem bufferOccurrencesUpTo_succ (p : CStr) (buf : TextBuffer) (n : Nat) :
    bufferOccurrencesUpTo p buf (n + 1) =
      bufferOccurrencesUpTo p buf n ++
        (occurrences p (buf.lines.getD n [])).map (fun s => (n, s)) := by
  unfold bufferOccurrencesUpTo
  rw [List.range_succ, List.map_append, List.flatten_append]
  simp

/-- The loop of `find_substring_count` adds the occurrences of the lines still to visit. -/
theorem find_substring_count_loop_spec (buf : TextBuffer) (p : CStr) (lps : List Nat)
    (hp : 1 ≤ p.length) (hlps : ∀ k, k < p.length → IsLongestBorder p k (lps.getD k 0)) :
    ∀ (fuel i : Nat) (count : Int), i + fuel = buf.line_count.toNat →
      count = ((bufferOccurrencesUpTo p buf i).length : Int) →
      find_substring_count_loop buf p lps p.length fuel i count =
        ((bufferOccurrences p buf).length : Int) := by
  intro fuel
  induction fuel with
  | zero =>
    intro i count hi hcount
    unfold bufferOccurrences
    rw [← hi]
    exact hcount
  | succ f ih =>
    intro i count hi hcount
    unfold find_substring_count_loop
    have hlt : (i : Int) < buf.line_count := by omega
    rw [if_pos hlt]
    apply ih (i + 1) _ (by omega)
    rw [bufferOccurrencesUpTo_succ, List.length_append, List.length_map, hcount,
      kmp_count_line_spec p _ lps hp hlps]
    push_cast
    rfl

/-- Non-empty C string: its first byte is not the terminator. -/
theorem head_ne_zero (p : CStr) (hne : p ≠ []) (hb : ∀ b ∈ p, b ≠ 0) : ¬ (p.getD 0 0 = 0) := by
  cases p with
  | nil => exact absurd rfl hne
  | cons b tl =>
    simp only [List.getD_cons_zero]
    exact hb b (List.mem_cons_self _ _)

/-- Source function `find_substring_count` is the number of occurrences in the occupied lines. -/
theorem find_substring_count_eq (buf : TextBuffer) (p : CStr) (hne : p ≠ [])
    (hb : ∀ b ∈ p, b ≠ 0) :
    find_substring_count buf (some p) = ((bufferOccurrences p buf).length : Int) := by
  have hp : 1 ≤ p.length := by
    cases p with
    | nil => exact absurd rfl hne
    | cons b tl => simp
  have hl := build_lps_spec p p.length (List.replicate p.length 0) hp (by simp)
  simp only [find_substring_count, if_neg (head_ne_zero p hne hb)]
  exact find_substring_count_loop_spec buf p _ hp hl.2 buf.line_count.toNat 0 0 (by omega)
    (by simp [bufferOccurrencesUpTo])

theorem bufferOccurrencesUpTo_length (p : CStr) (buf : TextBuffer) :
    ∀ n, n ≤ buf.lines.length →
      ((bufferOccurrencesUpTo p buf n).length : Int) =
        ((buf.lines.take n).map (fun line => ((occurrences p line).length : Int))).sum := by
  intro n
  induction n with
  | zero => intro _; simp [bufferOccurrencesUpTo]
  | succ n ih =>
    intro hn
    have hlt : n < buf.lines.length := by omega
    rw [bufferOccurrencesUpTo_succ, List.length_append, List.length_map, List.take_succ,
      List.map_append, List.sum_append, ← ih (by omega), List.getD_eq_getElem _ _ hlt,
      List.getElem?_eq_getElem hlt]
    simp

/-- C4: for a non-empty byte pattern `p`, `find_substring_count` is the sum over the occupied
lines of the number of byte offsets `s` with `line[s .. s + len p) = p`: overlapping
occurrences all count and none spans two lines; the single line "aaa" with pattern "aa"
gives 2. -/
theorem C4_find_substring_count (buf : TextBuffer) (p : CStr) (hwf : buf.WF) (hne : p ≠ [])
    (hb : ∀ b ∈ p, b ≠ 0) :
    find_substring_count buf (some p) =
      (buf.occupied.map (fun line => ((occurrences p line).length : Int))).sum ∧
    find_substring_count (bufferOfLines [[97, 97, 97]]) (some [97, 97]) = 2 := by
  refine ⟨?_, by decide⟩
  rw [find_substring_count_eq buf p hne hb]
  unfold bufferOccurrences TextBuffer.occupied
  apply bufferOccurrencesUpTo_length
  have := hwf.1
  have := hwf.2.2.1
  omega

theorem C4_find_substring_count_witness :
    (bufferOfLines [[97], [98]]).WF ∧ ([97] : CStr) ≠ [] ∧ (∀ b ∈ ([97] : CStr), b ≠ 0) ∧
    find_substring_count (bufferOfLines [[97], [98]]) (some [97]) =
      ((bufferOfLines [[97], [98]]).occupied.map
        (fun line => ((occurrences [97] line).length : Int))).sum :=
  ⟨sample_two_lines_WF, by decide, by decide,
    (C4_find_substring_count (bufferOfLines [[97], [98]]) [97] sample_two_lines_WF
      (by decide) (by decide)).1⟩

/-- The loop of `kmp_collect_line` performs `collectStep` for each occurrence not yet passed,
in ascending order. -/
theorem kmp_collect_line_loop_spec (p t : CStr) (lps : List Nat) (m : Nat) (hm : 1 ≤ m)
    (hpm : p.length = m) (hlps : ∀ k, k < m → IsLongestBorder p k (lps.getD k 0))
    (li so mr : Int) (acc0 : Int × List (Option SearchResult)) :
    ∀ (fuel i j : Nat) (count : Int) (results : List (Option SearchResult)),
      i ≤ t.length → ScanInv p t m i j →
      (count, results) =
        ((List.range (i + 1 - m)).filter (occursAt p t)).foldl (collectStep t li so mr) acc0 →
      2 * (t.length - i) + j ≤ fuel →
      kmp_collect_line_loop t p lps m t.length li so mr fuel i j count results =
        ((List.range (t.length + 1 - m)).filter (occursAt p t)).foldl
          (collectStep t li so mr) acc0 := by
  intro fuel
  induction fuel with
  | zero =>
    intro i j count results hi _ hacc hf
    have : i = t.length := by omega
    subst this
    exact hacc
  | succ f ih =>
    intro i j count results hi hinv hacc hf
    unfold kmp_collect_line_loop
    by_cases hin : i < t.length
    · rw [if_pos hin]
      by_cases hmatch : t.getD i 0 = p.getD j 0
      · rw [if_pos hmatch]
        by_cases hjm : j + 1 = m
        · rw [if_pos hjm]
          obtain ⟨hinv2, hpe, hv⟩ := scan_hit p t lps m i j hlps hinv hmatch hjm
          apply ih _ _ _ _ (by omega) hinv2 _ (by omega)
          rw [filter_range_hit p t m i hm hpm (by omega) hpe, List.foldl_append, ← hacc, hjm]
          rfl
        · rw [if_neg hjm]
          obtain ⟨hinv2, hno⟩ := scan_advance p t m i j hinv hmatch hjm
          apply ih _ _ _ _ (by omega) hinv2 _ (by omega)
          rw [filter_range_miss p t m i hm hpm hno]
          exact hacc
      · rw [if_neg hmatch]
        by_cases hj0 : j ≠ 0
        · rw [if_pos hj0]
          obtain ⟨hinv2, hv⟩ := scan_fallback p t lps m i j hlps hinv hmatch hj0
          exact ih _ _ _ _ hi hinv2 hacc (by omega)
        · rw [if_neg hj0]
          have hj : j = 0 := by omega
          subst hj
          obtain ⟨hinv2, hno⟩ := scan_skip p t m i hinv hmatch
          apply ih _ _ _ _ (by omega) hinv2 _ (by omega)
          rw [filter_range_miss p t m i hm hpm hno]
          exact hacc
    · rw [if_neg hin]
      have : i = t.length := by omega
      subst this
      exact hacc

/-- Source function `kmp_collect_line` performs `collectStep` for each occurrence of the line, ascending. -/
theorem kmp_collect_line_spec (p t : CStr) (lps : List Nat) (hp : 1 ≤ p.length)
    (hlps : ∀ k, k < p.length → IsLongestBorder p k (lps.getD k 0))
    (li so mr : Int) (results : List (Option SearchResult)) :
    kmp_collect_line t p lps p.length li results so mr =
      (occurrences p t).foldl (collectStep t li so mr) (0, results) := by
  unfold kmp_collect_line
  rw [kmp_collect_line_loop_spec p t lps p.length hp rfl hlps li so mr (0, results)
    (2 * t.length) 0 0 0 results (Nat.zero_le _) (scanInv_start p t p.length hp)
    (by
      have e : 0 + 1 - p.length = 0 := by omega
      rw [e]
      rfl)
    (by omega), filter_range_all p t hp]

/-- With room left in the array, the matches of one line fill the next free slots in order. -/
theorem collect_foldl (t : CStr) (li so mr : Int) :
    ∀ (occs : List Nat) (c : Nat) (d : List (Option SearchResult)) (r : Nat),
      occs.length ≤ r → so + (c : Int) = (d.length : Int) → mr = (d.length : Int) + (r : Int) →
      occs.foldl (collectStep t li so mr) ((c : Int), d ++ List.replicate r none) =
        (((c + occs.length : Nat) : Int),
          d ++ occs.map (fun s => some ⟨li, reportedColumn t s⟩) ++
            List.replicate (r - occs.length) none) := by
  intro occs
  induction occs with
  | nil =>
    intro c d r _ _ _
    simp
  | cons s rest ih =>
    intro c d r hr hso hmr
    obtain ⟨r2, rfl⟩ : ∃ r2, r = r2 + 1 := ⟨r - 1, by simp at hr; omega⟩
    have hstep : collectStep t li so mr ((c : Int), d ++ List.replicate (r2 + 1) none) s =
        (((c + 1 : Nat) : Int),
          (d ++ [some ⟨li, reportedColumn t s⟩]) ++ List.replicate r2 none) := by
      unfold collectStep
      simp only
      have hlt : so + (c : Int) < mr := by omega
      rw [if_pos hlt, hso, Int.toNat_ofNat, List.replicate_succ]
      simp
    rw [List.foldl_cons, hstep,
      ih (c + 1) (d ++ [some (SearchResult.mk li (reportedColumn t s))]) r2 (by simpa using hr)
        (by simp only [List.length_append, List.length_singleton]; push_cast; omega)
        (by simp only [List.length_append, List.length_singleton]; push_cast; omega)]
    simp only [List.length_cons, List.map_cons, List.append_assoc, List.singleton_append]
    have e1 : c + 1 + rest.length = c + (rest.length + 1) := by omega
    have e2 : r2 + 1 - (rest.length + 1) = r2 - rest.length := by omega
    rw [e1, e2]

theorem bufferOccurrencesUpTo_extends (p : CStr) (buf : TextBuffer) (i : Nat) :
    ∀ d, ∃ tail, bufferOccurrencesUpTo p buf (i + d) = bufferOccurrencesUpTo p buf i ++ tail := by
  intro d
  induction d with
  | zero => exact ⟨[], by simp⟩
  | succ d ih =>
    obtain ⟨tail, ht⟩ := ih
    refine ⟨tail ++ (occurrences p (buf.lines.getD (i + d) [])).map (fun s => (i + d, s)), ?_⟩
    have e : i + (d + 1) = (i + d) + 1 := by omega
    rw [e, bufferOccurrencesUpTo_succ, ht, List.append_assoc]

theorem map_resultOf_line (buf : TextBuffer) (i : Nat) (occs : List Nat) :
    (occs.map (fun s => (i, s))).map (resultOf buf) =
      occs.map (fun s => some (SearchResult.mk (i : Int)
        (reportedColumn (buf.lines.getD i []) s))) := by
  rw [List.map_map]
  rfl

/-- The loop of `find_all_occurrences` writes the occurrences of the lines still to visit
into the free slots, in order. -/
theorem find_all_occurrences_loop_spec (buf : TextBuffer) (p : CStr) (lps : List Nat)
    (hp : 1 ≤ p.length) (hlps : ∀ k, k < p.length → IsLongestBorder p k (lps.getD k 0)) :
    ∀ (fuel i : Nat) (idx : Int) (results : List (Option SearchResult)),
      i + fuel = buf.line_count.toNat →
      idx = ((bufferOccurrencesUpTo p buf i).length : Int) →
      results = (bufferOccurrencesUpTo p buf i).map (resultOf buf) ++
        List.replicate ((bufferOccurrences p buf).length - (bufferOccurrencesUpTo p buf i).length)
          none →
      find_all_occurrences_loop buf p lps p.length ((bufferOccurrences p buf).length : Int)
          fuel i idx results =
        (bufferOccurrences p buf).map (resultOf buf) := by
  intro fuel
  induction fuel with
  | zero =>
    intro i idx results hi _ hres
    unfold find_all_occurrences_loop
    have e : i = buf.line_count.toNat := by omega
    rw [hres]
    unfold bufferOccurrences
    rw [← e]
    simp
  | succ f ih =>
    intro i idx results hi hidx hres
    unfold find_all_occurrences_loop
    obtain ⟨tail, htail⟩ := bufferOccurrencesUpTo_extends p buf i (f + 1)
    have hall : bufferOccurrences p buf = bufferOccurrencesUpTo p buf i ++ tail := by
      unfold bufferOccurrences
      rw [← hi]
      exact htail
    obtain ⟨tail2, htail2⟩ := bufferOccurrencesUpTo_extends p buf (i + 1) f
    have hall2 : bufferOccurrences p buf = bufferOccurrencesUpTo p buf (i + 1) ++ tail2 := by
      unfold bufferOccurrences
      rw [← hi]
      have e : i + (f + 1) = i + 1 + f := by omega
      rw [e]
      exact htail2
    by_cases hc : (i : Int) < buf.line_count ∧ idx < ((bufferOccurrences p buf).length : Int)
    · rw [if_pos hc]
      have hsucc := bufferOccurrencesUpTo_succ p buf i
      have hlen2 := congrArg List.length hall2
      rw [hsucc] at hlen2
      simp only [List.length_append, List.length_map] at hlen2
      have hcol := kmp_collect_line_spec p (buf.lines.getD i []) lps hp hlps (i : Int) idx
        ((bufferOccurrences p buf).length : Int) results
      rw [hres] at hcol
      have hfold := collect_foldl (buf.lines.getD i []) (i : Int) idx
        ((bufferOccurrences p buf).length : Int) (occurrences p (buf.lines.getD i [])) 0
        ((bufferOccurrencesUpTo p buf i).map (resultOf buf))
        ((bufferOccurrences p buf).length - (bufferOccurrencesUpTo p buf i).length)
        (by omega) (by simp only [List.length_map]; push_cast; omega)
        (by simp only [List.length_map]; omega)
      rw [Nat.cast_zero] at hfold
      rw [hfold] at hcol
      rw [hres, hcol]
      apply ih (i + 1) _ _ (by omega)
      · simp only [hsucc, List.length_append, List.length_map]
        push_cast
        omega
      · simp only [hsucc, List.map_append, map_resultOf_line, List.length_append,
          List.length_map]
        congr 2
        omega
    · rw [if_neg hc]
      have hlt : (i : Int) < buf.line_count := by omega
      have hlen := congrArg List.length hall
      simp only [List.length_append] at hlen
      have htl : tail.length = 0 := by
        have : ¬ (idx < ((bufferOccurrences p buf).length : Int)) := fun h => hc ⟨hlt, h⟩
        omega
      have htnil : tail = [] := List.length_eq_zero.mp htl
      rw [hres, hall, htnil]
      simp

/-- What `find_all_occurrences` returns for a non-empty pattern. -/
theorem find_all_occurrences_eq (buf : TextBuffer) (p : CStr) (c : Int) (hne : p ≠ [])
    (hb : ∀ b ∈ p, b ≠ 0) :
    find_all_occurrences buf (some p) c =
      if find_substring_count buf (some p) = 0 then (none, 0)
      else (some ((bufferOccurrences p buf).map (resultOf buf)),
        find_substring_count buf (some p)) := by
  have hp : 1 ≤ p.length := by
    cases p with
    | nil => exact absurd rfl hne
    | cons b tl => simp
  have hl := build_lps_spec p p.length (List.replicate p.length 0) hp (by simp)
  have hcount := find_substring_count_eq buf p hne hb
  unfold find_all_occurrences
  simp only
  by_cases h0 : find_substring_count buf (some p) = 0
  · rw [if_pos h0, if_pos h0, h0]
  · rw [if_neg h0, if_neg h0]
    congr 2
    rw [hcount]
    exact find_all_occurrences_loop_spec buf p _ hp hl.2 buf.line_count.toNat 0 0 _ (by omega)
      (by simp [bufferOccurrencesUpTo]) (by simp [bufferOccurrencesUpTo])

theorem occurrences_sorted (p t : CStr) : (occurrences p t).Pairwise (· < ·) := by
  unfold occurrences
  exact List.Pairwise.filter _ (List.pairwise_lt_range _)

theorem mem_bufferOccurrencesUpTo (p : CStr) (buf : TextBuffer) (n : Nat) (o : Nat × Nat) :
    o ∈ bufferOccurrencesUpTo p buf n ↔
      (o.1 < n ∧ o.2 < (buf.lines.getD o.1 []).length ∧
        occursAt p (buf.lines.getD o.1 []) o.2 = true) := by
  induction n with
  | zero => simp [bufferOccurrencesUpTo]
  | succ n ih =>
    rw [bufferOccurrencesUpTo_succ, List.mem_append, ih]
    obtain ⟨l, s⟩ := o
    simp only [List.mem_map, Prod.mk.injEq, occurrences, List.mem_filter, List.mem_range]
    constructor
    · rintro (h | ⟨a, ⟨ha1, ha2⟩, rfl, rfl⟩)
      · exact ⟨by omega, h.2⟩
      · exact ⟨by omega, ha1, ha2⟩
    · rintro ⟨h1, h2, h3⟩
      by_cases hl : l < n
      · exact Or.inl ⟨hl, h2, h3⟩
      · have e : l = n := by omega
        subst e
        exact Or.inr ⟨s, ⟨h2, h3⟩, rfl, rfl⟩

theorem bufferOccurrencesUpTo_sorted (p : CStr) (buf : TextBuffer) (n : Nat) :
    (bufferOccurrencesUpTo p buf n).Pairwise
      (fun a b => a.1 < b.1 ∨ (a.1 = b.1 ∧ a.2 < b.2)) := by
  induction n with
  | zero => simp [bufferOccurrencesUpTo]
  | succ n ih =>
    rw [bufferOccurrencesUpTo_succ, List.pairwise_append]
    refine ⟨ih, ?_, ?_⟩
    · rw [List.pairwise_map]
      exact (occurrences_sorted p _).imp (fun h => Or.inr ⟨rfl, h⟩)
    · intro a ha b hb
      have h1 := ((mem_bufferOccurrencesUpTo p buf n a).mp ha).1
      simp only [List.mem_map] at hb
      obtain ⟨s, _, rfl⟩ := hb
      exact Or.inl h1

/-- C5: for a non-empty pattern, `find_all_occurrences` leaves `find_substring_count` in
`*count` and returns that many results (no array when there is none): one for each
`(line, byte offset)` at which the pattern occurs, by ascending line index and, within a line,
ascending match start; every slot of the array is written. -/
theorem C5_find_all_occurrences (buf : TextBuffer) (p : CStr) (c : Int) (hne : p ≠ [])
    (hb : ∀ b ∈ p, b ≠ 0) :
    (find_all_occurrences buf (some p) c).2 = find_substring_count buf (some p) ∧
    (find_substring_count buf (some p) = 0 → (find_all_occurrences buf (some p) c).1 = none) ∧
    (find_substring_count buf (some p) ≠ 0 →
      (find_all_occurrences buf (some p) c).1 =
        some ((bufferOccurrences p buf).map (resultOf buf))) ∧
    (∀ arr, (find_all_occurrences buf (some p) c).1 = some arr →
      (arr.length : Int) = find_substring_count buf (some p) ∧ ∀ r ∈ arr, r ≠ none) ∧
    (∀ o : Nat × Nat, o ∈ bufferOccurrences p buf ↔
      (o.1 < buf.line_count.toNat ∧ o.2 < (buf.lines.getD o.1 []).length ∧
        occursAt p (buf.lines.getD o.1 []) o.2 = true)) ∧
    (bufferOccurrences p buf).Pairwise (fun a b => a.1 < b.1 ∨ (a.1 = b.1 ∧ a.2 < b.2)) := by
  have heq := find_all_occurrences_eq buf p c hne hb
  have hcount := find_substring_count_eq buf p hne hb
  refine ⟨?_, ?_, ?_, ?_, fun o => mem_bufferOccurrencesUpTo p buf _ o,
    bufferOccurrencesUpTo_sorted p buf _⟩
  · rw [heq]
    split
    · rename_i h0; rw [h0]
    · rfl
  · intro h0
    rw [heq, if_pos h0]
  · intro h0
    rw [heq, if_neg h0]
  · intro arr harr
    by_cases h0 : find_substring_count buf (some p) = 0
    · rw [heq, if_pos h0] at harr
      exact absurd harr (by simp)
    · rw [heq, if_neg h0] at harr
      simp only [Option.some.injEq] at harr
      subst harr
      refine ⟨by rw [List.length_map, hcount], fun r hr => ?_⟩
      simp only [List.mem_map] at hr
      obtain ⟨o, _, rfl⟩ := hr
      simp [resultOf]

theorem C5_find_all_occurrences_witness :
    ([97, 97] : CStr) ≠ [] ∧ (∀ b ∈ ([97, 97] : CStr), b ≠ 0) ∧
    (find_all_occurrences (bufferOfLines [[97, 97, 97], [98, 97, 97]]) (some [97, 97]) 7).2 =
      find_substring_count (bufferOfLines [[97, 97, 97], [98, 97, 97]]) (some [97, 97]) :=
  ⟨by decide, by decide,
    (C5_find_all_occurrences (bufferOfLines [[97, 97, 97], [98, 97, 97]]) [97, 97] 7
      (by decide) (by decide)).1⟩

/-- C6 fails as stated: in the line `C3 A9` the pattern `A9` matches at byte 1, inside the
two-byte codepoint; the result stored is column 1, and `utf8_byte_offset line 1` is 2, not
the byte offset 1 of the match. -/
theorem C6_column_counterexample :
    find_all_occurrences (bufferOfLines [[195, 169]]) (some [169]) 0 =
      (some [some ⟨0, 1⟩], 1) ∧
    bufferOccurrences [169] (bufferOfLines [[195, 169]]) = [(0, 1)] ∧
    utf8_byte_offset ((bufferOfLines [[195, 169]]).lines.getD 0 []) 1 ≠ 1 := by
  decide

/-- C6 (amended): every result of `find_all_occurrences` is `(l, c)` for an occurrence
`(l, s)`; when the match starts on a codepoint boundary (`utf8_char_index_from_byte line s` is
not -1) the column is its character index, `utf8_byte_offset line c = s`; when it starts
inside a multi-byte sequence the column is the byte offset `s` itself. -/
theorem C6_column_on_boundary (buf : TextBuffer) (p : CStr) (c : Int) (hne : p ≠ [])
    (hb : ∀ b ∈ p, b ≠ 0) :
    (find_all_occurrences buf (some p) c).1.getD [] =
      (bufferOccurrences p buf).map
        (fun o => some ⟨(o.1 : Int), reportedColumn (buf.lines.getD o.1 []) o.2⟩) ∧
    ∀ o ∈ bufferOccurrences p buf,
      (utf8_char_index_from_byte (buf.lines.getD o.1 []) (o.2 : Int) ≠ -1 →
        utf8_byte_offset (buf.lines.getD o.1 []) (reportedColumn (buf.lines.getD o.1 []) o.2)
          = (o.2 : Int)) ∧
      (utf8_char_index_from_byte (buf.lines.getD o.1 []) (o.2 : Int) = -1 →
        reportedColumn (buf.lines.getD o.1 []) o.2 = (o.2 : Int)) := by
  constructor
  · rw [find_all_occurrences_eq buf p c hne hb]
    by_cases h0 : find_substring_count buf (some p) = 0
    · rw [if_pos h0]
      rw [find_substring_count_eq buf p hne hb] at h0
      have : bufferOccurrences p buf = [] := List.length_eq_zero.mp (by exact_mod_cast h0)
      rw [this]
      rfl
    · rw [if_neg h0]
      rfl
  · intro o _
    constructor
    · intro hne1
      have hge : ¬ (utf8_char_index_from_byte (buf.lines.getD o.1 []) (o.2 : Int) < 0) := by
        unfold utf8_char_index_from_byte at hne1 ⊢
        split_ifs at hne1 ⊢ <;> omega
      unfold reportedColumn
      rw [if_neg hge]
      exact utf8_index_roundtrip _ _ hne1
    · intro heq
      unfold reportedColumn
      rw [heq, if_pos (by decide)]

theorem C6_column_on_boundary_witness :
    ([169] : CStr) ≠ [] ∧ (∀ b ∈ ([169] : CStr), b ≠ 0) ∧
    (find_all_occurrences (bufferOfLines [[195, 169]]) (some [169]) 0).1.getD [] =
      (bufferOccurrences [169] (bufferOfLines [[195, 169]])).map
        (fun o => some ⟨(o.1 : Int),
          reportedColumn ((bufferOfLines [[195, 169]]).lines.getD o.1 []) o.2⟩) :=
  ⟨by decide, by decide,
    (C6_column_on_boundary (bufferOfLines [[195, 169]]) [169] 0 (by decide) (by decide)).1⟩

/-! ## Codepoint decoder -/

/-- A byte `80..BF` or `F8..FF` passes none of the lead-byte tests. -/
theorem invalid_lead_tests :
    ∀ c : Nat, c < 256 → ((0x80 ≤ c ∧ c ≤ 0xBF) ∨ (0xF8 ≤ c ∧ c ≤ 0xFF)) →
      ¬ (c < 0x80) ∧ ¬ (c &&& 0xE0 = 0xC0) ∧ ¬ (c &&& 0xF0 = 0xE0) ∧ ¬ (c &&& 0xF8 = 0xF0) := by
  intro c _ h
  rcases h with ⟨h1, h2⟩ | ⟨h1, h2⟩ <;> interval_cases c <;> decide

/-- C20: for every byte sequence `utf8_next_codepoint` consumes between 1 and 4 bytes, as many
as `utf8_char_length` of the first byte says; when the first byte is `80..BF` or `F8..FF` it
consumes exactly 1 byte and returns that byte as the codepoint. -/
theorem C20_next_codepoint_advance (p : CStr) :
    1 ≤ (utf8_next_codepoint p).2 ∧ (utf8_next_codepoint p).2 ≤ 4 ∧
    (utf8_next_codepoint p).2 = (utf8_char_length (p.getD 0 0) : Int) ∧
    (((0x80 ≤ p.getD 0 0 ∧ p.getD 0 0 ≤ 0xBF) ∨ (0xF8 ≤ p.getD 0 0 ∧ p.getD 0 0 ≤ 0xFF)) →
      utf8_next_codepoint p = (((p.getD 0 0 : Nat) : Int), (1 : Int))) := by
  refine ⟨?_, ?_, ?_, ?_⟩
  · unfold utf8_next_codepoint
    split_ifs <;> simp
  · unfold utf8_next_codepoint
    split_ifs <;> simp
  · unfold utf8_next_codepoint utf8_char_length
    split_ifs <;> rfl
  · intro h
    obtain ⟨h1, h2, h3, h4⟩ := invalid_lead_tests (p.getD 0 0) (by omega) h
    unfold utf8_next_codepoint
    rw [if_neg h1, if_neg h2, if_neg h3, if_neg h4]

/-! ## replace_char -/

/-- With `0 ≤ col < line_chars` the `int` sum `col + 1` never exceeds `line_chars`, wrapped or
not, so `replace_at_position` with `len = 1` does not clamp. -/
theorem wrap32_succ_not_gt (col n : Int) (h0 : 0 ≤ col) (h1 : col < n) :
    ¬ (wrap32 (col + 1) > n) := by
  unfold wrap32
  omega

/-- The code of `replace_char` is the code of `replace_at_position` with `len = 1`. -/
theorem replace_char_eq (buf : TextBuffer) (line col : Int) (newText : Option CStr) :
    replace_char buf line col newText = replace_at_position buf line col 1 newText := by
  cases newText with
  | none => rfl
  | some t =>
    by_cases a1 : line < 0 ∨ line ≥ buf.line_count
    · simp only [replace_char, replace_at_position, if_pos a1]
    · by_cases a3 : col < 0 ∨ col ≥ utf8_strlen_chars (buf.lines.getD line.toNat [])
      · have a2 : ¬ ((1 : Int) < 0) := by decide
        simp only [replace_char, replace_at_position, if_neg a1, if_neg a2, if_pos a3]
      · have a2 : ¬ ((1 : Int) < 0) := by decide
        have a4 := wrap32_succ_not_gt col (utf8_strlen_chars (buf.lines.getD line.toNat []))
          (by omega) (by omega)
        simp only [replace_char, replace_at_position, if_neg a1, if_neg a2, if_neg a3, if_neg a4]

/-- C11: for every buffer, line, col and newText, `replace_char` returns the same result code
and leaves the same buffer as `replace_at_position` with `len = 1`; on a well-formed line
with codepoints `cs` a successful call replaces exactly the codepoint at `col` by `newText`,
however many bytes that has. -/
theorem C11_replace_char_is_replace_one (buf : TextBuffer) (line col : Int) (newText : CStr)
    (cs : List CStr) :
    replace_char buf line col (some newText) =
      replace_at_position buf line col 1 (some newText) ∧
    (buf.WF → InAddressSpace newText → 0 ≤ line → line < buf.line_count →
      IsUtf8Decomposition cs (buf.lines.getD line.toNat []) →
      0 ≤ col → col < (cs.length : Int) →
      (replace_char buf line col (some newText)).1 = 0 →
      get_line (replace_char buf line col (some newText)).2 line =
        some ((cs.take col.toNat).flatten ++ newText ++ (cs.drop (col.toNat + 1)).flatten)) := by
  refine ⟨replace_char_eq buf line col (some newText), ?_⟩
  intro hwf hnew hl0 hl1 hdec hc0 hc1 hok
  obtain ⟨c, rfl⟩ : ∃ c : Nat, col = (c : Int) := ⟨col.toNat, by omega⟩
  have hc : c < cs.length := by exact_mod_cast hc1
  rw [replace_char_eq] at hok ⊢
  have hone : min (1 : Int).toNat (cs.length - c) = 1 := by
    have : (1 : Int).toNat = 1 := rfl
    rw [this]
    omega
  rw [replace_at_position_decomp buf line c 1 (newText) cs hwf hl0 hl1 hdec hc (by decide)
    (by decide) hnew, hone] at hok ⊢
  simp only [Int.toNat_ofNat]
  split at hok
  · rename_i hfit
    rw [if_pos hfit]
    exact get_line_set_same buf line _ hwf hl0 hl1
  · have hne : ¬ ((-1 : Int) = 0) := by decide
    exact absurd hok hne

theorem C11_replace_char_is_replace_one_witness :
    replace_char (bufferOfLines [[228, 184, 173, 97]]) 0 0 (some [120, 121]) =
      replace_at_position (bufferOfLines [[228, 184, 173, 97]]) 0 0 1 (some [120, 121]) :=
  (C11_replace_char_is_replace_one (bufferOfLines [[228, 184, 173, 97]]) 0 0 [120, 121]
    [[228, 184, 173], [97]]).1

/-! ## delete_at_position -/

/-- Reading a memory that holds the non-zero bytes of `l` from index `k` on, then a zero. -/
theorem readCStr_eq (mem : Nat → Nat) :
    ∀ (l : CStr) (fuel k : Nat), l.length < fuel → (∀ b ∈ l, b ≠ 0) →
      (∀ x, x < l.length → mem (k + x) = l.getD x 0) → mem (k + l.length) = 0 →
      readCStr mem fuel k = l := by
  intro l
  induction l with
  | nil =>
    intro fuel k hf _ _ hz
    cases fuel with
    | zero => rfl
    | succ f =>
      unfold readCStr
      rw [if_pos (by simpa using hz)]
  | cons b tl ih =>
    intro fuel k hf hnz hmem hz
    cases fuel with
    | zero => simp at hf
    | succ f =>
      unfold readCStr
      have h0 : mem k = b := by
        have := hmem 0 (by simp)
        simpa using this
      rw [h0, if_neg (hnz b (List.mem_cons_self _ _))]
      congr 1
      apply ih f (k + 1) (by simpa using hf) (fun b' hb' => hnz b' (List.mem_cons_of_mem _ hb'))
      · intro x hx
        have := hmem (x + 1) (by simpa using hx)
        have e : k + (x + 1) = k + 1 + x := by omega
        rw [e] at this
        rw [this]
        simp
      · have e : k + (b :: tl).length = k + 1 + tl.length := by simp; omega
        rw [← e]
        exact hz

/-- The compacting `memmove` of `delete_at_position` removes the bytes `[dst, src)`. -/
theorem memmove_line_compact (cur : CStr) (dst src : Nat) (hnz : ∀ b ∈ cur, b ≠ 0)
    (hlen : cur.length ≤ MAX_LINE_LENGTH) (h1 : dst ≤ src) (h2 : src ≤ cur.length) :
    memmove_line cur dst src (cur.length - src + 1) = cur.take dst ++ cur.drop src := by
  unfold memmove_line
  have hl : (cur.take dst ++ cur.drop src).length = dst + (cur.length - src) := by
    simp only [List.length_append, List.length_take, List.length_drop]
    omega
  apply readCStr_eq
  · rw [hl]; omega
  · intro b hb
    rcases List.mem_append.mp hb with h | h
    · exact hnz b (List.mem_of_mem_take h)
    · exact hnz b (List.mem_of_mem_drop h)
  · intro x hx
    rw [hl] at hx
    simp only [Nat.zero_add]
    have hlt : (cur.take dst).length = dst := by simp; omega
    rw [getD_append_slot, hlt]
    by_cases hx1 : x < dst
    · rw [if_neg (by omega), if_pos hx1, getD_take_slot, if_pos hx1]
    · rw [if_pos (by omega), if_neg hx1, getD_drop_slot]
  · rw [hl]
    simp only [Nat.zero_add]
    rw [if_pos (by omega)]
    apply List.getD_eq_default
    omega

/-- Main case of `delete_at_position` on a well-formed line. -/
theorem delete_at_position_decomp (buf : TextBuffer) (line : Int) (c : Nat) (len : Int)
    (cs : List CStr) (hwf : buf.WF) (hl0 : 0 ≤ line) (hl1 : line < buf.line_count)
    (hdec : IsUtf8Decomposition cs (buf.lines.getD line.toNat []))
    (hc : c < cs.length) (h0 : 0 ≤ len) (h1 : len ≤ INT_MAX) :
    delete_at_position buf line (c : Int) len =
      (0, { buf with
              lines := buf.lines.set line.toNat
                ((cs.take c).flatten ++
                  (cs.drop (c + min len.toNat (cs.length - c))).flatten),
              modified := 1 }) := by
  have hcurlen : (buf.lines.getD line.toNat []).length ≤ MAX_LINE_LENGTH :=
    getD_length_le (WF_lengths hwf) _
  have hnz : ∀ b ∈ buf.lines.getD line.toNat [], b ≠ 0 := by
    intro b hb
    by_cases hk : line.toNat < buf.lines.length
    · rw [List.getD_eq_getElem _ _ hk] at hb
      have := (hwf.2.2.2 _ (List.getElem_mem hk)).2 b hb
      omega
    · rw [List.getD_eq_default _ _ (Nat.le_of_not_lt hk)] at hb
      exact absurd hb (List.not_mem_nil b)
  have hbe := replace_byte_end _ cs hdec hcurlen c hc len h0 h1
  have hbs := utf8_byte_offset_decomp cs _ hdec c (le_of_lt hc)
  have hlc := utf8_strlen_chars_decomp cs _ hdec
  have a1 : ¬ (line < 0 ∨ line ≥ buf.line_count) := by omega
  have a2 : ¬ (len < 0) := by omega
  have a3 : ¬ ((c : Int) < 0 ∨ (c : Int) ≥ utf8_strlen_chars (buf.lines.getD line.toNat [])) := by
    rw [hlc]; omega
  have a4 : ¬ (((cs.take c).flatten.length : Int) < 0) := by omega
  obtain ⟨h3, h3l⟩ := flatten_three cs c (min len.toNat (cs.length - c))
  rw [← hdec.1] at h3
  have hlen3 := congrArg List.length h3
  simp only [List.length_append] at hlen3
  simp only [delete_at_position, if_neg a1, if_neg a2, if_neg a3, hbe, hbs, if_neg a4,
    Int.toNat_ofNat]
  have hcount : ((((buf.lines.getD line.toNat []).length : Int)
      - (((cs.take (c + min len.toNat (cs.length - c))).flatten.length : Nat) : Int) + 1)
      % ((SIZE_MOD : Nat) : Int)).toNat
      = (buf.lines.getD line.toNat []).length
          - (cs.take (c + min len.toNat (cs.length - c))).flatten.length + 1 := by
    unfold SIZE_MOD
    unfold MAX_LINE_LENGTH at hcurlen
    omega
  rw [hcount, memmove_line_compact _ _ _ hnz hcurlen (by omega) (by omega)]
  have e1 : (buf.lines.getD line.toNat []).take (cs.take c).flatten.length
      = (cs.take c).flatten := by
    conv_lhs => rw [h3, List.append_assoc]
    rw [List.take_left']
    rfl
  have e2 : (buf.lines.getD line.toNat []).drop
      (cs.take (c + min len.toNat (cs.length - c))).flatten.length
      = (cs.drop (c + min len.toNat (cs.length - c))).flatten := by
    conv_lhs => rw [h3]
    rw [List.drop_left']
    simp only [List.length_append]
    omega
  rw [e1, e2]

/-- C12: on a buffer whose lines are well-formed UTF-8, for every line, col and len,
`delete_at_position` returns the same result code and leaves the same buffer as
`replace_at_position` with an empty new text; on success the line with codepoints `cs` loses
exactly the `min len (charLength - col)` characters from `col` on and keeps every other byte
in order. -/
theorem C12_delete_at_position_is_replace_empty (buf : TextBuffer) (line col len : Int)
    (hwf : buf.WF) (hint : len ≤ INT_MAX)
    (hutf : ∀ i : Nat, (i : Int) < buf.line_count → WellFormedUtf8 (buf.lines.getD i [])) :
    delete_at_position buf line col len = replace_at_position buf line col len (some []) ∧
    ∀ cs : List CStr, 0 ≤ line → line < buf.line_count →
      IsUtf8Decomposition cs (buf.lines.getD line.toNat []) →
      (delete_at_position buf line col len).1 = 0 →
      get_line (delete_at_position buf line col len).2 line =
        some ((cs.take col.toNat).flatten ++
          (cs.drop (col.toNat + min len.toNat (cs.length - col.toNat))).flatten) := by
  have hguard : ∀ cs : List CStr, 0 ≤ line → line < buf.line_count →
      IsUtf8Decomposition cs (buf.lines.getD line.toNat []) →
      ¬ (len < 0) → ¬ (col < 0 ∨ col ≥ utf8_strlen_chars (buf.lines.getD line.toNat [])) →
      delete_at_position buf line col len =
        (0, { buf with
                lines := buf.lines.set line.toNat
                  ((cs.take col.toNat).flatten ++
                    (cs.drop (col.toNat + min len.toNat (cs.length - col.toNat))).flatten),
                modified := 1 }) ∧
      replace_at_position buf line col len (some []) =
        (0, { buf with
                lines := buf.lines.set line.toNat
                  ((cs.take col.toNat).flatten ++
                    (cs.drop (col.toNat + min len.toNat (cs.length - col.toNat))).flatten),
                modified := 1 }) := by
    intro cs hl0 hl1 hdec a2 a3
    obtain ⟨c, rfl⟩ : ∃ c : Nat, col = (c : Int) := ⟨col.toNat, by omega⟩
    have hc : c < cs.length := by
      rw [utf8_strlen_chars_decomp cs _ hdec] at a3
      omega
    have hcurlen : (buf.lines.getD line.toNat []).length ≤ MAX_LINE_LENGTH :=
      getD_length_le (WF_lengths hwf) _
    refine ⟨?_, ?_⟩
    · rw [delete_at_position_decomp buf line c len cs hwf hl0 hl1 hdec hc (by omega) hint]
      simp only [Int.toNat_ofNat]
    · rw [replace_at_position_decomp buf line c len [] cs hwf hl0 hl1 hdec hc (by omega) hint
        (by decide), if_pos (by simp only [List.length_nil]; omega)]
      simp only [Int.toNat_ofNat, List.append_nil]
  constructor
  · by_cases a1 : line < 0 ∨ line ≥ buf.line_count
    · simp only [delete_at_position, replace_at_position, if_pos a1]
    · by_cases a2 : len < 0
      · simp only [delete_at_position, replace_at_position, if_neg a1, if_pos a2]
      · by_cases a3 : col < 0 ∨ col ≥ utf8_strlen_chars (buf.lines.getD line.toNat [])
        · simp only [delete_at_position, replace_at_position, if_neg a1, if_neg a2, if_pos a3]
        · obtain ⟨cs, hdec⟩ := hutf line.toNat (by omega)
          obtain ⟨e1, e2⟩ := hguard cs (by omega) (by omega) hdec a2 a3
          rw [e1, e2]
  · intro cs hl0 hl1 hdec hok
    have a1 : ¬ (line < 0 ∨ line ≥ buf.line_count) := by omega
    have hne : ¬ ((-1 : Int) = 0) := by decide
    by_cases a2 : len < 0
    · have e : delete_at_position buf line col len = (-1, buf) := by
        simp only [delete_at_position, if_neg a1, if_pos a2]
      rw [e] at hok
      exact absurd hok hne
    · by_cases a3 : col < 0 ∨ col ≥ utf8_strlen_chars (buf.lines.getD line.toNat [])
      · have e : delete_at_position buf line col len = (-1, buf) := by
          simp only [delete_at_position, if_neg a1, if_neg a2, if_pos a3]
        rw [e] at hok
        exact absurd hok hne
      · rw [(hguard cs hl0 hl1 hdec a2 a3).1]
        exact get_line_set_same buf line _ hwf hl0 hl1

theorem sample_utf8_wellFormed :
    ∀ i : Nat, (i : Int) < (bufferOfLines [[228, 184, 173, 97]]).line_count →
      WellFormedUtf8 ((bufferOfLines [[228, 184, 173, 97]]).lines.getD i []) := by
  intro i hi
  have hi0 : i = 0 := by
    simp only [bufferOfLines, List.length_singleton, Nat.cast_one] at hi
    omega
  subst hi0
  exact ⟨[[228, 184, 173], [97]], by decide, by decide⟩

theorem C12_delete_at_position_is_replace_empty_witness :
    (bufferOfLines [[228, 184, 173, 97]]).WF ∧ (1 : Int) ≤ INT_MAX ∧
    delete_at_position (bufferOfLines [[228, 184, 173, 97]]) 0 0 1 =
      replace_at_position (bufferOfLines [[228, 184, 173, 97]]) 0 0 1 (some []) :=
  ⟨sample_utf8_WF, by decide,
    (C12_delete_at_position_is_replace_empty (bufferOfLines [[228, 184, 173, 97]]) 0 0 1
      sample_utf8_WF (by decide) sample_utf8_wellFormed).1⟩

/-! ## insert_at_position -/

theorem utf8_strlen_chars_nonneg (s : CStr) : 0 ≤ utf8_strlen_chars s := by
  unfold utf8_strlen_chars
  exact Int.ofNat_nonneg _

theorem lineStart_mono (buf : TextBuffer) (i : Nat) :
    ∀ d, lineStart buf i ≤ lineStart buf (i + d) := by
  intro d
  induction d with
  | zero => exact le_refl _
  | succ d ih =>
    have e : i + (d + 1) = (i + d) + 1 := by omega
    rw [e, lineStart]
    have := utf8_strlen_chars_nonneg (buf.lines.getD (i + d) [])
    omega

theorem lineStart_le (buf : TextBuffer) (i j : Nat) (h : i ≤ j) :
    lineStart buf i ≤ lineStart buf j := by
  have := lineStart_mono buf i (j - i)
  have e : i + (j - i) = j := by omega
  rwa [e] at this

theorem lineStart_eq_sum (buf : TextBuffer) :
    ∀ n, lineStart buf n =
      ((List.range n).map (fun k => utf8_strlen_chars (buf.lines.getD k []))).sum + (n : Int) := by
  intro n
  induction n with
  | zero => simp [lineStart]
  | succ n ih =>
    rw [lineStart, ih, List.range_succ, List.map_append, List.sum_append]
    simp only [List.map_cons, List.map_nil, List.sum_cons, List.sum_nil]
    push_cast
    omega

theorem totalPositions_eq (buf : TextBuffer) (h : 0 ≤ buf.line_count) :
    totalPositions buf = lineStart buf buf.line_count.toNat - 1 := by
  unfold totalPositions
  rw [lineStart_eq_sum]
  have : ((buf.line_count.toNat : Nat) : Int) = buf.line_count := Int.toNat_of_nonneg h
  omega

/-- The loop of `insert_at_position` returns at the line that holds `pos`. -/
theorem insert_at_position_loop_finds (buf : TextBuffer) (pos : Int) (substr : Option CStr)
    (j : Nat) (c : Int) (hj : (j : Int) < buf.line_count) (hc0 : 0 ≤ c)
    (hc1 : c ≤ utf8_strlen_chars (buf.lines.getD j []))
    (hpos : pos = lineStart buf j + c) :
    ∀ (fuel i : Nat), i + fuel = buf.line_count.toNat → i ≤ j →
      (insert_at_position_loop buf pos substr fuel i (lineStart buf i)).1 =
        some (insert_substring buf (j : Int) c substr) := by
  intro fuel
  induction fuel with
  | zero =>
    intro i hi hij
    omega
  | succ f ih =>
    intro i hi hij
    unfold insert_at_position_loop
    have hlt : (i : Int) < buf.line_count := by omega
    rw [if_pos hlt]
    by_cases hhit : pos ≤ lineStart buf i + utf8_strlen_chars (buf.lines.getD i [])
    · rw [if_pos hhit]
      have hji : j = i := by
        by_contra hne
        have h1 := lineStart_le buf (i + 1) j (by omega)
        rw [lineStart] at h1
        omega
      subst hji
      have e : pos - lineStart buf j = c := by omega
      rw [e]
    · rw [if_neg hhit]
      have hji : i < j := by
        by_contra hne
        have e : i = j := by omega
        subst e
        omega
      have hnl : (i : Int) ≠ buf.line_count - 1 := by omega
      rw [if_pos hnl, if_neg (by omega)]
      have := ih (i + 1) (by omega) (by omega)
      rw [lineStart] at this
      exact this

/-- Every position in `[0, T]` lies in exactly one line. -/
theorem position_exists (buf : TextBuffer) (pos : Int) (h0 : 0 ≤ pos) :
    ∀ n : Nat, pos ≤ lineStart buf n - 1 →
      ∃ (j : Nat) (c : Int), j < n ∧ 0 ≤ c ∧ c ≤ utf8_strlen_chars (buf.lines.getD j []) ∧
        pos = lineStart buf j + c := by
  intro n
  induction n with
  | zero =>
    intro h
    simp only [lineStart] at h
    omega
  | succ n ih =>
    intro h
    rw [lineStart] at h
    by_cases hge : lineStart buf n ≤ pos
    · exact ⟨n, pos - lineStart buf n, by omega, by omega, by omega, by omega⟩
    · obtain ⟨j, c, hj, hc⟩ := ih (by omega)
      exact ⟨j, c, by omega, hc⟩

theorem position_unique (buf : TextBuffer) (j j2 : Nat) (c c2 : Int)
    (hc0 : 0 ≤ c) (hc1 : c ≤ utf8_strlen_chars (buf.lines.getD j []))
    (hd0 : 0 ≤ c2) (hd1 : c2 ≤ utf8_strlen_chars (buf.lines.getD j2 []))
    (h : lineStart buf j + c = lineStart buf j2 + c2) : j = j2 ∧ c = c2 := by
  have hj : j = j2 := by
    by_contra hne
    rcases Nat.lt_or_gt_of_ne hne with hlt | hgt
    · have h1 := lineStart_le buf (j + 1) j2 (by omega)
      rw [lineStart] at h1
      omega
    · have h1 := lineStart_le buf (j2 + 1) j (by omega)
      rw [lineStart] at h1
      omega
  subst hj
  exact ⟨rfl, by omega⟩

theorem sample_two_lines_count : (0 : Int) < (bufferOfLines [[97], [98]]).line_count := by
  decide

/-- Past the last position the loop of `insert_at_position` reaches no `return` and ends with
`cumulative = T`. -/
theorem insert_at_position_loop_misses (buf : TextBuffer) (pos : Int) (substr : Option CStr)
    (hpos : pos > lineStart buf buf.line_count.toNat - 1) :
    ∀ (fuel i : Nat), i + fuel = buf.line_count.toNat → i < buf.line_count.toNat →
      insert_at_position_loop buf pos substr fuel i (lineStart buf i) =
        (none, lineStart buf buf.line_count.toNat - 1) := by
  intro fuel
  induction fuel with
  | zero =>
    intro i hi hlt
    omega
  | succ f ih =>
    intro i hi hlt
    unfold insert_at_position_loop
    have hlt2 : (i : Int) < buf.line_count := by omega
    have hmono := lineStart_le buf (i + 1) buf.line_count.toNat (by omega)
    rw [lineStart] at hmono
    rw [if_pos hlt2, if_neg (by omega)]
    by_cases hlast : (i : Int) ≠ buf.line_count - 1
    · rw [if_pos hlast, if_neg (by omega)]
      have := ih (i + 1) (by omega) (by omega)
      rw [lineStart] at this
      exact this
    · rw [if_neg hlast]
      have hf : f = 0 := by omega
      subst hf
      have e : buf.line_count.toNat = i + 1 := by omega
      rw [e, lineStart]
      simp only [insert_at_position_loop]
      congr 1
      omega

/-- C14 fails as stated on the empty buffer: there `insert_at_position` at position 5, which
is beyond the total length, returns 0 and stores the text as the first line. -/
theorem C14_empty_buffer_counterexample :
    (bufferOfLines []).line_count = 0 ∧ (5 : Int) > totalPositions (bufferOfLines []) ∧
    (insert_at_position (bufferOfLines []) 5 (some [120])).1 = 0 ∧
    (insert_at_position (bufferOfLines []) 5 (some [120])).2.line_count = 1 ∧
    get_line (insert_at_position (bufferOfLines []) 5 (some [120])).2 0 = some [120] := by
  decide

/-! ## replace_all: the C library search -/

/-- What `strstr` returns is an occurrence, and the leftmost one. -/
theorem strstr_some (needle : CStr) :
    ∀ (hay : CStr) (k : Nat), strstr hay needle = some k →
      k + needle.length ≤ hay.length ∧ (hay.drop k).take needle.length = needle ∧
      ∀ j, j < k → (hay.drop j).take needle.length ≠ needle := by
  intro hay
  induction hay with
  | nil =>
    intro k h
    unfold strstr at h
    split at h
    · rename_i hn
      simp only [Option.some.injEq] at h
      subst h
      subst hn
      simp
    · exact absurd h (by simp)
  | cons b tl ih =>
    intro k h
    unfold strstr at h
    split at h
    · rename_i hn
      simp only [Option.some.injEq] at h
      subst h
      refine ⟨?_, by simpa using hn, fun j hj => absurd hj (Nat.not_lt_zero j)⟩
      have := congrArg List.length hn
      simp only [List.length_take] at this
      omega
    · rename_i hn
      cases hs : strstr tl needle with
      | none => rw [hs] at h; exact absurd h (by simp)
      | some k2 =>
        rw [hs] at h
        simp only [Option.map_some', Option.some.injEq] at h
        subst h
        obtain ⟨h1, h2, h3⟩ := ih k2 hs
        refine ⟨by simp only [List.length_cons]; omega, by simpa using h2, fun j hj => ?_⟩
        cases j with
        | zero => simpa using hn
        | succ j =>
          have := h3 j (by omega)
          simpa using this

/-- When `strstr` returns `NULL` the needle occurs nowhere. -/
theorem strstr_none (needle : CStr) :
    ∀ (hay : CStr), strstr hay needle = none →
      ∀ j, (hay.drop j).take needle.length ≠ needle := by
  intro hay
  induction hay with
  | nil =>
    intro h j
    unfold strstr at h
    split at h
    · exact absurd h (by simp)
    · rename_i hn
      intro hh
      apply hn
      rw [← hh]
      simp
  | cons b tl ih =>
    intro h j
    unfold strstr at h
    split at h
    · exact absurd h (by simp)
    · rename_i hn
      cases hs : strstr tl needle with
      | some k2 => rw [hs] at h; simp at h
      | none =>
        cases j with
        | zero => simpa using hn
        | succ j =>
          have := ih hs j
          simpa using this

theorem strstr_take_length (needle hay : CStr) (k : Nat) (h : strstr hay needle = some k) :
    (hay.take k).length = k := by
  have := (strstr_some needle hay k h).1
  simp only [List.length_take]
  omega

/-! ## replace_all: one line -/

theorem strncat_s_fits (dest src : CStr) (count : Nat)
    (h : dest.length + (src.take count).length ≤ MAX_LINE_LENGTH) :
    strncat_s dest (MAX_LINE_LENGTH + 1) src count = dest ++ src.take count := by
  unfold strncat_s
  rw [if_pos (by omega)]

theorem strcat_s_fits (dest src : CStr) (h : dest.length + src.length ≤ MAX_LINE_LENGTH) :
    strcat_s dest (MAX_LINE_LENGTH + 1) src = dest ++ src := by
  unfold strcat_s
  rw [if_pos (by omega)]

theorem strncat_s_length (dest src : CStr) (count : Nat) :
    (strncat_s dest (MAX_LINE_LENGTH + 1) src count).length ≤ MAX_LINE_LENGTH := by
  unfold strncat_s
  split
  · rename_i h
    simp only [List.length_append]
    omega
  · simp

theorem strcat_s_length (dest src : CStr) :
    (strcat_s dest (MAX_LINE_LENGTH + 1) src).length ≤ MAX_LINE_LENGTH := by
  unfold strcat_s
  split
  · rename_i h
    simp only [List.length_append]
    omega
  · simp

/-- The scan threads `count` through: started at `c` it ends `c` higher than started at 0. -/
theorem replace_all_scan_count (old new : CStr) :
    ∀ (fuel : Nat) (last temp : CStr) (tl : Nat) (c : Int),
      replace_all_scan old new fuel last temp tl c =
        ((replace_all_scan old new fuel last temp tl 0).1,
          (replace_all_scan old new fuel last temp tl 0).2.1,
          (replace_all_scan old new fuel last temp tl 0).2.2.1,
          c + (replace_all_scan old new fuel last temp tl 0).2.2.2) := by
  intro fuel
  induction fuel with
  | zero =>
    intro last temp tl c
    simp [replace_all_scan]
  | succ f ih =>
    intro last temp tl c
    cases hs : strstr last old with
    | none => simp [replace_all_scan, hs]
    | some k =>
      simp only [replace_all_scan, hs]
      split
      · simp
      · rw [ih _ _ _ (c + 1), ih _ _ _ (0 + 1)]
        simp only [Prod.mk.injEq, true_and]
        omega

theorem replace_all_line_count (old new line : CStr) (c : Int) :
    replace_all_line old new line c =
      (lineAfterReplace old new line, c + lineReplaceCount old new line) := by
  unfold lineAfterReplace lineReplaceCount replace_all_line
  rw [replace_all_scan_count old new line.length line [] 0 c]
  rfl

/-- Whatever happens, `temp` fits the line slot: every write to it is bounds-checked. -/
theorem replace_all_scan_length (old new : CStr) :
    ∀ (fuel : Nat) (last temp : CStr) (tl : Nat) (c : Int),
      temp.length ≤ MAX_LINE_LENGTH →
      (replace_all_scan old new fuel last temp tl c).1.length ≤ MAX_LINE_LENGTH := by
  intro fuel
  induction fuel with
  | zero =>
    intro last temp tl c h
    simpa [replace_all_scan] using h
  | succ f ih =>
    intro last temp tl c h
    cases hs : strstr last old with
    | none => simpa [replace_all_scan, hs] using h
    | some k =>
      simp only [replace_all_scan, hs]
      split
      · exact strncat_s_length _ _ _
      · exact ih _ _ _ _ (strcat_s_length _ _)

theorem lineAfterReplace_length (old new line : CStr) :
    (lineAfterReplace old new line).length ≤ MAX_LINE_LENGTH := by
  unfold lineAfterReplace replace_all_line replace_all_tail
  simp only
  split
  · exact strncat_s_length _ _ _
  · exact replace_all_scan_length old new _ _ _ _ _ (by simp)

/-- When the greedy replacement of the rest of the line fits behind `temp`, the scan and the
tail block produce it, and count its occurrences. -/
theorem replace_all_scan_fits (old new : CStr) (hold : 1 ≤ old.length) :
    ∀ (fuel : Nat) (last temp : CStr), last.length ≤ fuel →
      temp.length + (greedyReplace old new fuel last).1.length ≤ MAX_LINE_LENGTH →
      replace_all_tail (replace_all_scan old new fuel last temp temp.length 0) =
        temp ++ (greedyReplace old new fuel last).1 ∧
      (replace_all_scan old new fuel last temp temp.length 0).2.2.2 =
        ((greedyReplace old new fuel last).2 : Int) := by
  have hsz : MAX_LINE_LENGTH < SIZE_MOD := by decide
  intro fuel
  induction fuel with
  | zero =>
    intro last temp hl hfit
    have hnil : last = [] := List.length_eq_zero.mp (by omega)
    subst hnil
    simp only [replace_all_scan, greedyReplace, replace_all_tail, List.length_nil, Nat.add_zero,
      List.append_nil, Nat.cast_zero, and_true]
    split
    · rw [strncat_s_fits _ _ _ (by simp; omega)]
      simp
    · rfl
  | succ f ih =>
    intro last temp hl hfit
    cases hs : strstr last old with
    | none =>
      simp only [greedyReplace, hs] at hfit
      simp only [replace_all_scan, greedyReplace, hs, replace_all_tail, Nat.cast_zero, and_true]
      split
      · have hmod : (temp.length + last.length) % SIZE_MOD = temp.length + last.length :=
          Nat.mod_eq_of_lt (by omega)
        rw [hmod, if_neg (by omega), strncat_s_fits _ _ _ (by simp; omega)]
        simp
      · have hnil : last = [] := List.length_eq_zero.mp (by omega)
        subst hnil
        simp
    | some k =>
      obtain ⟨hk1, _, _⟩ := strstr_some old last k hs
      have hkl : (last.take k).length = k := strstr_take_length old last k hs
      simp only [greedyReplace, hs, List.length_append, hkl] at hfit
      have hmod : (temp.length + k + new.length) % SIZE_MOD = temp.length + k + new.length :=
        Nat.mod_eq_of_lt (by omega)
      have ht1 : strncat_s temp (MAX_LINE_LENGTH + 1) last k = temp ++ last.take k :=
        strncat_s_fits _ _ _ (by rw [hkl]; omega)
      have ht2 : strcat_s (temp ++ last.take k) (MAX_LINE_LENGTH + 1) new
          = temp ++ last.take k ++ new :=
        strcat_s_fits _ _ (by simp only [List.length_append, hkl]; omega)
      have hlen2 : (temp ++ last.take k ++ new).length = temp.length + k + new.length := by
        simp only [List.length_append, hkl]
      simp only [replace_all_scan, greedyReplace, hs, hmod]
      rw [if_neg (by omega), ht1, ht2, ← hlen2,
        replace_all_scan_count old new f _ _ _ (0 + 1)]
      obtain ⟨e1, e2⟩ := ih (last.drop (k + old.length)) (temp ++ last.take k ++ new)
        (by simp only [List.length_drop]; omega) (by rw [hlen2]; omega)
      constructor
      · have : replace_all_tail
            ((replace_all_scan old new f (last.drop (k + old.length))
                (temp ++ last.take k ++ new) (temp ++ last.take k ++ new).length 0).1,
              (replace_all_scan old new f (last.drop (k + old.length))
                (temp ++ last.take k ++ new) (temp ++ last.take k ++ new).length 0).2.1,
              (replace_all_scan old new f (last.drop (k + old.length))
                (temp ++ last.take k ++ new) (temp ++ last.take k ++ new).length 0).2.2.1,
              0 + 1 + (replace_all_scan old new f (last.drop (k + old.length))
                (temp ++ last.take k ++ new) (temp ++ last.take k ++ new).length 0).2.2.2)
            = replace_all_tail (replace_all_scan old new f (last.drop (k + old.length))
                (temp ++ last.take k ++ new) (temp ++ last.take k ++ new).length 0) := rfl
        rw [this, e1]
        simp only [List.append_assoc]
      · simp only
        rw [e2]
        push_cast
        omega

/-- When the greedy replacement of a line fits the line capacity, `replace_all` computes it
and counts its occurrences. -/
theorem lineAfterReplace_greedy (old new line : CStr) (hold : 1 ≤ old.length)
    (hfit : (greedyLine old new line).1.length ≤ MAX_LINE_LENGTH) :
    lineAfterReplace old new line = (greedyLine old new line).1 ∧
    lineReplaceCount old new line = ((greedyLine old new line).2 : Int) := by
  unfold greedyLine at hfit ⊢
  have := replace_all_scan_fits old new hold line.length line [] (le_refl _)
    (by simpa using hfit)
  simp only [List.length_nil, List.nil_append] at this
  unfold lineAfterReplace lineReplaceCount replace_all_line
  exact this

/-- Fuel `strlen(line)` is enough for the scan of `replace_all`: every round consumes at least
one byte of the line, so more fuel changes nothing. -/
theorem replace_all_scan_fuel (old new : CStr) (hold : 1 ≤ old.length) :
    ∀ (fuel d : Nat) (last temp : CStr) (tl : Nat) (c : Int), last.length ≤ fuel →
      replace_all_scan old new (fuel + d) last temp tl c =
        replace_all_scan old new fuel last temp tl c := by
  intro fuel
  induction fuel with
  | zero =>
    intro d last temp tl c hl
    have hnil : last = [] := List.length_eq_zero.mp (by omega)
    subst hnil
    have hnone : strstr [] old = none := by
      unfold strstr
      rw [if_neg]
      intro h
      rw [h] at hold
      simp at hold
    cases d with
    | zero => rfl
    | succ d =>
      simp only [Nat.zero_add, replace_all_scan, hnone]
  | succ f ih =>
    intro d last temp tl c hl
    have e : f + 1 + d = (f + d) + 1 := by omega
    rw [e]
    cases hs : strstr last old with
    | none => simp only [replace_all_scan, hs]
    | some k =>
      obtain ⟨hk, _, _⟩ := strstr_some old last k hs
      simp only [replace_all_scan, hs]
      split
      · rfl
      · exact ih d _ _ _ _ (by simp only [List.length_drop]; omega)

/-! ## replace_all: the whole buffer -/

/-- Loop invariant of the `for` loop of `replace_all`: lines before `i` hold their computed
content, `count` is the sum of their replacement counts, and `modified` is 1 once a line
changed. -/
theorem replace_all_loop_spec (old new : CStr) (lc : Int) (lines0 : List CStr) (m0 : Int)
    (hL : lc.toNat ≤ lines0.length) :
    ∀ (fuel i : Nat) (lines : List CStr) (modified count : Int),
      i + fuel = lc.toNat → lines.length = lines0.length →
      (∀ k, lines.getD k [] =
        if k < i then lineAfterReplace old new (lines0.getD k []) else lines0.getD k []) →
      count = ((List.range i).map (fun k => lineReplaceCount old new (lines0.getD k []))).sum →
      modified = (if (List.range i).any (fun k =>
          decide (lines0.getD k [] ≠ lineAfterReplace old new (lines0.getD k []))) = true
        then 1 else m0) →
      (replace_all_loop old new lc fuel i lines modified count).1.length = lines0.length ∧
      (∀ k, (replace_all_loop old new lc fuel i lines modified count).1.getD k [] =
        if k < lc.toNat then lineAfterReplace old new (lines0.getD k [])
        else lines0.getD k []) ∧
      (replace_all_loop old new lc fuel i lines modified count).2.2 =
        ((List.range lc.toNat).map
          (fun k => lineReplaceCount old new (lines0.getD k []))).sum ∧
      (replace_all_loop old new lc fuel i lines modified count).2.1 =
        (if (List.range lc.toNat).any (fun k =>
            decide (lines0.getD k [] ≠ lineAfterReplace old new (lines0.getD k []))) = true
          then 1 else m0) := by
  intro fuel
  induction fuel with
  | zero =>
    intro i lines modified count hi hlen hget hcount hmod
    have e : i = lc.toNat := by omega
    subst e
    simp only [replace_all_loop]
    exact ⟨hlen, hget, hcount, hmod⟩
  | succ f ih =>
    intro i lines modified count hi hlen hget hcount hmod
    unfold replace_all_loop
    have hlt : (i : Int) < lc := by omega
    have hcur : lines.getD i [] = lines0.getD i [] := by
      rw [hget i, if_neg (lt_irrefl i)]
    rw [if_pos hlt, hcur, replace_all_line_count]
    simp only
    have hcount2 : count + lineReplaceCount old new (lines0.getD i []) =
        ((List.range (i + 1)).map
          (fun k => lineReplaceCount old new (lines0.getD k []))).sum := by
      rw [List.range_succ, List.map_append, List.sum_append, hcount]
      simp
    by_cases hch : lines0.getD i [] ≠ lineAfterReplace old new (lines0.getD i [])
    · rw [if_pos hch, strcpy_s_fits (lineAfterReplace_length old new _)]
      apply ih (i + 1) _ _ _ (by omega) (by simpa using hlen) _ hcount2
      · have hone : ([i].any (fun k =>
            decide (lines0.getD k [] ≠ lineAfterReplace old new (lines0.getD k [])))) = true := by
          simp only [List.any_cons, List.any_nil, Bool.or_false]
          exact decide_eq_true hch
        rw [List.range_succ, List.any_append, hone, Bool.or_true, if_pos rfl]
      · intro k
        rw [getD_set_slot, hget k]
        by_cases hk : i = k
        · subst hk
          rw [if_pos ⟨rfl, by omega⟩, if_pos (by omega)]
        · rw [if_neg (fun h => hk h.1)]
          by_cases hk2 : k < i
          · rw [if_pos hk2, if_pos (by omega)]
          · rw [if_neg hk2, if_neg (by omega)]
    · rw [if_neg hch]
      apply ih (i + 1) _ _ _ (by omega) hlen _ hcount2
      · have hone : ([i].any (fun k =>
            decide (lines0.getD k [] ≠ lineAfterReplace old new (lines0.getD k [])))) = false := by
          simp only [List.any_cons, List.any_nil, Bool.or_false]
          exact decide_eq_false hch
        rw [hmod, List.range_succ, List.any_append, hone, Bool.or_false]
      · intro k
        rw [hget k]
        by_cases hk : k = i
        · subst hk
          rw [if_neg (lt_irrefl k), if_pos (by omega)]
          exact not_not.mp hch
        · by_cases hk2 : k < i
          · rw [if_pos hk2, if_pos (by omega)]
          · rw [if_neg hk2, if_neg (by omega)]

/-- What `replace_all` does for a non-empty `oldstr`: every occupied line becomes the content
computed for it, the other slots stay, the result is the sum of the lines' counts, and
`modified` is set when a line changed or the count is positive. -/
theorem replace_all_spec (buf : TextBuffer) (old new : CStr) (hwf : buf.WF)
    (hhead : ¬ (old.getD 0 0 = 0)) :
    (replace_all buf (some old) (some new)).1 =
      ((List.range buf.line_count.toNat).map
        (fun k => lineReplaceCount old new (buf.lines.getD k []))).sum ∧
    (replace_all buf (some old) (some new)).2.line_count = buf.line_count ∧
    (replace_all buf (some old) (some new)).2.filename = buf.filename ∧
    (replace_all buf (some old) (some new)).2.lines.length = buf.lines.length ∧
    (∀ k, (replace_all buf (some old) (some new)).2.lines.getD k [] =
      if k < buf.line_count.toNat then lineAfterReplace old new (buf.lines.getD k [])
      else buf.lines.getD k []) ∧
    (replace_all buf (some old) (some new)).2.modified =
      (if (replace_all buf (some old) (some new)).1 > 0 then 1
        else if (List.range buf.line_count.toNat).any (fun k =>
            decide (buf.lines.getD k [] ≠ lineAfterReplace old new (buf.lines.getD k [])))
              = true
          then 1 else buf.modified) := by
  have hL : buf.line_count.toNat ≤ buf.lines.length := by
    have := hwf.1
    have := hwf.2.2.1
    omega
  obtain ⟨h1, h2, h3, h4⟩ := replace_all_loop_spec old new buf.line_count buf.lines
    buf.modified hL buf.line_count.toNat 0 buf.lines buf.modified 0 (by omega) rfl
    (fun k => by rw [if_neg (Nat.not_lt_zero k)]) (by simp) (by simp)
  simp only [replace_all, if_neg hhead]
  exact ⟨h3, trivial, trivial, h1, h2, by rw [h4, h3]⟩

theorem map_range_getD {α β : Type} (l : List α) (d : α) (f : α → β) :
    ∀ n, n ≤ l.length → (List.range n).map (fun k => f (l.getD k d)) = (l.take n).map f := by
  intro n
  induction n with
  | zero => intro _; simp
  | succ n ih =>
    intro hn
    have hlt : n < l.length := by omega
    rw [List.range_succ, List.map_append, ih (by omega), List.take_succ, List.map_append,
      List.getElem?_eq_getElem hlt]
    simp only [List.map_cons, List.map_nil, Option.toList_some]
    rw [List.getD_eq_getElem _ _ hlt]

theorem WF_count_le {buf : TextBuffer} (hwf : buf.WF) : buf.line_count.toNat ≤ buf.lines.length := by
  have := hwf.1
  have := hwf.2.2.1
  omega

theorem get_line_nat (buf : TextBuffer) (k : Nat) (hk : (k : Int) < buf.line_count) :
    get_line buf (k : Int) = some (buf.lines.getD k []) := by
  unfold get_line
  rw [if_neg (by omega), Int.toNat_ofNat]

/-- C15: for a non-empty `oldText` and a `newText` such that no line's fully replaced content
exceeds `MAX_LINE_LENGTH`, `replace_all` turns every line into its greedy left-to-right
non-overlapping replacement and returns the total number of occurrences replaced; the line
"aaa" with "a" replaced by "bb" becomes "bbbbbb", count 3. -/
theorem C15_replace_all_greedy (buf : TextBuffer) (oldText newText : CStr) (hwf : buf.WF)
    (hne : oldText ≠ []) (hb : ∀ b ∈ oldText, b ≠ 0)
    (hfit : ∀ line ∈ buf.occupied, (greedyLine oldText newText line).1.length ≤ MAX_LINE_LENGTH) :
    (∀ k : Nat, (k : Int) < buf.line_count →
      get_line (replace_all buf (some oldText) (some newText)).2 (k : Int) =
        some (greedyLine oldText newText (buf.lines.getD k [])).1) ∧
    (replace_all buf (some oldText) (some newText)).1 =
      (buf.occupied.map (fun line => ((greedyLine oldText newText line).2 : Int))).sum ∧
    (replace_all buf (some oldText) (some newText)).2.line_count = buf.line_count ∧
    get_line (replace_all (bufferOfLines [[97, 97, 97]]) (some [97]) (some [98, 98])).2 0 =
      some [98, 98, 98, 98, 98, 98] ∧
    (replace_all (bufferOfLines [[97, 97, 97]]) (some [97]) (some [98, 98])).1 = 3 := by
  have hold : 1 ≤ oldText.length := by
    cases oldText with
    | nil => exact absurd rfl hne
    | cons b tl => simp
  have hcl := WF_count_le hwf
  obtain ⟨h1, h2, _, _, h5, _⟩ := replace_all_spec buf oldText newText hwf
    (head_ne_zero oldText hne hb)
  have hfit2 : ∀ k : Nat, k < buf.line_count.toNat →
      (greedyLine oldText newText (buf.lines.getD k [])).1.length ≤ MAX_LINE_LENGTH := by
    intro k hk
    apply hfit
    unfold TextBuffer.occupied
    have hkl : k < buf.lines.length := by omega
    rw [List.getD_eq_getElem _ _ hkl]
    exact List.mem_take_iff_getElem.mpr ⟨k, by omega, rfl⟩
  refine ⟨?_, ?_, h2, by decide, by decide⟩
  · intro k hk
    have hk2 : (k : Int) < (replace_all buf (some oldText) (some newText)).2.line_count := by
      rw [h2]; exact hk
    rw [get_line_nat _ k hk2, h5 k, if_pos (by omega),
      (lineAfterReplace_greedy oldText newText _ hold (hfit2 k (by omega))).1]
  · rw [h1]
    unfold TextBuffer.occupied
    rw [← map_range_getD buf.lines [] (fun line => ((greedyLine oldText newText line).2 : Int))
      _ hcl]
    congr 1
    apply List.map_congr_left
    intro k hk
    exact (lineAfterReplace_greedy oldText newText _ hold
      (hfit2 k (List.mem_range.mp hk))).2

theorem sample_aaa_WF : (bufferOfLines [[97, 97, 97]]).WF :=
  bufferOfLines_WF _ (by decide) (by
    intro l hl
    simp only [List.mem_singleton] at hl
    subst hl
    exact isLine_of_small _ (by decide) (by decide))

theorem C15_replace_all_greedy_witness :
    (bufferOfLines [[97, 97, 97]]).WF ∧ ([97] : CStr) ≠ [] ∧ (∀ b ∈ ([97] : CStr), b ≠ 0) ∧
    (∀ line ∈ (bufferOfLines [[97, 97, 97]]).occupied,
      (greedyLine [97] [98, 98] line).1.length ≤ MAX_LINE_LENGTH) ∧
    (replace_all (bufferOfLines [[97, 97, 97]]) (some [97]) (some [98, 98])).1 =
      ((bufferOfLines [[97, 97, 97]]).occupied.map
        (fun line => ((greedyLine [97] [98, 98] line).2 : Int))).sum :=
  ⟨sample_aaa_WF, by decide, by decide, by decide,
    (C15_replace_all_greedy (bufferOfLines [[97, 97, 97]]) [97] [98, 98] sample_aaa_WF
      (by decide) (by decide) (by decide)).2.1⟩

/-- Replacing a string by itself, greedily, gives the line back. -/
theorem greedyReplace_same (x : CStr) :
    ∀ (fuel : Nat) (rest : CStr), (greedyReplace x x fuel rest).1 = rest := by
  intro fuel
  induction fuel with
  | zero => intro rest; rfl
  | succ f ih =>
    intro rest
    cases hs : strstr rest x with
    | none => simp only [greedyReplace, hs]
    | some k =>
      obtain ⟨_, hocc, _⟩ := strstr_some x rest k hs
      simp only [greedyReplace, hs, ih]
      have e : rest.drop (k + x.length) = (rest.drop k).drop x.length := by
        rw [List.drop_drop, Nat.add_comm]
      have e2 : x ++ (rest.drop k).drop x.length = rest.drop k := by
        have := List.take_append_drop x.length (rest.drop k)
        rwa [hocc] at this
      rw [e, List.append_assoc, e2, List.take_append_drop]

/-- A line that contains `old` gets at least one greedy replacement. -/
theorem greedyLine_count_pos (old new line : CStr) (hold : 1 ≤ old.length) (s : Nat)
    (hocc : occursAt old line s = true) : 1 ≤ (greedyLine old new line).2 := by
  unfold occursAt at hocc
  rw [decide_eq_true_eq] at hocc
  have hlen : 1 ≤ line.length := by
    have := congrArg List.length hocc
    simp only [List.length_take, List.length_drop] at this
    omega
  unfold greedyLine
  obtain ⟨f, hf⟩ : ∃ f, line.length = f + 1 := ⟨line.length - 1, by omega⟩
  rw [hf]
  cases hs : strstr line old with
  | none => exact absurd hocc (strstr_none old line hs s)
  | some k =>
    simp only [greedyReplace, hs]
    omega

theorem le_sum_of_mem_int (l : List Int) (hnn : ∀ a ∈ l, 0 ≤ a) (a : Int) (ha : a ∈ l) :
    a ≤ l.sum := by
  induction l with
  | nil => exact absurd ha (List.not_mem_nil a)
  | cons b tl ih =>
    have hsum : 0 ≤ tl.sum := List.sum_nonneg (fun x hx => hnn x (List.mem_cons_of_mem _ hx))
    rw [List.sum_cons]
    rcases List.mem_cons.mp ha with h | h
    · subst h; omega
    · have := ih (fun x hx => hnn x (List.mem_cons_of_mem _ hx)) h
      have := hnn b (List.mem_cons_self _ _)
      omega

/-- C16: when some line contains the non-empty string `x`, `replace_all x x` leaves every line
identical, returns a count of at least 1 and leaves the modified flag set, whatever it was. -/
theorem C16_replace_all_same_text (buf : TextBuffer) (x : CStr) (hwf : buf.WF)
    (hne : x ≠ []) (hb : ∀ b ∈ x, b ≠ 0)
    (hex : ∃ line ∈ buf.occupied, ∃ s, occursAt x line s = true) :
    (replace_all buf (some x) (some x)).2.lines = buf.lines ∧
    1 ≤ (replace_all buf (some x) (some x)).1 ∧
    (replace_all buf (some x) (some x)).2.modified = 1 := by
  have hold : 1 ≤ x.length := by
    cases x with
    | nil => exact absurd rfl hne
    | cons b tl => simp
  have hcl := WF_count_le hwf
  obtain ⟨h1, _, _, h4, h5, h6⟩ := replace_all_spec buf x x hwf (head_ne_zero x hne hb)
  have hsame : ∀ line : CStr, line.length ≤ MAX_LINE_LENGTH →
      lineAfterReplace x x line = line ∧
      lineReplaceCount x x line = ((greedyLine x x line).2 : Int) := by
    intro line hl
    have hg : (greedyLine x x line).1 = line := greedyReplace_same x _ _
    have := lineAfterReplace_greedy x x line hold (by rw [hg]; exact hl)
    rw [hg] at this
    exact this
  have hcount : 1 ≤ (replace_all buf (some x) (some x)).1 := by
    obtain ⟨line, hmem, s, hocc⟩ := hex
    rw [h1, map_range_getD buf.lines [] (fun l => lineReplaceCount x x l) _ hcl]
    have hl : line.length ≤ MAX_LINE_LENGTH :=
      WF_lengths hwf line (List.mem_of_mem_take hmem)
    have hpos := greedyLine_count_pos x x line hold s hocc
    have hle := le_sum_of_mem_int ((buf.lines.take buf.line_count.toNat).map
        (fun l => lineReplaceCount x x l)) (by
        intro a ha
        obtain ⟨l, hlm, rfl⟩ := List.mem_map.mp ha
        rw [(hsame l (WF_lengths hwf l (List.mem_of_mem_take hlm))).2]
        exact Int.ofNat_nonneg _)
      (lineReplaceCount x x line) (List.mem_map.mpr ⟨line, hmem, rfl⟩)
    rw [(hsame line hl).2] at hle
    omega
  refine ⟨?_, hcount, ?_⟩
  · apply ext_getD ([] : CStr) h4
    intro k _
    rw [h5 k]
    split
    · exact (hsame _ (getD_length_le (WF_lengths hwf) k)).1
    · rfl
  · rw [h6, if_pos (by omega)]

theorem C16_replace_all_same_text_witness :
    (bufferOfLines [[97, 97, 97]]).WF ∧ ([97] : CStr) ≠ [] ∧ (∀ b ∈ ([97] : CStr), b ≠ 0) ∧
    (∃ line ∈ (bufferOfLines [[97, 97, 97]]).occupied, ∃ s, occursAt [97] line s = true) ∧
    (replace_all (bufferOfLines [[97, 97, 97]]) (some [97]) (some [97])).2.modified = 1 :=
  ⟨sample_aaa_WF, by decide, by decide, ⟨[97, 97, 97], by decide, 0, by decide⟩,
    (C16_replace_all_same_text (bufferOfLines [[97, 97, 97]]) [97] sample_aaa_WF
      (by decide) (by decide) ⟨[97, 97, 97], by decide, 0, by decide⟩).2.2⟩

/-! ## replace_all: the capacity branch -/

theorem greedySteps_rest_length (old new : CStr) (hold : 1 ≤ old.length) :
    ∀ (n : Nat) (last out rest : CStr), greedySteps old new n last = some (out, rest) →
      rest.length + n ≤ last.length := by
  intro n
  induction n with
  | zero =>
    intro last out rest h
    simp only [greedySteps, Option.some.injEq, Prod.mk.injEq] at h
    rw [← h.2]
    omega
  | succ n ih =>
    intro last out rest h
    cases hs : strstr last old with
    | none => simp [greedySteps, hs] at h
    | some k =>
      simp only [greedySteps, hs, Option.map_eq_some'] at h
      obtain ⟨r, hr, he⟩ := h
      obtain ⟨hk, _, _⟩ := strstr_some old last k hs
      have := ih (last.drop (k + old.length)) r.1 r.2 (by rw [hr])
      simp only [List.length_drop] at this
      simp only [Prod.mk.injEq] at he
      rw [← he.2]
      omega

/-- The scan when the replacement after `n` greedy steps would exceed the capacity: it stops
there with the output so far followed by as much of the unprocessed remainder as fits. -/
theorem replace_all_scan_overflow (old new : CStr) (hold : 1 ≤ old.length)
    (hnew : NoWrapInReplace new) :
    ∀ (n fuel : Nat) (last temp out rest : CStr) (k : Nat),
      n + 1 ≤ fuel → last.length ≤ MAX_LINE_LENGTH →
      greedySteps old new n last = some (out, rest) →
      temp.length + out.length ≤ MAX_LINE_LENGTH →
      strstr rest old = some k →
      temp.length + out.length + k + new.length > MAX_LINE_LENGTH →
      replace_all_scan old new fuel last temp temp.length 0 =
        (strncat_s (temp ++ out) (MAX_LINE_LENGTH + 1) rest
            (MAX_LINE_LENGTH - (temp ++ out).length),
          MAX_LINE_LENGTH, rest, (n : Int)) := by
  unfold NoWrapInReplace at hnew
  intro n
  induction n with
  | zero =>
    intro fuel last temp out rest k hf hl hsteps hfit hnext hover
    simp only [greedySteps, Option.some.injEq, Prod.mk.injEq] at hsteps
    obtain ⟨rfl, rfl⟩ := hsteps
    obtain ⟨f, rfl⟩ : ∃ f, fuel = f + 1 := ⟨fuel - 1, by omega⟩
    obtain ⟨hk, _, _⟩ := strstr_some old last k hnext
    simp only [List.length_nil, Nat.add_zero] at hover
    have hmod : (temp.length + k + new.length) % SIZE_MOD = temp.length + k + new.length :=
      Nat.mod_eq_of_lt (by omega)
    simp only [replace_all_scan, hnext, hmod, if_pos hover, List.append_nil, Nat.cast_zero]
  | succ n ih =>
    intro fuel last temp out rest k hf hl hsteps hfit hnext hover
    obtain ⟨f, rfl⟩ : ∃ f, fuel = f + 1 := ⟨fuel - 1, by omega⟩
    cases hs : strstr last old with
    | none => simp [greedySteps, hs] at hsteps
    | some k0 =>
      simp only [greedySteps, hs, Option.map_eq_some'] at hsteps
      obtain ⟨r, hr, he⟩ := hsteps
      simp only [Prod.mk.injEq] at he
      obtain ⟨he1, he2⟩ := he
      obtain ⟨hk0, _, _⟩ := strstr_some old last k0 hs
      have hkl : (last.take k0).length = k0 := strstr_take_length old last k0 hs
      have hout : out.length = k0 + new.length + r.1.length := by
        rw [← he1]
        simp only [List.length_append, hkl]
      have hmod : (temp.length + k0 + new.length) % SIZE_MOD = temp.length + k0 + new.length :=
        Nat.mod_eq_of_lt (by omega)
      have ht1 : strncat_s temp (MAX_LINE_LENGTH + 1) last k0 = temp ++ last.take k0 :=
        strncat_s_fits _ _ _ (by rw [hkl]; omega)
      have ht2 : strcat_s (temp ++ last.take k0) (MAX_LINE_LENGTH + 1) new
          = temp ++ last.take k0 ++ new :=
        strcat_s_fits _ _ (by simp only [List.length_append, hkl]; omega)
      have hlen2 : (temp ++ last.take k0 ++ new).length = temp.length + k0 + new.length := by
        simp only [List.length_append, hkl]
      simp only [replace_all_scan, hs, hmod]
      rw [if_neg (by omega), ht1, ht2, ← hlen2, replace_all_scan_count old new f _ _ _ (0 + 1),
        ih f (last.drop (k0 + old.length)) (temp ++ last.take k0 ++ new) r.1 rest k
          (by omega) (by simp only [List.length_drop]; omega) (by rw [hr, ← he2])
          (by rw [hlen2]; omega) hnext (by rw [hlen2]; omega)]
      simp only [Prod.mk.injEq]
      refine ⟨?_, trivial, trivial, ?_⟩
      · rw [← he1]
        simp only [List.append_assoc]
      · push_cast
        omega

/-- The line `replace_all` stores, and what it counts, when the replacement after `n` greedy
steps would exceed the capacity. -/
theorem lineAfterReplace_overflow (old new line : CStr) (hold : 1 ≤ old.length)
    (hnew : NoWrapInReplace new) (hl : line.length ≤ MAX_LINE_LENGTH)
    (n k : Nat) (out rest : CStr)
    (hsteps : greedySteps old new n line = some (out, rest))
    (hout : out.length ≤ MAX_LINE_LENGTH) (hnext : strstr rest old = some k)
    (hover : out.length + k + new.length > MAX_LINE_LENGTH) :
    lineAfterReplace old new line = out ++ rest.take (MAX_LINE_LENGTH - out.length) ∧
    lineReplaceCount old new line = (n : Int) := by
  have hrest := greedySteps_rest_length old new hold n line out rest hsteps
  obtain ⟨hk, _, _⟩ := strstr_some old rest k hnext
  have hscan := replace_all_scan_overflow old new hold hnew n line.length line [] out rest k
    (by omega) hl hsteps (by simpa using hout) hnext (by simpa using hover)
  simp only [List.length_nil, List.nil_append] at hscan
  unfold lineAfterReplace lineReplaceCount replace_all_line
  rw [hscan]
  simp only [replace_all_tail, lt_irrefl, if_false, and_true]
  exact strncat_s_fits _ _ _ (by simp only [List.length_take]; omega)

theorem replace_all_get_line (buf : TextBuffer) (old new : CStr) (hwf : buf.WF)
    (hhead : ¬ (old.getD 0 0 = 0)) (k : Nat) (hk : (k : Int) < buf.line_count) :
    get_line (replace_all buf (some old) (some new)).2 (k : Int) =
      some (lineAfterReplace old new (buf.lines.getD k [])) := by
  obtain ⟨_, h2, _, _, h5, _⟩ := replace_all_spec buf old new hwf hhead
  rw [get_line_nat _ k (by rw [h2]; exact hk), h5 k, if_pos (by omega)]

theorem length_pos_of_ne_nil (s : CStr) (h : s ≠ []) : 1 ≤ s.length := by
  cases s with
  | nil => exact absurd rfl h
  | cons b tl => simp

/-- C17 (amended): when, after the replacements made so far on a line (output `out`, unprocessed
remainder `rest`), the next replacement would exceed `MAX_LINE_LENGTH`, `replace_all` stops
replacing on that line and the resulting line is `out` followed by the first
`MAX_LINE_LENGTH - len out` bytes of `rest`, unmodified: the whole remainder when it fits,
and cut at the line capacity otherwise. -/
theorem C17_replace_all_overflow_keeps_what_fits (buf : TextBuffer) (oldText newText : CStr)
    (i n k : Nat) (out rest : CStr) (hwf : buf.WF) (hne : oldText ≠ [])
    (hb : ∀ b ∈ oldText, b ≠ 0) (hnew : NoWrapInReplace newText)
    (hi : (i : Int) < buf.line_count)
    (hsteps : greedySteps oldText newText n (buf.lines.getD i []) = some (out, rest))
    (hout : out.length ≤ MAX_LINE_LENGTH) (hnext : strstr rest oldText = some k)
    (hover : out.length + k + newText.length > MAX_LINE_LENGTH) :
    get_line (replace_all buf (some oldText) (some newText)).2 (i : Int) =
      some (out ++ rest.take (MAX_LINE_LENGTH - out.length)) ∧
    (out.length + rest.length ≤ MAX_LINE_LENGTH →
      get_line (replace_all buf (some oldText) (some newText)).2 (i : Int) =
        some (out ++ rest)) := by
  have hline := (lineAfterReplace_overflow oldText newText (buf.lines.getD i [])
    (length_pos_of_ne_nil _ hne) hnew (getD_length_le (WF_lengths hwf) i) n k out rest
    hsteps hout hnext hover).1
  have hget := replace_all_get_line buf oldText newText hwf (head_ne_zero _ hne hb) i hi
  rw [hline] at hget
  refine ⟨hget, fun hfit => ?_⟩
  rw [hget, List.take_of_length_le (by omega)]

theorem sample_aa_WF : (bufferOfLines [[97, 97]]).WF :=
  bufferOfLines_WF _ (by decide) (by
    intro l hl
    simp only [List.mem_singleton] at hl
    subst hl
    exact isLine_of_small _ (by decide) (by decide))

/-- The line "aa" with "a" replaced by a text of `MAX_LINE_LENGTH` bytes: the first
replacement fills the line, the second does not fit, and the remaining "a" is cut. -/
theorem overflow_example (new : CStr) (hlen : new.length = MAX_LINE_LENGTH) :
    greedySteps [97] new 1 [97, 97] = some (new, [97]) ∧
    get_line (replace_all (bufferOfLines [[97, 97]]) (some [97]) (some new)).2 0 = some new := by
  have hsteps : greedySteps [97] new 1 [97, 97] = some (new, [97]) := by
    simp [greedySteps, strstr]
  refine ⟨hsteps, ?_⟩
  have hnw : NoWrapInReplace new := by
    unfold NoWrapInReplace
    rw [hlen]
    decide
  have hline := (lineAfterReplace_overflow [97] new [97, 97] (by decide) hnw (by decide)
    1 0 new [97] hsteps (by omega) (by decide) (by rw [hlen]; decide)).1
  have hget := replace_all_get_line (bufferOfLines [[97, 97]]) [97] new sample_aa_WF
    (by decide) 0 (by decide)
  have e : (bufferOfLines [[97, 97]]).lines.getD 0 [] = [97, 97] := by decide
  rw [e, hline, hlen, Nat.sub_self, List.take_zero, List.append_nil] at hget
  exact hget

/-- C17 fails as stated: on the line "aa", replacing "a" by 4096 bytes "b", the second
replacement would exceed the capacity; the output so far is the 4096 bytes and the
unprocessed remainder is "a", but the resulting line is the 4096 bytes alone: the
remainder is dropped. -/
theorem C17_overflow_counterexample :
    greedySteps [97] (List.replicate 4096 98) 1 [97, 97] = some (List.replicate 4096 98, [97]) ∧
    get_line (replace_all (bufferOfLines [[97, 97]]) (some [97])
      (some (List.replicate 4096 98))).2 0 = some (List.replicate 4096 98) ∧
    List.replicate 4096 98 ≠ List.replicate 4096 98 ++ [97] := by
  have h := overflow_example (List.replicate 4096 98) (by
    rw [List.length_replicate]
    rfl)
  refine ⟨h.1, h.2, fun hh => ?_⟩
  have := congrArg List.length hh
  rw [List.length_append, List.length_replicate] at this
  simp at this

theorem C17_replace_all_overflow_keeps_what_fits_witness :
    (bufferOfLines [[97, 97]]).WF ∧ NoWrapInReplace (List.replicate 4096 98) ∧
    get_line (replace_all (bufferOfLines [[97, 97]]) (some [97])
      (some (List.replicate 4096 98))).2 ((0 : Nat) : Int) =
      some (List.replicate 4096 98 ++
        ([97] : CStr).take (MAX_LINE_LENGTH - (List.replicate 4096 98).length)) :=
  have hnw : NoWrapInReplace (List.replicate 4096 98) := by
    unfold NoWrapInReplace
    rw [List.length_replicate]
    decide
  ⟨sample_aa_WF, hnw,
    (C17_replace_all_overflow_keeps_what_fits (bufferOfLines [[97, 97]]) [97]
      (List.replicate 4096 98) 0 1 0 (List.replicate 4096 98) [97] sample_aa_WF (by decide)
      (by decide) hnw (by decide)
      (overflow_example (List.replicate 4096 98) (by rw [List.length_replicate]; rfl)).1
      (by rw [List.length_replicate]; decide) (by decide)
      (by rw [List.length_replicate]; decide)).1⟩

/-! ## replace_all: the returned count -/

theorem strstr_after_filler (n : Nat) :
    strstr (List.replicate n 120 ++ [97]) [97] = some n := by
  induction n with
  | zero => rfl
  | succ n ih =>
    rw [List.replicate_succ, List.cons_append]
    unfold strstr
    rw [if_neg (by simp), ih]
    rfl

theorem filler_line_WF (n : Nat) (hn : n + 1 ≤ MAX_LINE_LENGTH) :
    (bufferOfLines [List.replicate n 120 ++ [97]]).WF := by
  have h1 : [List.replicate n 120 ++ [97]].length ≤ MAX_LINES := by
    rw [List.length_singleton]
    decide
  apply bufferOfLines_WF _ h1
  intro l hl
  simp only [List.mem_singleton] at hl
  subst hl
  refine ⟨by simpa using hn, fun b hb => ?_⟩
  rcases List.mem_append.mp hb with h | h
  · rw [(List.mem_replicate.mp h).2]
    decide
  · rw [List.mem_singleton.mp h]
    decide

/-- A full line that ends in "a", with "a" replaced by "bb": the only replacement does not
fit, nothing is replaced and `replace_all` returns 0 although the line contains "a". -/
theorem replace_all_blocked (n : Nat) (hn : n + 1 = MAX_LINE_LENGTH) :
    (replace_all (bufferOfLines [List.replicate n 120 ++ [97]]) (some [97]) (some [98, 98])).1 = 0 ∧
    occursAt [97] (List.replicate n 120 ++ [97]) n = true := by
  have hwf := filler_line_WF n (by omega)
  constructor
  · obtain ⟨h1, _⟩ := replace_all_spec (bufferOfLines [List.replicate n 120 ++ [97]]) [97]
      [98, 98] hwf (by decide)
    have hc : (bufferOfLines [List.replicate n 120 ++ [97]]).line_count.toNat = 1 := rfl
    have hl : (bufferOfLines [List.replicate n 120 ++ [97]]).lines.getD 0 []
        = List.replicate n 120 ++ [97] := rfl
    have hr : List.range 1 = [0] := rfl
    rw [h1, hc, hr]
    simp only [List.map_cons, List.map_nil, List.sum_cons, List.sum_nil, hl, add_zero]
    have := (lineAfterReplace_overflow [97] [98, 98] (List.replicate n 120 ++ [97]) (by decide)
      (by decide) (by simp; omega) 0 n [] (List.replicate n 120 ++ [97]) rfl (by decide)
      (strstr_after_filler n) (by simp; omega)).2
    rw [this]
    rfl
  · unfold occursAt
    rw [decide_eq_true_eq, List.drop_left' (List.length_replicate n 120)]
    rfl

/-- C18, the code at the failing input: a line of 4095 bytes "x" followed by "a" contains
"a", yet `replace_all` of "a" by "bb" returns 0. -/
theorem C18_replace_all_zero_despite_match :
    (replace_all (bufferOfLines [List.replicate 4095 120 ++ [97]])
      (some [97]) (some [98, 98])).1 = 0 ∧
    occursAt [97] (List.replicate 4095 120 ++ [97]) 4095 = true :=
  replace_all_blocked 4095 (by decide)

/-! ## Empty patterns -/

/-- C19 fails as stated: `replace_all` with an empty oldText returns 0, the value that also
means "no match", not a negative sentinel. -/
theorem C19_empty_old_counterexample :
    (replace_all (bufferOfLines [[97]]) (some []) (some [120])).1 = 0 ∧
    ¬ ((replace_all (bufferOfLines [[97]]) (some []) (some [120])).1 < 0) := by
  decide

/-! ## build_lps in the words of the specification -/

theorem border_iff_prefixEndsAt (p : CStr) (k b : Nat) (hk : k < p.length) :
    IsBorderLength (p.take (k + 1)) b ↔ (b ≤ k ∧ PrefixEndsAt p b p (k + 1)) := by
  have hl : (p.take (k + 1)).length = k + 1 := by
    rw [List.length_take]; omega
  unfold IsBorderLength PrefixEndsAt
  rw [hl]
  constructor
  · rintro ⟨hb, heq⟩
    refine ⟨by omega, by omega, fun x hx => ?_⟩
    have h := congrArg (fun l => l.getD x 0) heq
    simp only [] at h
    rw [getD_take_slot, if_pos hx, getD_take_slot, if_pos (by omega), getD_drop_slot,
      getD_take_slot, if_pos (by omega)] at h
    exact h
  · rintro ⟨hb, _, hx⟩
    refine ⟨by omega, ?_⟩
    apply ext_getD 0
    · rw [List.length_take, List.length_drop, hl]; omega
    · intro x hxl
      rw [List.length_take, hl] at hxl
      have hxb : x < b := by omega
      rw [getD_take_slot, if_pos hxb, getD_take_slot, if_pos (by omega), getD_drop_slot,
        getD_take_slot, if_pos (by omega)]
      exact hx x hxb

theorem longest_border_unique (p : CStr) (k v w : Nat) (hv : IsLongestBorder p k v)
    (hw : IsLongestBorder p k w) : v = w := by
  have h1 := hv.2.2 w hw.1 hw.2.1
  have h2 := hw.2.2 v hv.1 hv.2.1
  omega

theorem build_lps_fuel (p : CStr) (m : Nat) (lps : List Nat) (hm : 1 ≤ m)
    (hlen : lps.length = m) (extra : Nat) :
    build_lps_loop p m (2 * m + extra) 1 0 (lps.set 0 0) = build_lps p m lps := by
  have hs := build_lps_spec p m lps hm hlen
  have hl := build_lps_loop_spec p m (2 * m + extra) 1 0 (lps.set 0 0) (le_refl _) hm
    (by simpa using hlen) (by omega)
    (by
      intro k hk
      have hk0 : k = 0 := by omega
      subst hk0
      rw [getD_set_slot, if_pos ⟨rfl, by omega⟩]
      exact ⟨le_refl _, pe_zero _ _ _, fun b hb _ => hb⟩)
    (pe_zero _ _ _) (by intro b hb _; omega) (by omega)
  apply ext_getD 0
  · rw [hl.1, hs.1]
  · intro k hk
    rw [hl.1] at hk
    exact longest_border_unique p k _ _ (hl.2 k hk) (hs.2 k hk)

/-- C27: for a non-empty pattern of length m, whatever the array held, `build_lps` fills
slot i (i < m) with the length of the longest proper prefix of `pattern[0..i]` that is also
a suffix of it; slot 0 is 0, every slot i holds a value between 0 and i, and the loop ends
within its `2 * m` iterations (any further allowance changes nothing). -/
theorem C27_build_lps_longest_border (pattern : CStr) (lps : List Nat)
    (hne : pattern ≠ []) (hlen : lps.length = pattern.length) :
    (build_lps pattern pattern.length lps).length = pattern.length ∧
    (build_lps pattern pattern.length lps).getD 0 0 = 0 ∧
    (∀ i, i < pattern.length →
      IsBorderLength (pattern.take (i + 1)) ((build_lps pattern pattern.length lps).getD i 0) ∧
      (∀ b, IsBorderLength (pattern.take (i + 1)) b →
        b ≤ (build_lps pattern pattern.length lps).getD i 0) ∧
      (build_lps pattern pattern.length lps).getD i 0 ≤ i) ∧
    (∀ extra, build_lps_loop pattern pattern.length (2 * pattern.length + extra) 1 0
        (lps.set 0 0) = build_lps pattern pattern.length lps) := by
  have hm := length_pos_of_ne_nil pattern hne
  have hs := build_lps_spec pattern pattern.length lps hm hlen
  refine ⟨hs.1, ?_, ?_, fun extra => build_lps_fuel pattern pattern.length lps hm hlen extra⟩
  · have h0 := (hs.2 0 (by omega)).1
    omega
  · intro i hi
    have hb := hs.2 i hi
    refine ⟨(border_iff_prefixEndsAt pattern i _ hi).2 ⟨hb.1, hb.2.1⟩, ?_, hb.1⟩
    intro b hbb
    have h := (border_iff_prefixEndsAt pattern i b hi).1 hbb
    exact hb.2.2 b h.1 h.2

theorem C27_build_lps_longest_border_witness :
    (build_lps [97, 98, 97, 98, 97] 5 [7, 7, 7, 7, 7]).length = 5 ∧
    (build_lps [97, 98, 97, 98, 97] 5 [7, 7, 7, 7, 7]).getD 0 0 = 0 ∧
    (build_lps [97, 98, 97, 98, 97] 5 [7, 7, 7, 7, 7]).getD 4 0 = 3 ∧
    IsBorderLength [97, 98, 97, 98, 97] 3 := by
  have h := C27_build_lps_longest_border [97, 98, 97, 98, 97] [7, 7, 7, 7, 7]
    (by decide) (by decide)
  have e : (build_lps [97, 98, 97, 98, 97] 5 [7, 7, 7, 7, 7]).getD 4 0 = 3 := by decide
  refine ⟨h.1, h.2.1, e, ?_⟩
  have h4 := (h.2.2.1 4 (by decide)).1
  rw [show ([97, 98, 97, 98, 97] : CStr).length = 5 from rfl, e] at h4
  exact h4

/-! ## Decoding the standard encoding -/

theorem cont_payload (r : Nat) (h : r < 64) : (0x80 + r) &&& 0x3F = r := by
  interval_cases r <;> decide

theorem lead2_tests (q : Nat) (h : q < 32) :
    ¬ (0xC0 + q < 0x80) ∧ (0xC0 + q) &&& 0xE0 = 0xC0 ∧ (0xC0 + q) &&& 0x1F = q := by
  interval_cases q <;> decide

theorem lead3_tests (q : Nat) (h : q < 16) :
    ¬ (0xE0 + q < 0x80) ∧ ¬ ((0xE0 + q) &&& 0xE0 = 0xC0) ∧ (0xE0 + q) &&& 0xF0 = 0xE0 ∧
      (0xE0 + q) &&& 0x0F = q := by
  interval_cases q <;> decide

theorem lead4_tests (q : Nat) (h : q < 8) :
    ¬ (0xF0 + q < 0x80) ∧ ¬ ((0xF0 + q) &&& 0xE0 = 0xC0) ∧ ¬ ((0xF0 + q) &&& 0xF0 = 0xE0) ∧
      (0xF0 + q) &&& 0xF8 = 0xF0 ∧ (0xF0 + q) &&& 0x07 = q := by
  interval_cases q <;> decide

theorem shift_or (a b i : Nat) (hb : b < 2 ^ i) : (a <<< i) ||| b = a * 2 ^ i + b := by
  rw [Nat.shiftLeft_eq, Nat.mul_comm a, ← Nat.mul_add_lt_is_or hb]

theorem decode_two (cp : Nat) (h0 : ¬ cp < 0x80) (h1 : cp < 0x800) :
    utf8_next_codepoint [0xC0 + cp / 64, 0x80 + cp % 64] = ((cp : Int), 2) := by
  have hq : cp / 64 < 32 := by omega
  have hr : cp % 64 < 64 := by omega
  obtain ⟨t1, t2, t3⟩ := lead2_tests (cp / 64) hq
  unfold utf8_next_codepoint
  simp only [List.getD_cons_zero, List.getD_cons_succ]
  rw [if_neg t1, if_pos t2, t3, cont_payload _ hr, shift_or _ _ 6 (by omega)]
  congr 2
  omega

theorem decode_three (cp : Nat) (h0 : ¬ cp < 0x800) (h1 : cp < 0x10000) :
    utf8_next_codepoint [0xE0 + cp / 4096, 0x80 + cp / 64 % 64, 0x80 + cp % 64] =
      ((cp : Int), 3) := by
  have hq : cp / 4096 < 16 := by omega
  have hr1 : cp / 64 % 64 < 64 := by omega
  have hr : cp % 64 < 64 := by omega
  obtain ⟨t1, t2, t3, t4⟩ := lead3_tests (cp / 4096) hq
  unfold utf8_next_codepoint
  simp only [List.getD_cons_zero, List.getD_cons_succ]
  rw [if_neg t1, if_neg t2, if_pos t3, t4, cont_payload _ hr1, cont_payload _ hr,
    Nat.shiftLeft_eq (cp / 64 % 64) 6, shift_or _ _ 12 (by omega),
    show cp / 4096 * 2 ^ 12 + cp / 64 % 64 * 2 ^ 6 = (cp / 4096 * 64 + cp / 64 % 64) <<< 6 by
      rw [Nat.shiftLeft_eq]; omega,
    shift_or _ _ 6 (by omega)]
  congr 2
  omega

theorem decode_four (cp : Nat) (h0 : ¬ cp < 0x10000) (h1 : cp ≤ 0x10FFFF) :
    utf8_next_codepoint
        [0xF0 + cp / 262144, 0x80 + cp / 4096 % 64, 0x80 + cp / 64 % 64, 0x80 + cp % 64] =
      ((cp : Int), 4) := by
  have hq : cp / 262144 < 8 := by omega
  have hr2 : cp / 4096 % 64 < 64 := by omega
  have hr1 : cp / 64 % 64 < 64 := by omega
  have hr : cp % 64 < 64 := by omega
  obtain ⟨t1, t2, t3, t4, t5⟩ := lead4_tests (cp / 262144) hq
  unfold utf8_next_codepoint
  simp only [List.getD_cons_zero, List.getD_cons_succ]
  rw [if_neg t1, if_neg t2, if_neg t3, if_pos t4, t5, cont_payload _ hr2, cont_payload _ hr1,
    cont_payload _ hr,
    Nat.shiftLeft_eq (cp / 4096 % 64) 12, shift_or _ _ 18 (by omega),
    Nat.shiftLeft_eq (cp / 64 % 64) 6,
    show cp / 262144 * 2 ^ 18 + cp / 4096 % 64 * 2 ^ 12 =
        (cp / 262144 * 64 + cp / 4096 % 64) <<< 12 by
      rw [Nat.shiftLeft_eq]; omega,
    shift_or _ _ 12 (by omega),
    show (cp / 262144 * 64 + cp / 4096 % 64) * 2 ^ 12 + cp / 64 % 64 * 2 ^ 6 =
        ((cp / 262144 * 64 + cp / 4096 % 64) * 64 + cp / 64 % 64) <<< 6 by
      rw [Nat.shiftLeft_eq]; omega,
    shift_or _ _ 6 (by omega)]
  congr 2
  omega

/-- C21: for every Unicode scalar value cp (0 to 0x10FFFF, surrogates excluded),
`utf8_next_codepoint` applied to the standard UTF-8 encoding of cp returns exactly cp, and the
advance it reports is the length of that encoding, which is between 1 and 4 bytes. -/
theorem C21_next_codepoint_decodes_encoding (cp : Nat) (hcp : IsScalarValue cp) :
    utf8_next_codepoint (utf8Encode cp) = ((cp : Int), ((utf8Encode cp).length : Int)) ∧
    1 ≤ (utf8Encode cp).length ∧ (utf8Encode cp).length ≤ 4 := by
  unfold utf8Encode
  by_cases h1 : cp < 0x80
  · rw [if_pos h1]
    refine ⟨?_, by simp, by simp⟩
    unfold utf8_next_codepoint
    simp only [List.getD_cons_zero]
    rw [if_pos h1]
    rfl
  · rw [if_neg h1]
    by_cases h2 : cp < 0x800
    · rw [if_pos h2]
      exact ⟨decode_two cp h1 h2, by simp, by simp⟩
    · rw [if_neg h2]
      by_cases h3 : cp < 0x10000
      · rw [if_pos h3]
        exact ⟨decode_three cp h2 h3, by simp, by simp⟩
      · rw [if_neg h3]
        exact ⟨decode_four cp h3 hcp.1, by simp, by simp⟩

theorem C21_next_codepoint_decodes_encoding_witness :
    IsScalarValue 0x4E2D ∧ utf8Encode 0x4E2D = [0xE4, 0xB8, 0xAD] ∧
    utf8_next_codepoint [0xE4, 0xB8, 0xAD] = (0x4E2D, 3) := by
  have h := C21_next_codepoint_decodes_encoding 0x4E2D (by decide)
  have e : utf8Encode 0x4E2D = [0xE4, 0xB8, 0xAD] := by decide
  rw [e] at h
  exact ⟨by decide, e, h.1⟩

/-! ## count_characters -/

theorem insert_line_shape (buf : TextBuffer) (line : Int) (text : Option CStr) :
    insert_line buf line text = (-1, buf) ∨
      ((insert_line buf line text).1 = 0 ∧ (insert_line buf line text).2.modified = 1) := by
  cases text with
  | none => left; rfl
  | some t =>
    simp only [insert_line]
    split_ifs <;> simp

theorem insert_substring_shape (buf : TextBuffer) (line col : Int) (text : Option CStr) :
    insert_substring buf line col text = (-1, buf) ∨
      ((insert_substring buf line col text).1 = 0 ∧
        (insert_substring buf line col text).2.modified = 1) := by
  cases text with
  | none => left; rfl
  | some t =>
    simp only [insert_substring]
    split_ifs <;> simp

theorem replace_at_position_shape (buf : TextBuffer) (line col len : Int)
    (text : Option CStr) :
    replace_at_position buf line col len text = (-1, buf) ∨
      ((replace_at_position buf line col len text).1 = 0 ∧
        (replace_at_position buf line col len text).2.modified = 1) := by
  cases text with
  | none => left; rfl
  | some t =>
    simp only [replace_at_position]
    split_ifs <;> simp

theorem replace_char_shape (buf : TextBuffer) (line col : Int) (text : Option CStr) :
    replace_char buf line col text = (-1, buf) ∨
      ((replace_char buf line col text).1 = 0 ∧
        (replace_char buf line col text).2.modified = 1) := by
  rw [replace_char_eq]
  exact replace_at_position_shape buf line col 1 text

theorem delete_at_position_shape (buf : TextBuffer) (line col len : Int) :
    delete_at_position buf line col len = (-1, buf) ∨
      ((delete_at_position buf line col len).1 = 0 ∧
        (delete_at_position buf line col len).2.modified = 1) := by
  simp only [delete_at_position]
  split_ifs <;> simp

theorem delete_line_shape (buf : TextBuffer) (line : Int) :
    delete_line buf line = (-1, buf) ∨
      ((delete_line buf line).1 = 0 ∧ (delete_line buf line).2.modified = 1) := by
  simp only [delete_line]
  split_ifs <;> simp

theorem insert_at_position_loop_delegates (buf : TextBuffer) (pos : Int)
    (substr : Option CStr) :
    ∀ (fuel i : Nat) (cumulative : Int),
      (insert_at_position_loop buf pos substr fuel i cumulative).1 = none ∨
      ∃ l c, (insert_at_position_loop buf pos substr fuel i cumulative).1 =
        some (insert_substring buf l c substr) := by
  intro fuel
  induction fuel with
  | zero => intro i cumulative; left; rfl
  | succ f ih =>
    intro i cumulative
    unfold insert_at_position_loop
    split_ifs
    · right; exact ⟨_, _, rfl⟩
    · right; exact ⟨_, _, rfl⟩
    · exact ih _ _
    · exact ih _ _
    · left; rfl

/-- Source function `insert_at_position` either refuses, or hands over to `insert_line` at
index 0, or to `insert_substring` at some line and column. -/
theorem insert_at_position_delegates (buf : TextBuffer) (pos : Int) (substr : Option CStr) :
    insert_at_position buf pos substr = (-1, buf) ∨
    insert_at_position buf pos substr = insert_line buf 0 substr ∨
    ∃ l c, insert_at_position buf pos substr = insert_substring buf l c substr := by
  cases substr with
  | none => left; rfl
  | some t =>
    unfold insert_at_position
    simp only []
    split_ifs with h1 h2 h3
    · left; rfl
    · right; left; rfl
    · rcases insert_at_position_loop_delegates buf pos (some t) buf.line_count.toNat 0 0
        with hn | ⟨l, c, hs⟩
      · rw [hn]
        right; right; exact ⟨_, _, rfl⟩
      · rw [hs]
        right; right; exact ⟨l, c, rfl⟩
    · rcases insert_at_position_loop_delegates buf pos (some t) buf.line_count.toNat 0 0
        with hn | ⟨l, c, hs⟩
      · rw [hn]
        left; rfl
      · rw [hs]
        right; right; exact ⟨l, c, rfl⟩

theorem insert_at_position_shape (buf : TextBuffer) (pos : Int) (text : Option CStr) :
    insert_at_position buf pos text = (-1, buf) ∨
      ((insert_at_position buf pos text).1 = 0 ∧
        (insert_at_position buf pos text).2.modified = 1) := by
  rcases insert_at_position_delegates buf pos text with h | h | ⟨l, c, h⟩
  · left; exact h
  · rw [h]; exact insert_line_shape buf 0 text
  · rw [h]; exact insert_substring_shape buf l c text

theorem flag_of_shape (buf : TextBuffer) (r : Int × TextBuffer)
    (h : r = (-1, buf) ∨ (r.1 = 0 ∧ r.2.modified = 1)) :
    (r.2.modified ≠ 0 ↔ (buf.modified ≠ 0 ∨ r.1 = 0)) := by
  rcases h with h | ⟨h1, h2⟩
  · subst h
    simp
  · rw [h1, h2]
    simp

theorem unchanged_of_shape (buf : TextBuffer) (r : Int × TextBuffer)
    (h : r = (-1, buf) ∨ (r.1 = 0 ∧ r.2.modified = 1)) (hr : r.1 = -1) : r.2 = buf := by
  rcases h with h | ⟨h1, _⟩
  · subst h
    rfl
  · rw [h1] at hr
    exact absurd hr (by decide)

/-! ## replace_all: a count of zero means nothing was stored -/

theorem replace_all_scan_count_mono (old new : CStr) :
    ∀ (fuel : Nat) (last temp : CStr) (tl : Nat) (c : Int),
      c ≤ (replace_all_scan old new fuel last temp tl c).2.2.2 := by
  intro fuel
  induction fuel with
  | zero =>
    intro last temp tl c
    simp [replace_all_scan]
  | succ f ih =>
    intro last temp tl c
    cases hs : strstr last old with
    | none => simp [replace_all_scan, hs]
    | some k =>
      simp only [replace_all_scan, hs]
      split
      · exact le_refl _
      · have := ih (last.drop (k + old.length))
          (strcat_s (strncat_s temp (MAX_LINE_LENGTH + 1) last k) (MAX_LINE_LENGTH + 1) new)
          ((tl + k + new.length) % SIZE_MOD) (c + 1)
        omega

theorem lineReplaceCount_nonneg (old new line : CStr) : 0 ≤ lineReplaceCount old new line := by
  unfold lineReplaceCount replace_all_line
  exact replace_all_scan_count_mono old new _ _ _ _ _

theorem line_unchanged_of_no_count (old new line : CStr) (hl : line.length ≤ MAX_LINE_LENGTH)
    (h0 : lineReplaceCount old new line = 0) : lineAfterReplace old new line = line := by
  have hsz : MAX_LINE_LENGTH < SIZE_MOD := by decide
  unfold lineReplaceCount replace_all_line at h0
  unfold lineAfterReplace replace_all_line
  simp only [] at h0 ⊢
  cases hlen : line.length with
  | zero =>
    have hnil : line = [] := List.length_eq_zero.mp hlen
    subst hnil
    simp [replace_all_scan, replace_all_tail, strncat_s]
  | succ f =>
    rw [hlen] at h0
    cases hs : strstr line old with
    | none =>
      simp only [replace_all_scan, hs, replace_all_tail]
      rw [if_pos (by unfold MAX_LINE_LENGTH; omega), Nat.zero_add,
        Nat.mod_eq_of_lt (by omega), if_neg (by omega),
        strncat_s_fits _ _ _ (by simp only [List.length_take, List.length_nil]; omega)]
      simp
    | some k =>
      simp only [replace_all_scan, hs] at h0 ⊢
      by_cases hov : (0 + k + new.length) % SIZE_MOD > MAX_LINE_LENGTH
      · rw [if_pos hov]
        simp only [replace_all_tail]
        rw [if_neg (by omega), Nat.sub_zero,
          strncat_s_fits _ _ _ (by simp only [List.length_take, List.length_nil]; omega)]
        simp only [List.nil_append]
        exact List.take_of_length_le hl
      · rw [if_neg hov] at h0
        have := replace_all_scan_count_mono old new f (line.drop (k + old.length))
          (strcat_s (strncat_s [] (MAX_LINE_LENGTH + 1) line k) (MAX_LINE_LENGTH + 1) new)
          ((0 + k + new.length) % SIZE_MOD) (0 + 1)
        omega

theorem textBuffer_eq (a b : TextBuffer) (h1 : a.lines = b.lines)
    (h2 : a.line_count = b.line_count) (h3 : a.modified = b.modified)
    (h4 : a.filename = b.filename) : a = b := by
  cases a
  cases b
  simp only [TextBuffer.mk.injEq]
  exact ⟨h1, h2, h3, h4⟩

theorem sum_nonneg_zero :
    ∀ (l : List Int), (∀ a ∈ l, 0 ≤ a) → l.sum ≤ 0 → ∀ a ∈ l, a = 0 := by
  intro l hnn hs a ha
  have h1 := le_sum_of_mem_int l hnn a ha
  have h2 := hnn a ha
  omega

/-- Source function `replace_all` stores nothing when it returns zero or less. -/
theorem replace_all_unchanged (buf : TextBuffer) (old new : Option CStr) (hwf : buf.WF)
    (h : (replace_all buf old new).1 ≤ 0) : (replace_all buf old new).2 = buf := by
  cases old with
  | none => cases new <;> rfl
  | some o =>
    cases new with
    | none => rfl
    | some n =>
      by_cases hhead : o.getD 0 0 = 0
      · simp only [replace_all, if_pos hhead]
      · obtain ⟨hc, hlc, hfn, hlen, hget, hmod⟩ := replace_all_spec buf o n hwf hhead
        have hzero : ∀ k, k < buf.line_count.toNat →
            lineAfterReplace o n (buf.lines.getD k []) = buf.lines.getD k [] := by
          intro k hk
          apply line_unchanged_of_no_count _ _ _ (getD_length_le (WF_lengths hwf) k)
          apply sum_nonneg_zero _ _ (by rw [← hc]; exact h)
          · exact List.mem_map.2 ⟨k, List.mem_range.2 hk, rfl⟩
          · intro a ha
            obtain ⟨j, _, hj⟩ := List.mem_map.1 ha
            rw [← hj]
            exact lineReplaceCount_nonneg _ _ _
        apply textBuffer_eq _ _ _ hlc _ hfn
        · apply ext_getD [] hlen
          intro k _
          rw [hget k]
          split_ifs with hk
          · exact hzero k hk
          · rfl
        · rw [hmod, if_neg (by omega)]
          have hany : (List.range buf.line_count.toNat).any (fun k =>
              decide (buf.lines.getD k [] ≠ lineAfterReplace o n (buf.lines.getD k [])))
                = false := by
            rw [List.any_eq_false]
            intro k hk
            rw [hzero k (List.mem_range.1 hk)]
            simp
          rw [hany]
          rfl

theorem replace_all_flag (buf : TextBuffer) (old new : Option CStr)
    (h : (replace_all buf old new).1 > 0) : (replace_all buf old new).2.modified = 1 := by
  cases old with
  | none => cases new <;> simp [replace_all] at h
  | some o =>
    cases new with
    | none => simp [replace_all] at h
    | some n =>
      by_cases hhead : o.getD 0 0 = 0
      · simp only [replace_all, if_pos hhead] at h
        exact absurd h (by decide)
      · simp only [replace_all, if_neg hhead] at h ⊢
        rw [if_pos h]

theorem replace_all_flag_iff (buf : TextBuffer) (old new : Option CStr) (hwf : buf.WF) :
    (replace_all buf old new).2.modified ≠ 0 ↔
      (buf.modified ≠ 0 ∨ (replace_all buf old new).1 > 0) := by
  by_cases h : (replace_all buf old new).1 > 0
  · rw [replace_all_flag buf old new h]
    simp [h]
  · rw [replace_all_unchanged buf old new hwf (by omega)]
    simp [h]

theorem delete_substring_cases (buf : TextBuffer) (text : Option CStr) :
    delete_substring buf text = (-1, buf) ∨
      delete_substring buf text = replace_all buf text (some []) := by
  cases text with
  | none => left; rfl
  | some t =>
    unfold delete_substring
    simp only []
    split_ifs
    · left; rfl
    · right; rfl

/-! ## The modified flag and atomic failure -/

/-- C23: for each mutating operator the modified flag is set after the call exactly when it
was set before or the call reported success with effect: result 0 for `insert_line`,
`insert_substring`, `insert_at_position`, `replace_at_position`, `replace_char`,
`delete_at_position` and `delete_line`, a count above 0 for `replace_all` and
`delete_substring`.  `buffer_clear` leaves the buffer clean, with no line and no file name. -/
theorem C23_modified_flag (buf : TextBuffer) (hwf : buf.WF) (line col len pos : Int)
    (text old new : Option CStr) :
    ((insert_line buf line text).2.modified ≠ 0 ↔
      (buf.modified ≠ 0 ∨ (insert_line buf line text).1 = 0)) ∧
    ((insert_substring buf line col text).2.modified ≠ 0 ↔
      (buf.modified ≠ 0 ∨ (insert_substring buf line col text).1 = 0)) ∧
    ((insert_at_position buf pos text).2.modified ≠ 0 ↔
      (buf.modified ≠ 0 ∨ (insert_at_position buf pos text).1 = 0)) ∧
    ((replace_at_position buf line col len text).2.modified ≠ 0 ↔
      (buf.modified ≠ 0 ∨ (replace_at_position buf line col len text).1 = 0)) ∧
    ((replace_char buf line col text).2.modified ≠ 0 ↔
      (buf.modified ≠ 0 ∨ (replace_char buf line col text).1 = 0)) ∧
    ((delete_at_position buf line col len).2.modified ≠ 0 ↔
      (buf.modified ≠ 0 ∨ (delete_at_position buf line col len).1 = 0)) ∧
    ((delete_line buf line).2.modified ≠ 0 ↔
      (buf.modified ≠ 0 ∨ (delete_line buf line).1 = 0)) ∧
    ((replace_all buf old new).2.modified ≠ 0 ↔
      (buf.modified ≠ 0 ∨ (replace_all buf old new).1 > 0)) ∧
    ((delete_substring buf text).2.modified ≠ 0 ↔
      (buf.modified ≠ 0 ∨ (delete_substring buf text).1 > 0)) ∧
    (buffer_clear buf).modified = 0 ∧ (buffer_clear buf).line_count = 0 ∧
    (buffer_clear buf).filename = [] := by
  refine ⟨flag_of_shape buf _ (insert_line_shape buf line text),
    flag_of_shape buf _ (insert_substring_shape buf line col text),
    flag_of_shape buf _ (insert_at_position_shape buf pos text),
    flag_of_shape buf _ (replace_at_position_shape buf line col len text),
    flag_of_shape buf _ (replace_char_shape buf line col text),
    flag_of_shape buf _ (delete_at_position_shape buf line col len),
    flag_of_shape buf _ (delete_line_shape buf line),
    replace_all_flag_iff buf old new hwf, ?_, rfl, rfl, rfl⟩
  rcases delete_substring_cases buf text with h | h
  · rw [h]
    simp
  · rw [h]
    exact replace_all_flag_iff buf text (some []) hwf

theorem C23_modified_flag_witness :
    (bufferOfLines [[97], [98]]).WF ∧ (bufferOfLines [[97], [98]]).modified = 0 ∧
    (insert_line (bufferOfLines [[97], [98]]) 0 (some [99])).2.modified ≠ 0 ∧
    ¬ ((delete_line (bufferOfLines [[97], [98]]) 5).2.modified ≠ 0) ∧
    (replace_all (bufferOfLines [[97], [98]]) (some [97]) (some [120])).2.modified ≠ 0 ∧
    ¬ ((delete_substring (bufferOfLines [[97], [98]]) (some [122])).2.modified ≠ 0) := by
  have h := C23_modified_flag (bufferOfLines [[97], [98]]) sample_two_lines_WF 0 0 1 0
    (some [99]) (some [97]) (some [120])
  have h2 := C23_modified_flag (bufferOfLines [[97], [98]]) sample_two_lines_WF 5 0 1 0
    (some [122]) (some [97]) (some [120])
  refine ⟨sample_two_lines_WF, rfl, h.1.2 (Or.inr (by decide)), ?_,
    h.2.2.2.2.2.2.2.1.2 (Or.inr (by decide)), ?_⟩
  · rw [h2.2.2.2.2.2.2.1]
    decide
  · rw [h2.2.2.2.2.2.2.2.2.1]
    decide

/-- C25: a failed call changes nothing: when `replace_at_position`, `replace_char`,
`delete_at_position`, `delete_line` or `insert_at_position` returns -1, or `replace_all` or
`delete_substring` returns 0 or a negative value, the buffer afterwards (every line slot,
`line_count`, the modified flag and the file name) is the buffer before. -/
theorem C25_failure_is_atomic (buf : TextBuffer) (hwf : buf.WF) (line col len pos : Int)
    (text old new : Option CStr) :
    ((replace_at_position buf line col len text).1 = -1 →
      (replace_at_position buf line col len text).2 = buf) ∧
    ((replace_char buf line col text).1 = -1 → (replace_char buf line col text).2 = buf) ∧
    ((delete_at_position buf line col len).1 = -1 →
      (delete_at_position buf line col len).2 = buf) ∧
    ((delete_line buf line).1 = -1 → (delete_line buf line).2 = buf) ∧
    ((insert_at_position buf pos text).1 = -1 → (insert_at_position buf pos text).2 = buf) ∧
    ((replace_all buf old new).1 ≤ 0 → (replace_all buf old new).2 = buf) ∧
    ((delete_substring buf text).1 ≤ 0 → (delete_substring buf text).2 = buf) := by
  refine ⟨unchanged_of_shape buf _ (replace_at_position_shape buf line col len text),
    unchanged_of_shape buf _ (replace_char_shape buf line col text),
    unchanged_of_shape buf _ (delete_at_position_shape buf line col len),
    unchanged_of_shape buf _ (delete_line_shape buf line),
    unchanged_of_shape buf _ (insert_at_position_shape buf pos text),
    replace_all_unchanged buf old new hwf, ?_⟩
  intro h
  rcases delete_substring_cases buf text with hd | hd
  · rw [hd]
  · rw [hd] at h ⊢
    exact replace_all_unchanged buf text (some []) hwf h

theorem C25_failure_is_atomic_witness :
    (bufferOfLines [[97], [98]]).WF ∧
    (replace_at_position (bufferOfLines [[97], [98]]) 0 1 1 (some [99])).1 = -1 ∧
    (replace_at_position (bufferOfLines [[97], [98]]) 0 1 1 (some [99])).2 =
      bufferOfLines [[97], [98]] ∧
    (replace_all (bufferOfLines [[97], [98]]) (some [122]) (some [120])).1 = 0 ∧
    (replace_all (bufferOfLines [[97], [98]]) (some [122]) (some [120])).2 =
      bufferOfLines [[97], [98]] := by
  have h := C25_failure_is_atomic (bufferOfLines [[97], [98]]) sample_two_lines_WF 0 1 1 0
    (some [99]) (some [122]) (some [120])
  have e1 : (replace_at_position (bufferOfLines [[97], [98]]) 0 1 1 (some [99])).1 = -1 := by
    decide
  have e2 : (replace_all (bufferOfLines [[97], [98]]) (some [122]) (some [120])).1 = 0 := by
    decide
  exact ⟨sample_two_lines_WF, e1, h.1 e1, e2, h.2.2.2.2.2.1 (by rw [e2])⟩

/-! ## delete_substring against find_substring_count -/

theorem greedy_delete_length (old : CStr) :
    ∀ (fuel : Nat) (rest : CStr), (greedyReplace old [] fuel rest).1.length ≤ rest.length := by
  intro fuel
  induction fuel with
  | zero => intro rest; simp [greedyReplace]
  | succ f ih =>
    intro rest
    cases hs : strstr rest old with
    | none => simp [greedyReplace, hs]
    | some k =>
      simp only [greedyReplace, hs, List.append_nil, List.length_append, List.length_take]
      have h1 := (strstr_some old rest k hs).1
      have h2 := ih (rest.drop (k + old.length))
      rw [List.length_drop] at h2
      omega

theorem occursAt_drop (p t : CStr) (a s : Nat) :
    occursAt p t (a + s) = occursAt p (t.drop a) s := by
  unfold occursAt
  rw [List.drop_drop]

theorem occurrences_split (p t : CStr) (a : Nat) (ha : a ≤ t.length) :
    ((List.range t.length).filter (occursAt p t)).length =
      ((List.range a).filter (occursAt p t)).length +
        ((List.range (t.drop a).length).filter (occursAt p (t.drop a))).length := by
  have e : t.length = a + (t.drop a).length := by rw [List.length_drop]; omega
  conv_lhs => rw [e, List.range_add, List.filter_append, List.length_append, List.filter_map,
    List.length_map]
  congr 3
  funext s
  exact occursAt_drop p t a s

theorem greedy_count_le_occurrences (old new : CStr) (hold : 1 ≤ old.length) :
    ∀ (fuel : Nat) (rest : CStr),
      (greedyReplace old new fuel rest).2 ≤ (occurrences old rest).length := by
  intro fuel
  induction fuel with
  | zero => intro rest; simp [greedyReplace]
  | succ f ih =>
    intro rest
    cases hs : strstr rest old with
    | none => simp [greedyReplace, hs]
    | some k =>
      simp only [greedyReplace, hs]
      obtain ⟨h1, h2, _⟩ := strstr_some old rest k hs
      have hk : k ∈ (List.range (k + old.length)).filter (occursAt old rest) := by
        rw [List.mem_filter]
        exact ⟨List.mem_range.2 (by omega), by unfold occursAt; exact decide_eq_true h2⟩
      have hpos := List.length_pos_of_mem hk
      have hsplit := occurrences_split old rest (k + old.length) h1
      have hi := ih (rest.drop (k + old.length))
      unfold occurrences at hi ⊢
      omega

theorem filter_range_single (P : Nat → Bool) (k : Nat) :
    ∀ n, k < n → (∀ j, j < n → (P j = true ↔ j = k)) →
      ((List.range n).filter P).length = 1 := by
  intro n
  induction n with
  | zero => intro hk; omega
  | succ n ih =>
    intro hk hP
    rw [List.range_succ, List.filter_append, List.length_append]
    by_cases hkn : k = n
    · have hnone : (List.range n).filter P = [] := by
        rw [List.filter_eq_nil_iff]
        intro j hj
        have hjn := List.mem_range.1 hj
        rw [hP j (by omega)]
        omega
      have hn : P n = true := (hP n (by omega)).2 hkn.symm
      rw [hnone, List.filter_cons_of_pos hn]
      rfl
    · have hn : ¬ (P n = true) := fun h => hkn ((hP n (by omega)).1 h).symm
      rw [ih (by omega) (fun j hj => hP j (by omega)), List.filter_cons_of_neg hn]
      rfl

theorem greedy_count_eq_occurrences (old new : CStr) (hold : 1 ≤ old.length) :
    ∀ (fuel : Nat) (rest : CStr), rest.length ≤ fuel → NoOverlap old rest →
      (greedyReplace old new fuel rest).2 = (occurrences old rest).length := by
  intro fuel
  induction fuel with
  | zero =>
    intro rest hl _
    have hnil : rest = [] := List.length_eq_zero.mp (by omega)
    subst hnil
    rfl
  | succ f ih =>
    intro rest hl hno
    cases hs : strstr rest old with
    | none =>
      simp only [greedyReplace, hs]
      have hnone : occurrences old rest = [] := by
        unfold occurrences
        rw [List.filter_eq_nil_iff]
        intro j _
        unfold occursAt
        rw [decide_eq_true_eq]
        exact strstr_none old rest hs j
      rw [hnone]
      rfl
    | some k =>
      simp only [greedyReplace, hs]
      obtain ⟨h1, h2, h3⟩ := strstr_some old rest k hs
      have hocc : occursAt old rest k = true := by unfold occursAt; exact decide_eq_true h2
      have hone : ((List.range (k + old.length)).filter (occursAt old rest)).length = 1 := by
        apply filter_range_single _ k _ (by omega)
        intro j hj
        constructor
        · intro hoj
          by_contra hne
          rcases Nat.lt_or_gt_of_ne hne with hlt | hgt
          · apply h3 j hlt
            unfold occursAt at hoj
            exact of_decide_eq_true hoj
          · have := hno k j hocc hoj hgt
            omega
        · intro hjk
          rw [hjk]
          exact hocc
      have hsplit := occurrences_split old rest (k + old.length) h1
      have hno2 : NoOverlap old (rest.drop (k + old.length)) := by
        intro s1 s2 ho1 ho2 hlt
        rw [← occursAt_drop] at ho1 ho2
        have := hno _ _ ho1 ho2 (by omega)
        omega
      have hi := ih (rest.drop (k + old.length)) (by rw [List.length_drop]; omega) hno2
      unfold occurrences at hi ⊢
      omega

theorem delete_line_count (p line : CStr) (hp : 1 ≤ p.length)
    (hl : line.length ≤ MAX_LINE_LENGTH) :
    lineReplaceCount p [] line = ((greedyLine p [] line).2 : Int) :=
  (lineAfterReplace_greedy p [] line hp
    (le_trans (greedy_delete_length p line.length line) hl)).2

theorem find_substring_count_sum (buf : TextBuffer) (p : CStr) (hwf : buf.WF) (hne : p ≠ [])
    (hb : ∀ b ∈ p, b ≠ 0) :
    find_substring_count buf (some p) =
      ((List.range buf.line_count.toNat).map
        (fun k => ((occurrences p (buf.lines.getD k [])).length : Int))).sum := by
  rw [find_substring_count_eq buf p hne hb]
  unfold bufferOccurrences
  rw [bufferOccurrencesUpTo_length p buf _ (WF_count_le hwf),
    ← map_range_getD buf.lines [] (fun line => ((occurrences p line).length : Int)) _
      (WF_count_le hwf)]

theorem delete_substring_sum (buf : TextBuffer) (p : CStr) (hwf : buf.WF) (hne : p ≠ [])
    (hb : ∀ b ∈ p, b ≠ 0) :
    (delete_substring buf (some p)).1 =
      ((List.range buf.line_count.toNat).map
        (fun k => ((greedyLine p [] (buf.lines.getD k [])).2 : Int))).sum := by
  have hhead := head_ne_zero p hne hb
  have hp := length_pos_of_ne_nil p hne
  simp only [delete_substring, if_neg hhead]
  rw [(replace_all_spec buf p [] hwf hhead).1]
  congr 1
  apply List.map_congr_left
  intro k _
  exact delete_line_count p _ hp (getD_length_le (WF_lengths hwf) k)

/-- C29: for a non-empty text, with f the value of `find_substring_count` on the buffer and d
the value `delete_substring` then returns: 0 ≤ d ≤ f, and d = 0 exactly when f = 0.  d is
smaller than f only when occurrences overlap: when no two occurrences in a line overlap,
d = f. -/
theorem C29_delete_count_le_find_count (buf : TextBuffer) (text : CStr) (hwf : buf.WF)
    (hne : text ≠ []) (hb : ∀ b ∈ text, b ≠ 0) :
    0 ≤ (delete_substring buf (some text)).1 ∧
    (delete_substring buf (some text)).1 ≤ find_substring_count buf (some text) ∧
    ((delete_substring buf (some text)).1 = 0 ↔ find_substring_count buf (some text) = 0) ∧
    ((∀ k : Nat, (k : Int) < buf.line_count → NoOverlap text (buf.lines.getD k [])) →
      (delete_substring buf (some text)).1 = find_substring_count buf (some text)) := by
  have hp := length_pos_of_ne_nil text hne
  rw [delete_substring_sum buf text hwf hne hb, find_substring_count_sum buf text hwf hne hb]
  have hnn : 0 ≤ ((List.range buf.line_count.toNat).map
      (fun k => ((greedyLine text [] (buf.lines.getD k [])).2 : Int))).sum := by
    apply List.sum_nonneg
    intro a ha
    obtain ⟨k, _, hk⟩ := List.mem_map.1 ha
    rw [← hk]
    exact Int.ofNat_nonneg _
  have hle : ((List.range buf.line_count.toNat).map
      (fun k => ((greedyLine text [] (buf.lines.getD k [])).2 : Int))).sum ≤
      ((List.range buf.line_count.toNat).map
        (fun k => ((occurrences text (buf.lines.getD k [])).length : Int))).sum := by
    apply List.sum_le_sum
    intro k _
    exact Int.ofNat_le.2 (greedy_count_le_occurrences text [] hp _ _)
  refine ⟨hnn, hle, ⟨fun hd => ?_, fun hf => by omega⟩, fun hno => ?_⟩
  · apply List.sum_eq_zero
    intro a ha
    obtain ⟨k, hk, hka⟩ := List.mem_map.1 ha
    rw [← hka]
    have hg := sum_nonneg_zero _
      (by
        intro a ha
        obtain ⟨j, _, hj⟩ := List.mem_map.1 ha
        rw [← hj]
        exact Int.ofNat_nonneg _)
      (le_of_eq hd) _ (List.mem_map.2 ⟨k, hk, rfl⟩)
    cases hocc : occurrences text (buf.lines.getD k []) with
    | nil => rfl
    | cons s tl =>
      have hs : s ∈ occurrences text (buf.lines.getD k []) := by rw [hocc]; simp
      unfold occurrences at hs
      have := greedyLine_count_pos text [] (buf.lines.getD k []) hp s (List.mem_filter.1 hs).2
      omega
  · congr 1
    apply List.map_congr_left
    intro k hk
    have hkl := List.mem_range.1 hk
    rw [greedyLine, greedy_count_eq_occurrences text [] hp _ _ (le_refl _)
      (hno k (by omega))]

theorem C29_delete_count_le_find_count_witness :
    (bufferOfLines [[97, 97, 97]]).WF ∧ ([97, 97] : CStr) ≠ [] ∧
    (∀ b ∈ ([97, 97] : CStr), b ≠ 0) ∧
    find_substring_count (bufferOfLines [[97, 97, 97]]) (some [97, 97]) = 2 ∧
    (delete_substring (bufferOfLines [[97, 97, 97]]) (some [97, 97])).1 = 1 ∧
    (delete_substring (bufferOfLines [[97, 97, 97]]) (some [97, 97])).1 ≤
      find_substring_count (bufferOfLines [[97, 97, 97]]) (some [97, 97]) :=
  ⟨sample_aaa_WF, by decide, by decide, by decide, by decide,
    (C29_delete_count_le_find_count (bufferOfLines [[97, 97, 97]]) [97, 97] sample_aaa_WF
      (by decide) (by decide)).2.1⟩

/-! ## Positional operators keep lines well-formed -/

theorem insert_substring_decomp (buf : TextBuffer) (line : Int) (t : Nat) (text : CStr)
    (cs : List CStr) (hl0 : 0 ≤ line) (hl1 : line < buf.line_count)
    (hdec : IsUtf8Decomposition cs (buf.lines.getD line.toNat []))
    (ht : t ≤ cs.length)
    (hcap : (buf.lines.getD line.toNat []).length + text.length ≤ MAX_LINE_LENGTH) :
    insert_substring buf line (t : Int) (some text) =
      (0, { buf with
              lines := buf.lines.set line.toNat
                ((cs.take t).flatten ++ text ++ (cs.drop t).flatten),
              modified := 1 }) := by
  have hbo := utf8_byte_offset_decomp cs _ hdec t ht
  have hsplit : buf.lines.getD line.toNat []
      = (cs.take t).flatten ++ [] ++ (cs.drop t).flatten := by
    rw [List.append_nil, ← List.flatten_append, List.take_append_drop]
    exact hdec.1
  have a1 : ¬ (line < 0 ∨ line ≥ buf.line_count) := by omega
  have a2 : ¬ (((cs.take t).flatten.length : Int) < 0) := by omega
  have a3 : ¬ ((buf.lines.getD line.toNat []).length + text.length > MAX_LINE_LENGTH) := by
    omega
  have hcur : ((cs.take t).flatten ++ [] ++ (cs.drop t).flatten).length ≤ MAX_LINE_LENGTH := by
    rw [← hsplit]; omega
  have hfit : (cs.take t).flatten.length + text.length + (cs.drop t).flatten.length
      ≤ MAX_LINE_LENGTH := by
    have := congrArg List.length hsplit
    simp only [List.length_append, List.length_nil] at this
    omega
  have hsp := splice_fits (cs.take t).flatten [] (cs.drop t).flatten text hcur hfit
  simp only [List.length_nil, Nat.add_zero] at hsp
  rw [← hsplit] at hsp
  simp only [insert_substring, if_neg a1, hbo, if_neg a2, if_neg a3, Int.toNat_ofNat, hsp]

theorem wellFormed_splice (cs tcs : List CStr) (a b : Nat)
    (hcs : ∀ c ∈ cs, isUtf8Seq c = true) (htcs : ∀ c ∈ tcs, isUtf8Seq c = true) :
    WellFormedUtf8 ((cs.take a).flatten ++ tcs.flatten ++ (cs.drop b).flatten) := by
  refine ⟨cs.take a ++ tcs ++ cs.drop b, ?_, ?_⟩
  · rw [List.flatten_append, List.flatten_append]
  · intro c hc
    rcases List.mem_append.1 hc with h | h
    · rcases List.mem_append.1 h with h | h
      · exact hcs c (List.mem_of_mem_take h)
      · exact htcs c h
    · exact hcs c (List.mem_of_mem_drop h)

theorem wellFormed_after_set (buf : TextBuffer) (line : Int) (v : CStr)
    (hutf : ∀ i : Nat, (i : Int) < buf.line_count → WellFormedUtf8 (buf.lines.getD i []))
    (hv : WellFormedUtf8 v) :
    ∀ i : Nat, (i : Int) < buf.line_count →
      WellFormedUtf8 ((buf.lines.set line.toNat v).getD i []) := by
  intro i hi
  rw [getD_set_slot]
  split_ifs
  · exact hv
  · exact hutf i hi

theorem replace_at_position_guards (buf : TextBuffer) (line col len : Int) (text : CStr)
    (h : (replace_at_position buf line col len (some text)).1 = 0) :
    0 ≤ line ∧ line < buf.line_count ∧ 0 ≤ len ∧ 0 ≤ col ∧
      col < utf8_strlen_chars (buf.lines.getD line.toNat []) := by
  have hne : ¬ ((-1 : Int) = 0) := by decide
  by_cases g1 : line < 0 ∨ line ≥ buf.line_count
  · simp only [replace_at_position, if_pos g1] at h
    exact absurd h hne
  · by_cases g2 : len < 0
    · simp only [replace_at_position, if_neg g1, if_pos g2] at h
      exact absurd h hne
    · by_cases g3 : col < 0 ∨ col ≥ utf8_strlen_chars (buf.lines.getD line.toNat [])
      · simp only [replace_at_position, if_neg g1, if_neg g2, if_pos g3] at h
        exact absurd h hne
      · omega

theorem delete_at_position_guards (buf : TextBuffer) (line col len : Int)
    (h : (delete_at_position buf line col len).1 = 0) :
    0 ≤ line ∧ line < buf.line_count ∧ 0 ≤ len ∧ 0 ≤ col ∧
      col < utf8_strlen_chars (buf.lines.getD line.toNat []) := by
  have hne : ¬ ((-1 : Int) = 0) := by decide
  by_cases g1 : line < 0 ∨ line ≥ buf.line_count
  · simp only [delete_at_position, if_pos g1] at h
    exact absurd h hne
  · by_cases g2 : len < 0
    · simp only [delete_at_position, if_neg g1, if_pos g2] at h
      exact absurd h hne
    · by_cases g3 : col < 0 ∨ col ≥ utf8_strlen_chars (buf.lines.getD line.toNat [])
      · simp only [delete_at_position, if_neg g1, if_neg g2, if_pos g3] at h
        exact absurd h hne
      · omega

theorem insert_substring_keeps_utf8 (buf : TextBuffer) (line col : Int) (text : CStr)
    (hutf : ∀ i : Nat, (i : Int) < buf.line_count → WellFormedUtf8 (buf.lines.getD i []))
    (htext : WellFormedUtf8 text)
    (h : (insert_substring buf line col (some text)).1 = 0) :
    ∀ i : Nat, (i : Int) < (insert_substring buf line col (some text)).2.line_count →
      WellFormedUtf8 ((insert_substring buf line col (some text)).2.lines.getD i []) := by
  have hne : ¬ ((-1 : Int) = 0) := by decide
  rcases insert_substring_cases buf line col text with ⟨_, hf⟩ | ⟨⟨h0, h1, hbo, hcap⟩, _⟩
  · rw [hf] at h
    exact absurd h hne
  · obtain ⟨cs, hdec⟩ := hutf line.toNat (by omega)
    obtain ⟨tcs, htd⟩ := htext
    have hcol := (utf8_byte_offset_nonneg_iff _ col).1 hbo
    rw [utf8_strlen_chars_decomp cs _ hdec] at hcol
    have hc : col = ((col.toNat : Nat) : Int) := by omega
    rw [hc, insert_substring_decomp buf line col.toNat text cs h0 h1 hdec (by omega) hcap]
    simp only []
    apply wellFormed_after_set buf line _ hutf
    rw [htd.1]
    exact wellFormed_splice cs tcs _ _ hdec.2 htd.2

theorem replace_at_position_keeps_utf8 (buf : TextBuffer) (line col len : Int) (text : CStr)
    (hwf : buf.WF) (hint : len ≤ INT_MAX) (haddr : InAddressSpace text)
    (hutf : ∀ i : Nat, (i : Int) < buf.line_count → WellFormedUtf8 (buf.lines.getD i []))
    (htext : WellFormedUtf8 text)
    (h : (replace_at_position buf line col len (some text)).1 = 0) :
    ∀ i : Nat, (i : Int) < (replace_at_position buf line col len (some text)).2.line_count →
      WellFormedUtf8 ((replace_at_position buf line col len (some text)).2.lines.getD i []) := by
  have hne : ¬ ((-1 : Int) = 0) := by decide
  obtain ⟨h0, h1, hlen, hc0, hc1⟩ := replace_at_position_guards buf line col len text h
  obtain ⟨cs, hdec⟩ := hutf line.toNat (by omega)
  obtain ⟨tcs, htd⟩ := htext
  rw [utf8_strlen_chars_decomp cs _ hdec] at hc1
  have hc : col = ((col.toNat : Nat) : Int) := by omega
  rw [hc] at h ⊢
  rw [replace_at_position_decomp buf line col.toNat len text cs hwf h0 h1 hdec (by omega) hlen
    hint haddr] at h ⊢
  split_ifs at h ⊢ with hfit
  · simp only []
    apply wellFormed_after_set buf line _ hutf
    rw [htd.1]
    exact wellFormed_splice cs tcs _ _ hdec.2 htd.2
  · exact absurd h hne

theorem delete_at_position_keeps_utf8 (buf : TextBuffer) (line col len : Int)
    (hwf : buf.WF) (hint : len ≤ INT_MAX)
    (hutf : ∀ i : Nat, (i : Int) < buf.line_count → WellFormedUtf8 (buf.lines.getD i []))
    (h : (delete_at_position buf line col len).1 = 0) :
    ∀ i : Nat, (i : Int) < (delete_at_position buf line col len).2.line_count →
      WellFormedUtf8 ((delete_at_position buf line col len).2.lines.getD i []) := by
  obtain ⟨h0, h1, hlen, hc0, hc1⟩ := delete_at_position_guards buf line col len h
  obtain ⟨cs, hdec⟩ := hutf line.toNat (by omega)
  rw [utf8_strlen_chars_decomp cs _ hdec] at hc1
  have hc : col = ((col.toNat : Nat) : Int) := by omega
  rw [hc, delete_at_position_decomp buf line col.toNat len cs hwf h0 h1 hdec (by omega) hlen
    hint]
  simp only []
  apply wellFormed_after_set buf line _ hutf
  have := wellFormed_splice cs [] col.toNat
    (col.toNat + min len.toNat (cs.length - col.toNat)) hdec.2 (by simp)
  simpa using this

/-- C28: on a buffer whose lines are well-formed UTF-8, with a well-formed UTF-8 text
argument, after a successful `insert_substring`, `replace_at_position`, `replace_char` or
`delete_at_position` every line of the buffer is still a well-formed UTF-8 string. -/
theorem C28_positional_ops_keep_utf8 (buf : TextBuffer) (line col len : Int) (text : CStr)
    (hwf : buf.WF) (hint : len ≤ INT_MAX) (haddr : InAddressSpace text)
    (hutf : ∀ i : Nat, (i : Int) < buf.line_count → WellFormedUtf8 (buf.lines.getD i []))
    (htext : WellFormedUtf8 text) :
    ((insert_substring buf line col (some text)).1 = 0 →
      ∀ i : Nat, (i : Int) < (insert_substring buf line col (some text)).2.line_count →
        WellFormedUtf8 ((insert_substring buf line col (some text)).2.lines.getD i [])) ∧
    ((replace_at_position buf line col len (some text)).1 = 0 →
      ∀ i : Nat, (i : Int) < (replace_at_position buf line col len (some text)).2.line_count →
        WellFormedUtf8
          ((replace_at_position buf line col len (some text)).2.lines.getD i [])) ∧
    ((replace_char buf line col (some text)).1 = 0 →
      ∀ i : Nat, (i : Int) < (replace_char buf line col (some text)).2.line_count →
        WellFormedUtf8 ((replace_char buf line col (some text)).2.lines.getD i [])) ∧
    ((delete_at_position buf line col len).1 = 0 →
      ∀ i : Nat, (i : Int) < (delete_at_position buf line col len).2.line_count →
        WellFormedUtf8 ((delete_at_position buf line col len).2.lines.getD i [])) := by
  refine ⟨insert_substring_keeps_utf8 buf line col text hutf htext,
    replace_at_position_keeps_utf8 buf line col len text hwf hint haddr hutf htext, ?_,
    delete_at_position_keeps_utf8 buf line col len hwf hint hutf⟩
  rw [replace_char_eq]
  exact replace_at_position_keeps_utf8 buf line col 1 text hwf (by decide) haddr hutf htext

theorem C28_positional_ops_keep_utf8_witness :
    (bufferOfLines [[228, 184, 173, 97]]).WF ∧ WellFormedUtf8 [0xC3, 0xA9] ∧
    (replace_char (bufferOfLines [[228, 184, 173, 97]]) 0 0 (some [0xC3, 0xA9])).1 = 0 ∧
    (replace_char (bufferOfLines [[228, 184, 173, 97]]) 0 0 (some [0xC3, 0xA9])).2.lines.getD
      0 [] = [0xC3, 0xA9, 97] ∧
    WellFormedUtf8
      ((replace_char (bufferOfLines [[228, 184, 173, 97]]) 0 0
        (some [0xC3, 0xA9])).2.lines.getD 0 []) := by
  have ht : WellFormedUtf8 [0xC3, 0xA9] := ⟨[[0xC3, 0xA9]], rfl, by decide⟩
  have e : (replace_char (bufferOfLines [[228, 184, 173, 97]]) 0 0
      (some [0xC3, 0xA9])).1 = 0 := by decide
  exact ⟨sample_utf8_WF, ht, e, by decide,
    (C28_positional_ops_keep_utf8 (bufferOfLines [[228, 184, 173, 97]]) 0 0 1 [0xC3, 0xA9]
      sample_utf8_WF (by decide) (by decide) sample_utf8_wellFormed ht).2.2.1 e 0
      (by decide)⟩

/-! ## Truncation and codepoint boundaries -/

theorem insert_line_stored (buf : TextBuffer) (index : Int) (text : CStr)
    (hwf : buf.WF) (hcount : buf.line_count < MAX_LINES)
    (h0 : 0 ≤ index) (h1 : index ≤ buf.line_count) :
    (insert_line buf index (some text)).1 = 0 ∧
    get_line (insert_line buf index (some text)).2 index =
      some (text.take MAX_LINE_LENGTH) ∧
    (insert_line buf index (some text)).2.lines.getD index.toNat [] =
      text.take MAX_LINE_LENGTH := by
  obtain ⟨n, rfl⟩ : ∃ n : Nat, index = (n : Int) := ⟨index.toNat, by omega⟩
  have hslot := insert_line_slots buf n text hwf hcount h1
  rw [insert_line_success buf n text hcount h0 h1]
  simp only [Int.toNat_ofNat]
  have a : ¬ ((n : Int) < 0 ∨ (n : Int) ≥ buf.line_count + 1) := by omega
  refine ⟨trivial, ?_, ?_⟩
  · simp only [get_line, if_neg a, Int.toNat_ofNat]
    rw [hslot n, if_neg (lt_irrefl n), if_pos rfl]
  · rw [hslot n, if_neg (lt_irrefl n), if_pos rfl]

theorem isUtf8Seq_last (c : CStr) (h : isUtf8Seq c = true) :
    ∃ b, c.getLast? = some b ∧ b ≤ 0xBF := by
  rcases c with _ | ⟨b0, _ | ⟨b1, _ | ⟨b2, _ | ⟨b3, _ | ⟨b4, tl⟩⟩⟩⟩⟩
  · simp [isUtf8Seq] at h
  · refine ⟨b0, rfl, ?_⟩
    simp [isUtf8Seq] at h
    omega
  · refine ⟨b1, rfl, ?_⟩
    simp [isUtf8Seq, isCont] at h
    omega
  · refine ⟨b2, rfl, ?_⟩
    simp [isUtf8Seq, isCont] at h
    omega
  · refine ⟨b3, rfl, ?_⟩
    simp [isUtf8Seq, isCont] at h
    omega
  · simp [isUtf8Seq] at h

/-- A well-formed UTF-8 string ends with an ASCII byte or a continuation byte, never with a
lead byte. -/
theorem wellFormed_last (s : CStr) (h : WellFormedUtf8 s) (b : Nat)
    (hb : s.getLast? = some b) : b ≤ 0xBF := by
  obtain ⟨cs, hs, hcs⟩ := h
  subst hs
  induction cs with
  | nil => simp at hb
  | cons c tl ih =>
    rw [List.flatten_cons] at hb
    by_cases hnil : tl.flatten = []
    · rw [hnil, List.append_nil] at hb
      obtain ⟨b', hb1, hb2⟩ := isUtf8Seq_last c (hcs c (List.mem_cons_self _ _))
      rw [hb1] at hb
      have : b' = b := Option.some.inj hb
      omega
    · rw [List.getLast?_append_of_ne_nil _ hnil] at hb
      exact ih (fun c hc => hcs c (List.mem_cons_of_mem _ hc)) hb

theorem wellFormed_take_boundary (content : CStr) (cs : List CStr) (t : Nat)
    (hdec : IsUtf8Decomposition cs content)
    (ht : (cs.take t).flatten.length = MAX_LINE_LENGTH) :
    WellFormedUtf8 (content.take MAX_LINE_LENGTH) := by
  refine ⟨cs.take t, ?_, fun c hc => hdec.2 c (List.mem_of_mem_take hc)⟩
  have hsplit : content = (cs.take t).flatten ++ (cs.drop t).flatten := by
    rw [← List.flatten_append, List.take_append_drop]
    exact hdec.1
  rw [hsplit, ← ht, List.take_left]

/-- The scan of `replace_all` when, after `n` greedy steps, no occurrence is left. -/
theorem replace_all_scan_done (old new : CStr) (hold : 1 ≤ old.length) :
    ∀ (n fuel : Nat) (last temp out rest : CStr),
      last.length ≤ fuel → last.length ≤ MAX_LINE_LENGTH →
      greedySteps old new n last = some (out, rest) →
      temp.length + out.length ≤ MAX_LINE_LENGTH →
      strstr rest old = none →
      replace_all_scan old new fuel last temp temp.length 0 =
        (temp ++ out, (temp ++ out).length, rest, (n : Int)) := by
  have hsz : MAX_LINE_LENGTH < SIZE_MOD := by decide
  intro n
  induction n with
  | zero =>
    intro fuel last temp out rest hf hl hsteps hfit hnext
    simp only [greedySteps, Option.some.injEq, Prod.mk.injEq] at hsteps
    obtain ⟨rfl, rfl⟩ := hsteps
    cases fuel with
    | zero => simp [replace_all_scan]
    | succ f => simp [replace_all_scan, hnext]
  | succ n ih =>
    intro fuel last temp out rest hf hl hsteps hfit hnext
    cases hs : strstr last old with
    | none => simp [greedySteps, hs] at hsteps
    | some k0 =>
      simp only [greedySteps, hs, Option.map_eq_some'] at hsteps
      obtain ⟨r, hr, he⟩ := hsteps
      simp only [Prod.mk.injEq] at he
      obtain ⟨he1, he2⟩ := he
      obtain ⟨hk0, _, _⟩ := strstr_some old last k0 hs
      obtain ⟨f, rfl⟩ : ∃ f, fuel = f + 1 := ⟨fuel - 1, by omega⟩
      have hkl : (last.take k0).length = k0 := strstr_take_length old last k0 hs
      have hout : out.length = k0 + new.length + r.1.length := by
        rw [← he1]
        simp only [List.length_append, hkl]
      have hmod : (temp.length + k0 + new.length) % SIZE_MOD = temp.length + k0 + new.length :=
        Nat.mod_eq_of_lt (by omega)
      have ht1 : strncat_s temp (MAX_LINE_LENGTH + 1) last k0 = temp ++ last.take k0 :=
        strncat_s_fits _ _ _ (by rw [hkl]; omega)
      have ht2 : strcat_s (temp ++ last.take k0) (MAX_LINE_LENGTH + 1) new
          = temp ++ last.take k0 ++ new :=
        strcat_s_fits _ _ (by simp only [List.length_append, hkl]; omega)
      have hlen2 : (temp ++ last.take k0 ++ new).length = temp.length + k0 + new.length := by
        simp only [List.length_append, hkl]
      simp only [replace_all_scan, hs, hmod]
      rw [if_neg (by omega), ht1, ht2, ← hlen2, replace_all_scan_count old new f _ _ _ (0 + 1),
        ih f (last.drop (k0 + old.length)) (temp ++ last.take k0 ++ new) r.1 rest
          (by simp only [List.length_drop]; omega) (by simp only [List.length_drop]; omega)
          (by rw [hr, ← he2]) (by rw [hlen2]; omega) hnext]
      simp only [Prod.mk.injEq]
      refine ⟨?_, ?_, trivial, ?_⟩
      · rw [← he1]
        simp only [List.append_assoc]
      · rw [← he1]
        simp only [List.append_assoc]
      · push_cast
        omega

/-- The line `replace_all` stores is the first `MAX_LINE_LENGTH` bytes of the replacement
output followed by the unprocessed remainder, whether it stops because no occurrence is left
or because the next replacement would exceed the capacity. -/
theorem lineAfterReplace_cut (old new line : CStr) (hold : 1 ≤ old.length)
    (hnew : NoWrapInReplace new) (hl : line.length ≤ MAX_LINE_LENGTH)
    (n : Nat) (out rest : CStr)
    (hsteps : greedySteps old new n line = some (out, rest))
    (hout : out.length ≤ MAX_LINE_LENGTH)
    (hstop : strstr rest old = none ∨
      ∃ k, strstr rest old = some k ∧ out.length + k + new.length > MAX_LINE_LENGTH) :
    lineAfterReplace old new line = (out ++ rest).take MAX_LINE_LENGTH := by
  have hsz : 2 * MAX_LINE_LENGTH < SIZE_MOD := by decide
  have htake : (out ++ rest).take MAX_LINE_LENGTH =
      out ++ rest.take (MAX_LINE_LENGTH - out.length) := by
    rw [List.take_append_eq_append_take, List.take_of_length_le hout]
  rw [htake]
  rcases hstop with hnone | ⟨k, hk, hover⟩
  · have hrest := greedySteps_rest_length old new hold n line out rest hsteps
    have hscan := replace_all_scan_done old new hold n line.length line [] out rest
      (le_refl _) hl hsteps (by simpa using hout) hnone
    simp only [List.length_nil, List.nil_append] at hscan
    unfold lineAfterReplace replace_all_line
    simp only []
    rw [hscan]
    simp only [replace_all_tail]
    by_cases hfull : out.length < MAX_LINE_LENGTH
    · rw [if_pos hfull, Nat.mod_eq_of_lt (by omega)]
      by_cases hbig : out.length + rest.length > MAX_LINE_LENGTH
      · rw [if_pos hbig, strncat_s_fits _ _ _ (by rw [List.length_take]; omega)]
      · rw [if_neg hbig, strncat_s_fits _ _ _ (by rw [List.length_take]; omega),
          List.take_of_length_le (le_refl _), List.take_of_length_le (by omega)]
    · rw [if_neg hfull]
      have : MAX_LINE_LENGTH - out.length = 0 := by omega
      rw [this, List.take_zero, List.append_nil]
  · exact (lineAfterReplace_overflow old new line hold hnew hl n k out rest hsteps hout hk
      hover).1

theorem flatten_replicate_singleton (a : Nat) :
    ∀ n : Nat, (List.replicate n [a] : List CStr).flatten = List.replicate n a := by
  intro n
  induction n with
  | zero => rfl
  | succ n ih =>
    rw [List.replicate_succ, List.flatten_cons, ih]
    rfl

theorem ascii_run_decomposition (n : Nat) (tl : List CStr)
    (htl : ∀ c ∈ tl, isUtf8Seq c = true) :
    IsUtf8Decomposition (List.replicate n [97] ++ tl) (List.replicate n 97 ++ tl.flatten) := by
  refine ⟨?_, ?_⟩
  · rw [List.flatten_append, flatten_replicate_singleton]
  · intro c hc
    rcases List.mem_append.1 hc with h | h
    · rw [(List.mem_replicate.1 h).2]
      rfl
    · exact htl c h

/-- A text of `MAX_LINE_LENGTH - 1` ASCII bytes followed by the three bytes of U+4E2D is
well-formed; its first `MAX_LINE_LENGTH` bytes end with the lead byte `E4` and are not. -/
theorem cut_text_example (n : Nat) (hn : n + 1 = MAX_LINE_LENGTH) :
    WellFormedUtf8 (List.replicate n 97 ++ [0xE4, 0xB8, 0xAD]) ∧
    (List.replicate n 97 ++ [0xE4, 0xB8, 0xAD]).take MAX_LINE_LENGTH =
      List.replicate n 97 ++ [0xE4] ∧
    ¬ WellFormedUtf8 (List.replicate n 97 ++ [0xE4]) := by
  refine ⟨⟨_, ascii_run_decomposition n [[0xE4, 0xB8, 0xAD]] (by decide)⟩, ?_, ?_⟩
  · rw [← hn, List.take_append_eq_append_take, List.length_replicate,
      List.take_of_length_le (by rw [List.length_replicate]; omega),
      show n + 1 - n = 1 by omega]
    rfl
  · intro hwf
    have := wellFormed_last _ hwf 0xE4 (by simp)
    omega

/-- C24 fails as stated: the buffer holds one well-formed line and the text, 4095 bytes "a"
followed by the three bytes of U+4E2D, is well-formed UTF-8; `insert_line` stores its first
4096 bytes, which end with the lead byte `E4` of the cut sequence, so the stored line is not
well-formed UTF-8. -/
theorem C24_truncation_counterexample :
    (∀ i : Nat, (i : Int) < (bufferOfLines [[228, 184, 173, 97]]).line_count →
      WellFormedUtf8 ((bufferOfLines [[228, 184, 173, 97]]).lines.getD i [])) ∧
    WellFormedUtf8 (List.replicate 4095 97 ++ [0xE4, 0xB8, 0xAD]) ∧
    (insert_line (bufferOfLines [[228, 184, 173, 97]]) 0
      (some (List.replicate 4095 97 ++ [0xE4, 0xB8, 0xAD]))).1 = 0 ∧
    get_line (insert_line (bufferOfLines [[228, 184, 173, 97]]) 0
      (some (List.replicate 4095 97 ++ [0xE4, 0xB8, 0xAD]))).2 0 =
        some (List.replicate 4095 97 ++ [0xE4]) ∧
    ¬ WellFormedUtf8 (List.replicate 4095 97 ++ [0xE4]) := by
  obtain ⟨h1, h2, h3⟩ := cut_text_example 4095 rfl
  have hs := insert_line_stored (bufferOfLines [[228, 184, 173, 97]]) 0
    (List.replicate 4095 97 ++ [0xE4, 0xB8, 0xAD]) sample_utf8_WF (by decide) (by decide)
    (by decide)
  rw [h2] at hs
  exact ⟨sample_utf8_wellFormed, h1, hs.1, hs.2.1, h3⟩

/-! ## The codepoint walk on a sequence cut short -/

/-- C30 fails in the code: `insert_line` on a fresh buffer stores the one-byte text `E4` (a
lead byte announcing three bytes) as line 0; the line has 1 byte and 1 character, yet
`utf8_byte_offset(line, 1)` is 3: the walk steps over the terminator.  In
`delete_at_position(buf, 0, 0, 1)` this is `byte_end`, and the `memmove` count
`line_len - byte_end + 1` wraps to `SIZE_MOD - 1`. -/
theorem C30_walk_steps_past_terminator :
    (insert_line (buffer_init (bufferOfLines [])) 0 (some [0xE4])).1 = 0 ∧
    get_line (insert_line (buffer_init (bufferOfLines [])) 0 (some [0xE4])).2 0 =
      some [0xE4] ∧
    utf8_strlen_chars [0xE4] = 1 ∧
    utf8_byte_offset [0xE4] 1 = 3 ∧
    ¬ (utf8_byte_offset [0xE4] 1 ≤ (([0xE4] : CStr).length : Int)) ∧
    utf8_byte_offset [0xE4] (utf8_strlen_chars [0xE4]) ≠ (([0xE4] : CStr).length : Int) ∧
    ((([0xE4] : CStr).length : Int) - utf8_byte_offset [0xE4] 1 + 1) % (SIZE_MOD : Int) =
      (SIZE_MOD : Int) - 1 := by
  refine ⟨by decide, by decide, by decide, by decide, by decide, by decide, by decide⟩

/-! ## The capacity invariant -/

theorem replace_all_loop_count_mono (old new : CStr) (lc : Int) :
    ∀ (fuel i : Nat) (lines : List CStr) (modified count : Int),
      count ≤ (replace_all_loop old new lc fuel i lines modified count).2.2 := by
  intro fuel
  induction fuel with
  | zero => intro i lines modified count; exact le_refl _
  | succ f ih =>
    intro i lines modified count
    have hstep : count ≤ (replace_all_line old new (lines.getD i []) count).2 := by
      rw [replace_all_line_count]
      have := lineReplaceCount_nonneg old new (lines.getD i [])
      simp only []
      omega
    unfold replace_all_loop
    split_ifs
    · exact le_trans hstep (ih _ _ _ _)
    · exact le_trans hstep (ih _ _ _ _)
    · exact le_refl _

/-- Source function `replace_all` returns -1 exactly when one of its string arguments is
`NULL`. -/
theorem replace_all_sentinel_iff (buf : TextBuffer) (oldArg newArg : Option CStr) :
    (replace_all buf oldArg newArg).1 = -1 ↔ (oldArg = none ∨ newArg = none) := by
  cases oldArg with
  | none => cases newArg <;> simp [replace_all]
  | some o =>
    cases newArg with
    | none => simp [replace_all]
    | some n =>
      have hne : ¬ ((0 : Int) = -1) := by decide
      by_cases hh : o.getD 0 0 = 0
      · simp only [replace_all, if_pos hh]
        simp
      · simp only [replace_all, if_neg hh]
        have := replace_all_loop_count_mono o n buf.line_count buf.line_count.toNat 0
          buf.lines buf.modified 0
        constructor
        · intro h
          omega
        · intro h
          simp at h

/-- C19 (amended): `delete_substring` with an empty text is rejected with the negative
sentinel -1; `replace_all` with an empty oldText returns 0, the same value as "no match";
both leave the buffer unchanged.  Only a `NULL` argument makes `replace_all` return -1. -/
theorem C19_empty_pattern (buf : TextBuffer) (newText : CStr) :
    replace_all buf (some []) (some newText) = (0, buf) ∧
    delete_substring buf (some []) = (-1, buf) ∧
    (∀ oldArg newArg : Option CStr,
      (replace_all buf oldArg newArg).1 = -1 ↔ (oldArg = none ∨ newArg = none)) :=
  ⟨rfl, rfl, fun oldArg newArg => replace_all_sentinel_iff buf oldArg newArg⟩

/-! ## Truncation and codepoint boundaries -/

/-- Two well-formed sequences that start the same byte string are the same sequence. -/
theorem isUtf8Seq_determined (c d x y : CStr) (hc : isUtf8Seq c = true)
    (hd : isUtf8Seq d = true) (h : c ++ x = d ++ y) : c = d := by
  obtain ⟨b0, tl, hce, _, hcl⟩ := isUtf8Seq_lead c hc
  obtain ⟨b1, tl1, hde, _, hdl⟩ := isUtf8Seq_lead d hd
  have hb : b0 = b1 := by
    rw [hce, hde] at h
    simp only [List.cons_append, List.cons.injEq] at h
    exact h.1
  have hlen : c.length = d.length := by rw [← hcl, ← hdl, hb]
  have h1 : (c ++ x).take c.length = c := List.take_left _ _
  have h2 : (d ++ y).take d.length = d := List.take_left _ _
  rw [← h1, h, hlen, h2]

/-- A well-formed string that starts a well-formed string is made of its first
codepoints. -/
theorem decomposition_of_initial_part :
    ∀ (ds cs : List CStr) (y : CStr), (∀ d ∈ ds, isUtf8Seq d = true) →
      (∀ c ∈ cs, isUtf8Seq c = true) → ds.flatten ++ y = cs.flatten →
      ∃ t, ds = cs.take t := by
  intro ds
  induction ds with
  | nil => intro cs y _ _ _; exact ⟨0, rfl⟩
  | cons d ds ih =>
    intro cs y hds hcs h
    have hd := hds d (List.mem_cons_self _ _)
    cases cs with
    | nil =>
      obtain ⟨b0, tl, hde, _, _⟩ := isUtf8Seq_lead d hd
      rw [hde] at h
      simp at h
    | cons c cs =>
      have hc := hcs c (List.mem_cons_self _ _)
      rw [List.flatten_cons, List.flatten_cons, List.append_assoc] at h
      have hcd : d = c := isUtf8Seq_determined d c _ _ hd hc h
      subst hcd
      have h2 := List.append_cancel_left h
      obtain ⟨t, ht⟩ := ih cs y (fun x hx => hds x (List.mem_cons_of_mem _ hx))
        (fun x hx => hcs x (List.mem_cons_of_mem _ hx)) h2
      exact ⟨t + 1, by rw [List.take_succ_cons, ht]⟩

/-- The first `MAX_LINE_LENGTH` bytes of a longer well-formed string are well-formed only if
they end on a codepoint boundary. -/
theorem boundary_of_wellFormed_take (content : CStr) (cs : List CStr)
    (hdec : IsUtf8Decomposition cs content) (hlong : MAX_LINE_LENGTH < content.length)
    (hwf : WellFormedUtf8 (content.take MAX_LINE_LENGTH)) :
    ∃ t, (cs.take t).flatten.length = MAX_LINE_LENGTH := by
  obtain ⟨ds, hds, hdv⟩ := hwf
  have h : ds.flatten ++ content.drop MAX_LINE_LENGTH = cs.flatten := by
    rw [← hds, List.take_append_drop]
    exact hdec.1
  obtain ⟨t, ht⟩ := decomposition_of_initial_part ds cs _ hdv hdec.2 h
  refine ⟨t, ?_⟩
  rw [← ht, ← hds, List.length_take]
  omega

/-- Every byte offset inside a string lies in one of its codepoints: at its first byte or
behind it. -/
theorem codepoint_around :
    ∀ (cs : List CStr) (n : Nat), n < cs.flatten.length →
      ∃ t, (cs.take t).flatten.length ≤ n ∧ n < (cs.take (t + 1)).flatten.length := by
  intro cs
  induction cs with
  | nil => intro n h; simp at h
  | cons c cs ih =>
    intro n h
    by_cases hn : n < c.length
    · refine ⟨0, by simp, ?_⟩
      simp only [List.take_succ_cons, List.take_zero, List.flatten_cons, List.flatten_nil,
        List.append_nil]
      exact hn
    · rw [List.flatten_cons, List.length_append] at h
      obtain ⟨t, h1, h2⟩ := ih (n - c.length) (by omega)
      refine ⟨t + 1, ?_, ?_⟩
      · rw [List.take_succ_cons, List.flatten_cons, List.length_append]
        omega
      · rw [List.take_succ_cons, List.flatten_cons, List.length_append]
        omega

/-- C24 (amended): when `insert_line` or `replace_all` cuts content to fit
`MAX_LINE_LENGTH` bytes, the cut is made at byte `MAX_LINE_LENGTH`, whatever stands there.
`insert_line` stores the first `MAX_LINE_LENGTH` bytes of the text; `replace_all` stores the
first `MAX_LINE_LENGTH` bytes of the replacements made so far followed by the unprocessed
remainder of the line.  The stored line is well-formed UTF-8 when byte offset
`MAX_LINE_LENGTH` is a codepoint boundary of the well-formed content; otherwise it is not
well-formed: it ends inside a multi-byte sequence of the content. -/
theorem C24_truncation_is_bytewise (buf : TextBuffer) (hwf : buf.WF) :
    (∀ (index : Int) (text : CStr), buf.line_count < MAX_LINES → 0 ≤ index →
      index ≤ buf.line_count →
      (insert_line buf index (some text)).1 = 0 ∧
      get_line (insert_line buf index (some text)).2 index =
        some (text.take MAX_LINE_LENGTH)) ∧
    (∀ (oldText newText : CStr) (i n : Nat) (out rest : CStr), oldText ≠ [] →
      (∀ b ∈ oldText, b ≠ 0) → NoWrapInReplace newText → (i : Int) < buf.line_count →
      greedySteps oldText newText n (buf.lines.getD i []) = some (out, rest) →
      out.length ≤ MAX_LINE_LENGTH →
      (strstr rest oldText = none ∨ ∃ k, strstr rest oldText = some k ∧
        out.length + k + newText.length > MAX_LINE_LENGTH) →
      get_line (replace_all buf (some oldText) (some newText)).2 (i : Int) =
        some ((out ++ rest).take MAX_LINE_LENGTH)) ∧
    (∀ (content : CStr) (cs : List CStr) (t : Nat), IsUtf8Decomposition cs content →
      (cs.take t).flatten.length = MAX_LINE_LENGTH →
      WellFormedUtf8 (content.take MAX_LINE_LENGTH)) ∧
    (∀ (content : CStr) (cs : List CStr), IsUtf8Decomposition cs content →
      MAX_LINE_LENGTH < content.length →
      (¬ ∃ t, (cs.take t).flatten.length = MAX_LINE_LENGTH) →
      ¬ WellFormedUtf8 (content.take MAX_LINE_LENGTH) ∧
      ∃ t, (cs.take t).flatten.length < MAX_LINE_LENGTH ∧
        MAX_LINE_LENGTH < (cs.take (t + 1)).flatten.length) := by
  refine ⟨?_, ?_, fun content cs t hdec ht => wellFormed_take_boundary content cs t hdec ht,
    ?_⟩
  · intro index text hc h0 h1
    have h := insert_line_stored buf index text hwf hc h0 h1
    exact ⟨h.1, h.2.1⟩
  · intro oldText newText i n out rest hne hb hnew hi hsteps hout hstop
    rw [replace_all_get_line buf oldText newText hwf (head_ne_zero oldText hne hb) i hi,
      lineAfterReplace_cut oldText newText _ (length_pos_of_ne_nil oldText hne) hnew
        (getD_length_le (WF_lengths hwf) i) n out rest hsteps hout hstop]
  · intro content cs hdec hlong hnb
    refine ⟨fun hw => hnb (boundary_of_wellFormed_take content cs hdec hlong hw), ?_⟩
    obtain ⟨t, h1, h2⟩ := codepoint_around cs MAX_LINE_LENGTH (by rw [← hdec.1]; exact hlong)
    refine ⟨t, ?_, h2⟩
    rcases Nat.lt_or_ge (cs.take t).flatten.length MAX_LINE_LENGTH with hlt | hge
    · exact hlt
    · exact absurd ⟨t, by omega⟩ hnb

theorem C24_truncation_is_bytewise_witness :
    (bufferOfLines [[97, 97]]).WF ∧
    get_line (insert_line (bufferOfLines [[97, 97]]) 0
      (some (List.replicate 4093 97 ++ [0xE4, 0xB8, 0xAD, 98]))).2 0 =
        some ((List.replicate 4093 97 ++ [0xE4, 0xB8, 0xAD, 98]).take MAX_LINE_LENGTH) ∧
    get_line (replace_all (bufferOfLines [[97, 97]]) (some [97])
      (some (List.replicate 4096 98))).2 ((0 : Nat) : Int) =
        some ((List.replicate 4096 98 ++ [97]).take MAX_LINE_LENGTH) ∧
    WellFormedUtf8 ((List.replicate 4093 97 ++ [0xE4, 0xB8, 0xAD, 98]).take MAX_LINE_LENGTH) := by
  have h := C24_truncation_is_bytewise (bufferOfLines [[97, 97]]) sample_aa_WF
  have hnw : NoWrapInReplace (List.replicate 4096 98) := by
    unfold NoWrapInReplace
    rw [List.length_replicate]
    decide
  have hdec := ascii_run_decomposition 4093 [[0xE4, 0xB8, 0xAD], [98]] (by decide)
  refine ⟨sample_aa_WF, (h.1 0 _ (by decide) (by decide) (by decide)).2,
    h.2.1 [97] (List.replicate 4096 98) 0 1 (List.replicate 4096 98) [97] (by decide)
      (by decide) hnw (by decide)
      (overflow_example (List.replicate 4096 98) (by rw [List.length_replicate]; rfl)).1
      (by rw [List.length_replicate]; decide)
      (Or.inr ⟨0, by decide, by rw [List.length_replicate]; decide⟩),
    h.2.2.1 _ _ 4094 hdec ?_⟩
  rw [show (4094 : Nat) = 4093 + 1 from rfl, List.take_append_eq_append_take,
    List.length_replicate, List.take_of_length_le (by rw [List.length_replicate]; omega),
    show 4093 + 1 - 4093 = 1 from rfl, List.flatten_append, flatten_replicate_singleton,
    List.length_append, List.length_replicate]
  rfl

/-! ## count_characters on the raw memory -/

/-- A row holding the line `a1 ,` followed by U+4E2D, U+3002, U+FF21 and U+1F600. -/
theorem count_characters_sample :
    count_characters
      ⟨[97, 49, 32, 44, 0xE4, 0xB8, 0xAD, 0xE3, 0x80, 0x82, 0xEF, 0xBC, 0xA1,
        0xF0, 0x9F, 0x98, 0x80, 0], 1, 0⟩ = ⟨2, 1, 1, 8, 2, 1, 1⟩ := by
  decide

/-- On the row `E4 00 c d e f g h` the walk steps over the terminator: the lone lead byte and
the two bytes behind it decode to U+4023, and the five letters that follow are counted
too. -/
theorem count_characters_stale_row :
    count_characters staleRowBuffer = ⟨5, 0, 0, 6, 0, 0, 1⟩ ∧
    bufferCodepoints staleRowBuffer = [0x4023, 100, 101, 102, 103, 104] := by
  decide

theorem staleRowBuffer_eq :
    staleRowBuffer = ⟨[0xE4, 0, 99, 100, 101, 102, 103, 104, 0], 1, 1⟩ := by
  decide

/-- On a well-formed line with codepoints `cs`, `insert_substring` succeeds exactly for a
valid line index, a column within `0 .. length cs` and a text that fits; every failure
returns -1 and changes nothing. -/
theorem insert_substring_success_iff_decomp (buf : TextBuffer) (line col : Int) (text : CStr)
    (cs : List CStr) (hdec : IsUtf8Decomposition cs (buf.lines.getD line.toNat [])) :
    ((insert_substring buf line col (some text)).1 = 0 ↔
      (0 ≤ line ∧ line < buf.line_count ∧ 0 ≤ col ∧ col ≤ (cs.length : Int) ∧
        (buf.lines.getD line.toNat []).length + text.length ≤ MAX_LINE_LENGTH)) ∧
    (col > (cs.length : Int) → (insert_substring buf line col (some text)).1 = -1) ∧
    ((buf.lines.getD line.toNat []).length + text.length = MAX_LINE_LENGTH + 1 →
      (insert_substring buf line col (some text)).1 = -1) ∧
    (0 ≤ line → line < buf.line_count → 0 ≤ col → col ≤ (cs.length : Int) →
      (buf.lines.getD line.toNat []).length + text.length = MAX_LINE_LENGTH →
      (insert_substring buf line col (some text)).1 = 0) ∧
    ((insert_substring buf line col (some text)).1 ≠ 0 →
      (insert_substring buf line col (some text)).1 = -1 ∧
      (insert_substring buf line col (some text)).2 = buf) := by
  have hiff := utf8_byte_offset_nonneg_iff (buf.lines.getD line.toNat []) col
  rw [utf8_strlen_chars_decomp cs _ hdec] at hiff
  rcases insert_substring_cases buf line col text with ⟨hc, he⟩ | ⟨hc, he⟩
  · rw [he]
    have hne : ¬ ((-1 : Int) = 0) := by decide
    refine ⟨⟨fun h => absurd h hne, fun h => ?_⟩, fun _ => rfl, fun _ => rfl,
      fun h0 h1 h2 h3 h4 => ?_, fun _ => ⟨rfl, rfl⟩⟩
    · have := hiff.mpr ⟨h.2.2.1, h.2.2.2.1⟩
      omega
    · have := hiff.mpr ⟨h2, h3⟩
      omega
  · rw [he]
    have hcol := hiff.mp hc.2.2.1
    refine ⟨⟨fun _ => ⟨hc.1, hc.2.1, hcol.1, hcol.2, hc.2.2.2⟩, fun _ => rfl⟩,
      fun h => ?_, fun h => ?_, fun _ _ _ _ _ => rfl, fun h => absurd rfl h⟩
    · omega
    · omega

/-- C9 fails in the code on a line that ends in a cut multi-byte sequence.  After
`insert_line(buf, 0, "abcdefgh")`, `delete_line(buf, 0)` and `insert_line(buf, 0, "\xE4")` the
only line is the byte `E4`, one character, and the bytes `cdefgh` still stand behind its
terminator.  `insert_substring(buf, 0, 2, "X")` has `col = 2 > charLength(line) = 1` and is
specified to fail; `utf8_byte_offset` steps over the terminator and returns offset 4, so the
call returns 0 and stores `E4 X e f g h`.  On a well-formed line the claim holds. -/
theorem C9_insert_substring_past_line_end :
    staleRowBuffer = ⟨[0xE4, 0, 99, 100, 101, 102, 103, 104, 0], 1, 1⟩ ∧
    cstring (staleRowBuffer.row 0) = [0xE4] ∧
    utf8_strlen_chars [0xE4] = 1 ∧
    utf8_byte_offset (staleRowBuffer.row 0) 2 = 4 ∧
    insert_substring_raw staleRowBuffer 0 2 (some [88]) =
      some (0, ⟨[0xE4, 88, 101, 102, 103, 104, 0, 104, 0], 1, 1⟩) ∧
    (∀ (buf : TextBuffer) (line col : Int) (text : CStr) (cs : List CStr),
      IsUtf8Decomposition cs (buf.lines.getD line.toNat []) →
      ((insert_substring buf line col (some text)).1 = 0 ↔
        (0 ≤ line ∧ line < buf.line_count ∧ 0 ≤ col ∧ col ≤ (cs.length : Int) ∧
          (buf.lines.getD line.toNat []).length + text.length ≤ MAX_LINE_LENGTH)) ∧
      ((insert_substring buf line col (some text)).1 ≠ 0 →
        (insert_substring buf line col (some text)).1 = -1 ∧
        (insert_substring buf line col (some text)).2 = buf)) := by
  refine ⟨by decide, by decide, by decide, by decide, by decide, ?_⟩
  intro buf line col text cs hdec
  have h := insert_substring_success_iff_decomp buf line col text cs hdec
  exact ⟨h.1, h.2.2.2.2⟩

/-- Where the character counts are those of the lines' bytes before the terminator (as on
well-formed lines): for `0 ≤ pos ≤ T` there is exactly one pair `(i, c)` with
`0 ≤ c ≤ charLength (line i)` and `pos = lineStart i + c`, and `insert_at_position` is
`insert_substring i c`; `pos = T` inserts at the end of the last line. -/
theorem insert_at_position_locates (buf : TextBuffer) (pos : Int) (text : CStr)
    (hwf : buf.WF) (hne : 0 < buf.line_count) (h0 : 0 ≤ pos) (hT : pos ≤ totalPositions buf) :
    (∃ (i : Nat) (c : Int), (i : Int) < buf.line_count ∧ 0 ≤ c ∧
        c ≤ utf8_strlen_chars (buf.lines.getD i []) ∧ pos = lineStart buf i + c) ∧
    (∀ (i i2 : Nat) (c c2 : Int),
      (0 ≤ c ∧ c ≤ utf8_strlen_chars (buf.lines.getD i []) ∧ pos = lineStart buf i + c) →
      (0 ≤ c2 ∧ c2 ≤ utf8_strlen_chars (buf.lines.getD i2 []) ∧ pos = lineStart buf i2 + c2) →
      i = i2 ∧ c = c2) ∧
    (∀ (i : Nat) (c : Int), (i : Int) < buf.line_count → 0 ≤ c →
      c ≤ utf8_strlen_chars (buf.lines.getD i []) → pos = lineStart buf i + c →
      insert_at_position buf pos (some text) = insert_substring buf (i : Int) c (some text)) ∧
    (pos = totalPositions buf →
      insert_at_position buf pos (some text) =
        insert_substring buf (buf.line_count - 1)
          (utf8_strlen_chars (buf.lines.getD (buf.line_count - 1).toNat [])) (some text)) := by
  have hL := hwf.2.1
  have hTeq := totalPositions_eq buf hL
  have hfind : ∀ (i : Nat) (c : Int), (i : Int) < buf.line_count → 0 ≤ c →
      c ≤ utf8_strlen_chars (buf.lines.getD i []) → pos = lineStart buf i + c →
      insert_at_position buf pos (some text) = insert_substring buf (i : Int) c (some text) := by
    intro i c hi hc0 hc1 hpos
    have hloop := insert_at_position_loop_finds buf pos (some text) i c hi hc0 hc1 hpos
      buf.line_count.toNat 0 (by omega) (Nat.zero_le _)
    simp only [lineStart] at hloop
    simp only [insert_at_position, if_neg (not_lt.mpr h0), if_neg (ne_of_gt hne), hloop]
  refine ⟨?_, ?_, hfind, ?_⟩
  · obtain ⟨j, c, hj, hc⟩ := position_exists buf pos h0 buf.line_count.toNat (by omega)
    exact ⟨j, c, by omega, hc⟩
  · intro i i2 c c2 h1 h2
    exact position_unique buf i i2 c c2 h1.1 h1.2.1 h2.1 h2.2.1 (by rw [← h1.2.2, ← h2.2.2])
  · intro hpT
    obtain ⟨n, hn⟩ : ∃ n : Nat, buf.line_count = ((n + 1 : Nat) : Int) :=
      ⟨buf.line_count.toNat - 1, by omega⟩
    have e1 : buf.line_count - 1 = (n : Int) := by omega
    have e2 : buf.line_count.toNat = n + 1 := by omega
    rw [e1, Int.toNat_ofNat]
    apply hfind n _ (by omega) (utf8_strlen_chars_nonneg _) (le_refl _)
    rw [hpT, hTeq, e2, lineStart]
    omega

/-- Reading the memory after a store: the stored bytes inside the written range, the old
byte elsewhere. -/
theorem storeAt_getD (bytes : List Nat) (off : Nat) (s : List Nat) (k : Nat) :
    (storeAt bytes off s).getD k 0 =
      if k < off then bytes.getD k 0
      else if k < off + s.length then s.getD (k - off) 0
      else bytes.getD k 0 := by
  have hlen : ((bytes ++ List.replicate (off - bytes.length) 0).take off).length = off := by
    simp only [List.length_take, List.length_append, List.length_replicate]
    omega
  unfold storeAt
  by_cases h1 : k < off
  · rw [if_pos h1, List.append_assoc, List.getD_append _ _ _ _ (by omega)]
    simp only [List.getD_eq_getElem?_getD, List.getElem?_take, if_pos h1]
    by_cases h2 : k < bytes.length
    · rw [List.getElem?_append_left h2]
    · rw [List.getElem?_append_right (by omega), List.getElem?_eq_none (not_lt.mp h2)]
      simp [List.getElem?_replicate]
      split_ifs <;> rfl
  · rw [if_neg h1, List.append_assoc, List.getD_append_right _ _ _ _ (by omega), hlen]
    by_cases h3 : k < off + s.length
    · rw [if_pos h3, List.getD_append _ _ _ _ (by omega)]
    · rw [if_neg h3, List.getD_append_right _ _ _ _ (by omega)]
      simp only [List.getD_eq_getElem?_getD, List.getElem?_drop]
      congr 2
      omega

/-- The memory of `staleTwoLineBuffer` is the memory after `insert_line(buf, 1, "")` on
`staleRowBuffer`: the call writes the terminator of the empty string into row 1, where a zero
byte stands already, and raises `line_count` to 2. -/
theorem staleTwoLineBuffer_memory :
    (insert_line_raw staleRowBuffer 1 (some [])).1 = 0 ∧
    (insert_line_raw staleRowBuffer 1 (some [])).2.line_count = staleTwoLineBuffer.line_count ∧
    (insert_line_raw staleRowBuffer 1 (some [])).2.modified = staleTwoLineBuffer.modified ∧
    ∀ k : Nat, (insert_line_raw staleRowBuffer 1 (some [])).2.bytes.getD k 0 =
      staleTwoLineBuffer.bytes.getD k 0 := by
  have hb : (insert_line_raw staleRowBuffer 1 (some [])).2 =
      { staleRowBuffer with
        bytes := storeAt staleRowBuffer.bytes (MAX_LINE_LENGTH + 1) [0],
        line_count := 2 } := by
    rw [staleRowBuffer_eq]
    rfl
  refine ⟨by rw [staleRowBuffer_eq]; rfl, by rw [hb]; rfl, by rw [hb, staleRowBuffer_eq]; rfl, ?_⟩
  intro k
  rw [hb]
  show (storeAt staleRowBuffer.bytes (MAX_LINE_LENGTH + 1) [0]).getD k 0 =
    staleRowBuffer.bytes.getD k 0
  rw [storeAt_getD]
  split_ifs with h1 h2
  · rfl
  · have hk : k = MAX_LINE_LENGTH + 1 := by
      simp only [List.length_singleton] at h2
      omega
    subst hk
    rw [staleRowBuffer_eq]
    simp [MAX_LINE_LENGTH]
  · rfl

/-- C13 fails in the code on a buffer with a line that ends in a cut multi-byte sequence.
The buffer holds two lines: the byte `E4` (one character), with `cdefgh` still behind its
terminator, and an empty line; so `T = 2` and position 2 is the pair `(1, 0)`, the start of
line 1.  The code counts 6 characters for line 0, takes position 2 to lie in it, and calls
`insert_substring(buf, 0, 2, "X")`: line 0 becomes `E4 X e f g h` and line 1 stays empty,
which is not what `insert_substring(buf, 1, 0, "X")` does.  On buffers whose lines are
well-formed the claim holds. -/
theorem C13_insert_at_position_wrong_line :
    cstring (staleTwoLineBuffer.row 0) = [0xE4] ∧ cstring (staleTwoLineBuffer.row 1) = [] ∧
    totalPositions (bufferOfLines [[0xE4], []]) = 2 ∧
    lineStart (bufferOfLines [[0xE4], []]) 1 + 0 = 2 ∧
    utf8_strlen_chars (staleTwoLineBuffer.row 0) = 6 ∧
    insert_at_position_raw staleTwoLineBuffer 2 (some [88]) =
      some (0, ⟨[0xE4, 88, 101, 102, 103, 104, 0, 104, 0], 2, 1⟩) ∧
    insert_at_position_raw staleTwoLineBuffer 2 (some [88]) ≠
      insert_substring_raw staleTwoLineBuffer 1 0 (some [88]) ∧
    (∀ (buf : TextBuffer) (pos : Int) (text : CStr), buf.WF → LinesWellFormed buf →
      0 < buf.line_count → 0 ≤ pos → pos ≤ totalPositions buf →
      (∃ (i : Nat) (c : Int), (i : Int) < buf.line_count ∧ 0 ≤ c ∧
          c ≤ utf8_strlen_chars (buf.lines.getD i []) ∧ pos = lineStart buf i + c) ∧
      (∀ (i i2 : Nat) (c c2 : Int),
        (0 ≤ c ∧ c ≤ utf8_strlen_chars (buf.lines.getD i []) ∧ pos = lineStart buf i + c) →
        (0 ≤ c2 ∧ c2 ≤ utf8_strlen_chars (buf.lines.getD i2 []) ∧
          pos = lineStart buf i2 + c2) →
        i = i2 ∧ c = c2) ∧
      (∀ (i : Nat) (c : Int), (i : Int) < buf.line_count → 0 ≤ c →
        c ≤ utf8_strlen_chars (buf.lines.getD i []) → pos = lineStart buf i + c →
        insert_at_position buf pos (some text) =
          insert_substring buf (i : Int) c (some text)) ∧
      (pos = totalPositions buf →
        insert_at_position buf pos (some text) =
          insert_substring buf (buf.line_count - 1)
            (utf8_strlen_chars (buf.lines.getD (buf.line_count - 1).toNat []))
            (some text))) := by
  refine ⟨by decide, by decide, by decide, by decide, by decide, by decide, by decide, ?_⟩
  intro buf pos text hwf _ hne h0 hT
  exact insert_at_position_locates buf pos text hwf hne h0 hT

/-- Past the end of a line that ends in a cut sequence: on the one-line buffer whose line is
the byte `E4` (total length 1) the code accepts position 5, because it counts the bytes
behind the terminator as characters of the line. -/
theorem insert_at_position_past_end_on_stale_row :
    totalPositions (bufferOfLines [[0xE4]]) = 1 ∧
    insert_at_position_raw staleRowBuffer 5 (some [88]) =
      some (0, ⟨[0xE4, 88, 104, 0, 101, 102, 103, 104, 0], 1, 1⟩) := by
  decide

theorem sample_two_lines_wellFormed : LinesWellFormed (bufferOfLines [[97], [98]]) := by
  intro i hi
  have hi2 : i = 0 ∨ i = 1 := by
    simp only [bufferOfLines, List.length_cons, List.length_nil] at hi
    omega
  rcases hi2 with h | h <;> subst h
  · exact ⟨[[97]], by decide, by decide⟩
  · exact ⟨[[98]], by decide, by decide⟩

/-- C14 (amended): for every non-empty buffer whose lines are well-formed UTF-8 and every
`pos` greater than the total character length plus the number of inter-line boundaries,
`insert_at_position` returns -1 and leaves the buffer unchanged; on the empty buffer every
`pos ≥ 0` is accepted and the call is `insert_line 0`. -/
theorem C14_insert_at_position_past_end (buf : TextBuffer) (pos : Int) (text : CStr)
    (hwf : buf.WF) :
    (0 < buf.line_count → LinesWellFormed buf → pos > totalPositions buf →
      insert_at_position buf pos (some text) = (-1, buf)) ∧
    (buf.line_count = 0 → 0 ≤ pos →
      insert_at_position buf pos (some text) = insert_line buf 0 (some text)) := by
  constructor
  · intro hne _ hpos
    rw [totalPositions_eq buf hwf.2.1] at hpos
    have hp0 : ¬ (pos < 0) := by
      have := lineStart_le buf 1 buf.line_count.toNat (by omega)
      have h1 : (0 : Int) ≤ lineStart buf 1 - 1 := by
        simp only [lineStart]
        have := utf8_strlen_chars_nonneg (buf.lines.getD 0 [])
        omega
      omega
    have hloop := insert_at_position_loop_misses buf pos (some text) hpos
      buf.line_count.toNat 0 (by omega) (by omega)
    simp only [lineStart] at hloop
    simp only [insert_at_position, if_neg hp0, if_neg (ne_of_gt hne), hloop]
    rw [if_neg (by omega)]
  · intro h0 hpos
    simp only [insert_at_position, if_neg (not_lt.mpr hpos), if_pos h0]

theorem C14_insert_at_position_past_end_witness :
    (bufferOfLines [[97], [98]]).WF ∧ LinesWellFormed (bufferOfLines [[97], [98]]) ∧
    insert_at_position (bufferOfLines [[97], [98]]) 4 (some [120]) =
      (-1, bufferOfLines [[97], [98]]) :=
  ⟨sample_two_lines_WF, sample_two_lines_wellFormed,
    (C14_insert_at_position_past_end (bufferOfLines [[97], [98]]) 4 [120]
      sample_two_lines_WF).1 (by decide) sample_two_lines_wellFormed (by decide)⟩

/-! ## The capacity invariant along reachable buffers -/

/-- A reachable buffer: `insert_line` of `a`, `replace_char` by U+4E2D, `insert_substring`
of `b`, `delete_at_position` of the first character. -/
theorem sample_reachable :
    Reachable (delete_at_position (insert_substring (replace_char
      (insert_line (buffer_init (bufferOfLines [])) 0 (some [97])).2 0 0
        (some [0xE4, 0xB8, 0xAD])).2 0 1 (some [98])).2 0 0 1).2 ∧
    (delete_at_position (insert_substring (replace_char
      (insert_line (buffer_init (bufferOfLines [])) 0 (some [97])).2 0 0
        (some [0xE4, 0xB8, 0xAD])).2 0 1 (some [98])).2 0 0 1).2.occupied = [[98]] := by
  have w : ∀ (buf : TextBuffer) (l : CStr) (cs : List CStr), buf.line_count = 1 →
      buf.lines.getD 0 [] = l → IsUtf8Decomposition cs l → LinesWellFormed buf := by
    intro buf l cs hc hl hd i hi
    have hi0 : i = 0 := by omega
    subst hi0
    rw [hl]
    exact ⟨cs, hd⟩
  have r1 := Reachable.insert_line _ 0 (some [97]) (Reachable.init (bufferOfLines []))
    (by decide)
  have r2 := Reachable.replace_char _ 0 0 (some [0xE4, 0xB8, 0xAD]) r1
    (w _ [97] [[97]] (by decide) (by decide) ⟨rfl, by decide⟩) (by decide) (by decide)
  have r3 := Reachable.insert_substring _ 0 1 (some [98]) r2
    (w _ [0xE4, 0xB8, 0xAD] [[0xE4, 0xB8, 0xAD]] (by decide) (by decide) ⟨rfl, by decide⟩)
    (by decide) (by decide)
  have r4 := Reachable.delete_at_position _ 0 0 1 r3
    (w _ [0xE4, 0xB8, 0xAD, 98] [[0xE4, 0xB8, 0xAD], [98]] (by decide) (by decide)
      ⟨rfl, by decide⟩)
    (by decide) (by decide) (by decide)
  exact ⟨r4, by decide⟩

end SimpleTextEditor
